import Mathlib

/-!
Verification of the LLM-Council backend (`backend/council.py`,
`backend/openrouter.py`, `backend/config.py`) against its natural-language
specification.

The Python code is shallowly embedded: every function under scrutiny is
translated into an executable Lean definition over `List Char` strings and a
`Json` value type mirroring the values produced by Python's `json.loads`.
Python code that can raise `AttributeError`/`TypeError` on adversarial input
is embedded in the `Except` monad; code that only raises-and-catches
`json.JSONDecodeError` is embedded with `Option`.

Modelling conventions (stated once here, referenced from the definitions):
* strings are `List Char`; Python `str.lower` is modelled on ASCII letters;
* JSON numbers cover the integer fragment only (floating point is out of
  scope for every claim considered here);
* Python's recursion limit (a resource bound) is not modelled;
* Python's `json.dumps` is modelled with `ensure_ascii=False` (non-ASCII
  characters are emitted raw); this choice is invisible to every claim below
  because `json.loads` decodes `\uXXXX` escapes back to the same character;
* lone UTF-16 surrogate escapes, which CPython's `json` tolerates, are not
  representable by Lean `Char` and are treated as parse failures.
-/

/-- Strings of the embedded Python code are lists of characters. -/
abbrev Str := List Char

namespace Council

/-- Whitespace recognised by Python's `json` module (`' '`, `'\t'`, `'\n'`, `'\r'`). -/
def isJsonWs (c : Char) : Bool :=
  c = ' ' || c = '\t' || c = '\n' || c = '\r'

/-- Whitespace in the sense of Python's `str.strip()` / regex `\s`
(ASCII fragment: space, tab, newline, carriage return, vertical tab, form feed). -/
def isPyWs (c : Char) : Bool :=
  c = ' ' || c = '\t' || c = '\n' || c = '\r' || c = '\x0b' || c = '\x0c'

/-- Skip JSON whitespace. -/
def skipWs (cs : Str) : Str := cs.dropWhile (fun c => isJsonWs c)

/-- Python `str.strip()` (ASCII whitespace fragment). -/
def pyStrip (cs : Str) : Str :=
  ((cs.dropWhile (fun c => isPyWs c)).reverse.dropWhile (fun c => isPyWs c)).reverse

/-- ASCII lower-casing of one character (fragment of Python `str.lower`). -/
def asciiLower (c : Char) : Char :=
  if 'A' ≤ c && c ≤ 'Z' then Char.ofNat (c.toNat + 32) else c

/-- ASCII lower-casing of a string (fragment of Python `str.lower`). -/
def lowerStr (cs : Str) : Str := cs.map asciiLower

/-- Python `needle in haystack` on strings: substring containment. -/
def strContains (haystack needle : Str) : Bool :=
  match haystack with
  | [] => needle.isPrefixOf ([] : Str)
  | _ :: rest => needle.isPrefixOf haystack || strContains rest needle

mutual

/-- Values produced by Python's `json.loads` (integer-number fragment).
Objects keep their members as an association list in source order; CPython
keeps the last value for a duplicated key, which the lookup function
`Council.objLookup` reproduces. -/
inductive Json where
  | null : Json
  | bool (b : Bool) : Json
  | num (n : Int) : Json
  | str (s : Str) : Json
  | arr (xs : JsonList) : Json
  | obj (kvs : JsonMembers) : Json

/-- Lists of JSON values (mutual with `Json` so that all recursion stays structural). -/
inductive JsonList where
  | nil : JsonList
  | cons (hd : Json) (tl : JsonList) : JsonList

/-- Object members of a JSON object, in source order. -/
inductive JsonMembers where
  | nil : JsonMembers
  | cons (k : Str) (v : Json) (tl : JsonMembers) : JsonMembers

end

mutual

def Json.beq : Json → Json → Bool
  | .null, .null => true
  | .bool a, .bool b => a = b
  | .num a, .num b => a = b
  | .str a, .str b => a = b
  | .arr a, .arr b => JsonList.beq a b
  | .obj a, .obj b => JsonMembers.beq a b
  | _, _ => false

def JsonList.beq : JsonList → JsonList → Bool
  | .nil, .nil => true
  | .cons a as, .cons b bs => Json.beq a b && JsonList.beq as bs
  | _, _ => false

def JsonMembers.beq : JsonMembers → JsonMembers → Bool
  | .nil, .nil => true
  | .cons k v tl, .cons k2 v2 tl2 => k = k2 && Json.beq v v2 && JsonMembers.beq tl tl2
  | _, _ => false

end

mutual

theorem Json.beqIffJson : ∀ a b : Json, Json.beq a b = true ↔ a = b
  | .null, b => by cases b <;> simp [Json.beq]
  | .bool x, b => by cases b <;> simp [Json.beq]
  | .num x, b => by cases b <;> simp [Json.beq]
  | .str x, b => by cases b <;> simp [Json.beq]
  | .arr xs, b => by
      cases b with
      | arr ys => simp [Json.beq, JsonList.beqIffJsonList xs ys]
      | _ => simp [Json.beq]
  | .obj kvs, b => by
      cases b with
      | obj kvs2 => simp [Json.beq, JsonMembers.beqIffJsonMembers kvs kvs2]
      | _ => simp [Json.beq]

theorem JsonList.beqIffJsonList : ∀ a b : JsonList, JsonList.beq a b = true ↔ a = b
  | .nil, b => by cases b <;> simp [JsonList.beq]
  | .cons x xs, b => by
      cases b with
      | cons y ys => simp [JsonList.beq, Json.beqIffJson x y, JsonList.beqIffJsonList xs ys]
      | _ => simp [JsonList.beq]

theorem JsonMembers.beqIffJsonMembers : ∀ a b : JsonMembers, JsonMembers.beq a b = true ↔ a = b
  | .nil, b => by cases b <;> simp [JsonMembers.beq]
  | .cons k v tl, b => by
      cases b with
      | cons k2 v2 tl2 =>
        simp [JsonMembers.beq, Json.beqIffJson v v2, JsonMembers.beqIffJsonMembers tl tl2, and_assoc]
      | _ => simp [JsonMembers.beq]

end

instance : DecidableEq Json := fun a b =>
  decidable_of_iff (Json.beq a b = true) (Json.beqIffJson a b)

instance : DecidableEq JsonList := fun a b =>
  decidable_of_iff (JsonList.beq a b = true) (JsonList.beqIffJsonList a b)

instance : DecidableEq JsonMembers := fun a b =>
  decidable_of_iff (JsonMembers.beq a b = true) (JsonMembers.beqIffJsonMembers a b)

/-- View of a `JsonList` as a plain Lean list (used only in statements/helpers). -/
def JsonList.toList : JsonList → List Json
  | .nil => []
  | .cons x xs => x :: xs.toList

/-- View of `JsonMembers` as a plain association list. -/
def JsonMembers.toList : JsonMembers → List (Str × Json)
  | .nil => []
  | .cons k v tl => (k, v) :: tl.toList

/-- Build a `JsonList` from a Lean list (used to write concrete test values). -/
def JsonList.ofList : List Json → JsonList
  | [] => .nil
  | x :: xs => .cons x (JsonList.ofList xs)

/-- Build `JsonMembers` from a Lean association list. -/
def JsonMembers.ofList : List (Str × Json) → JsonMembers
  | [] => .nil
  | (k, v) :: xs => .cons k v (JsonMembers.ofList xs)

/-- Python truthiness of a `json.loads` value (`bool(value)`). -/
def Json.truthy : Json → Bool
  | .null => false
  | .bool b => b
  | .num n => n ≠ 0
  | .str s => s ≠ []
  | .arr xs => xs ≠ JsonList.nil
  | .obj kvs => kvs ≠ JsonMembers.nil

/-- Python `dict.get` on a parsed JSON object: CPython's dict construction keeps
the last value bound to a duplicated key, so lookup scans from the right. -/
def objLookup (kvs : List (Str × Json)) (k : Str) : Option Json :=
  (kvs.reverse.find? (fun p => p.1 = k)).map (fun p => p.2)

/-- Python `raw.get(key)` on a `Json` object value; `none` when absent. -/
def Json.get? (v : Json) (k : Str) : Option Json :=
  match v with
  | .obj kvs => objLookup kvs.toList k
  | _ => none

/-- Hex digit value, as accepted by a JSON `\uXXXX` escape. -/
def hexVal (c : Char) : Option Nat :=
  let n := c.toNat
  if 48 ≤ n && n ≤ 57 then some (n - 48)
  else if 97 ≤ n && n ≤ 102 then some (n - 87)
  else if 65 ≤ n && n ≤ 70 then some (n - 55)
  else none

/-- Value of four hex digits (the payload of a `\uXXXX` escape). -/
def hex4 (a b c d : Char) : Option Nat := do
  let va ← hexVal a
  let vb ← hexVal b
  let vc ← hexVal c
  let vd ← hexVal d
  pure (((va * 16 + vb) * 16 + vc) * 16 + vd)

/-- Decoding of a `\uXXXX` escape (input starts after the `\u`), with
surrogate-pair combination.  Lone surrogates are rejected (see the module
comment). -/
def parseUniEscape : Str → Option (Char × Str)
  | h1 :: h2 :: h3 :: h4 :: rest3 =>
    match hex4 h1 h2 h3 h4 with
    | none => none
    | some n =>
      if n < 0xd800 || 0xdfff < n then some (Char.ofNat n, rest3)
      else if n ≤ 0xdbff then
        match rest3 with
        | '\\' :: 'u' :: g1 :: g2 :: g3 :: g4 :: rest4 =>
          match hex4 g1 g2 g3 g4 with
          | none => none
          | some m =>
            if 0xdc00 ≤ m && m ≤ 0xdfff then
              some (Char.ofNat (0x10000 + (n - 0xd800) * 0x400 + (m - 0xdc00)), rest4)
            else none
        | _ => none
      else none
  | _ => none

/-- Decoding of one escape sequence (input starts after the backslash). -/
def parseEscapeSeq : Str → Option (Char × Str)
  | [] => none
  | e :: rest2 =>
    if e = '\"' then some ('\"', rest2)
    else if e = '\\' then some ('\\', rest2)
    else if e = '/' then some ('/', rest2)
    else if e = 'b' then some ('\x08', rest2)
    else if e = 'f' then some ('\x0c', rest2)
    else if e = 'n' then some ('\n', rest2)
    else if e = 'r' then some ('\r', rest2)
    else if e = 't' then some ('\t', rest2)
    else if e = 'u' then parseUniEscape rest2
    else none

/-- One step inside a JSON string literal: `some (none, rest)` at the closing
quote, `some (some c, rest)` after decoding one character, `none` on error.
Mirrors CPython's strict scanner: raw control characters are rejected. -/
def nextStrChar : Str → Option (Option Char × Str)
  | [] => none
  | c :: rest =>
    if c = '\"' then some (none, rest)
    else if c = '\\' then (parseEscapeSeq rest).map (fun p => (some p.1, p.2))
    else if c.toNat < 0x20 then none
    else some (some c, rest)

/-- Body of a JSON string literal, after the opening quote, by fuelled
iteration of `nextStrChar`: returns the decoded characters and the remainder
after the closing quote. -/
def parseStringAux : Nat → Str → Option (Str × Str)
  | 0, _ => none
  | Nat.succ fuel, cs =>
    match nextStrChar cs with
    | none => none
    | some (none, rest) => some ([], rest)
    | some (some c, rest) => (parseStringAux fuel rest).map (fun p => (c :: p.1, p.2))

/-- Body of a JSON string literal; every `nextStrChar` step consumes at least
one input character, so `length + 1` fuel always suffices. -/
def parseStringBody (cs : Str) : Option (Str × Str) :=
  parseStringAux (cs.length + 1) cs

/-- Numeric value of a list of decimal digit characters. -/
def digitsToNat (ds : Str) : Nat :=
  ds.foldl (fun a c => a * 10 + (c.toNat - '0'.toNat)) 0

/-- JSON number literal (integer fragment): `0` or a nonzero digit followed by
digits, read greedily.  Leading zeros are rejected, as in the JSON grammar.
Fractional and exponent parts are outside the model (floats are out of scope);
an input carrying them fails here and therefore fails to parse, exactly where
CPython would have produced a float. -/
def parseNumBody (cs : Str) : Option (Int × Str) :=
  let ds := cs.takeWhile (fun c => c.isDigit)
  let rest := cs.dropWhile (fun c => c.isDigit)
  if ds = [] then none
  else if ds.head? = some '0' ∧ 1 < ds.length then none
  else some ((digitsToNat ds : Int), rest)

/-- JSON number with optional leading minus sign. -/
def parseNumber (cs : Str) : Option (Int × Str) :=
  match cs with
  | [] => none
  | c :: rest =>
    if c = '-' then (parseNumBody rest).map (fun p => (-p.1, p.2))
    else parseNumBody (c :: rest)

/-- JSON keyword literal (`true`, `false`, `null`) at the head of the input. -/
def parseKeyword : Str → Option (Json × Str)
  | 't' :: 'r' :: 'u' :: 'e' :: r => some (Json.bool true, r)
  | 'f' :: 'a' :: 'l' :: 's' :: 'e' :: r => some (Json.bool false, r)
  | 'n' :: 'u' :: 'l' :: 'l' :: r => some (Json.null, r)
  | _ => none

mutual

/-- One JSON value at the head of the input (whitespace already skipped),
with the unconsumed remainder.  The fuel argument only bounds recursion depth;
`Json.parse` supplies enough fuel for every input. -/
def parseValue : Nat → Str → Option (Json × Str)
  | 0, _ => none
  | Nat.succ fuel, cs =>
    match cs with
    | [] => none
    | c :: rest =>
      if c = '\"' then (parseStringBody rest).map (fun p => (Json.str p.1, p.2))
      else if c = '\x7b' then
        match skipWs rest with
        | [] => none
        | c2 :: r2 =>
          if c2 = '\x7d' then some (Json.obj JsonMembers.nil, r2)
          else (parseMembers fuel (c2 :: r2)).map (fun p => (Json.obj p.1, p.2))
      else if c = '[' then
        match skipWs rest with
        | [] => none
        | c2 :: r2 =>
          if c2 = ']' then some (Json.arr JsonList.nil, r2)
          else (parseItems fuel (c2 :: r2)).map (fun p => (Json.arr p.1, p.2))
      else if c = 't' || c = 'f' || c = 'n' then parseKeyword cs
      else (parseNumber cs).map (fun p => (Json.num p.1, p.2))

/-- Comma-separated array elements, first element at the head of the input. -/
def parseItems : Nat → Str → Option (JsonList × Str)
  | 0, _ => none
  | Nat.succ fuel, cs =>
    match parseValue fuel cs with
    | none => none
    | some (v, r) =>
      match skipWs r with
      | ']' :: r2 => some (JsonList.cons v JsonList.nil, r2)
      | ',' :: r2 =>
        (parseItems fuel (skipWs r2)).map (fun p => (JsonList.cons v p.1, p.2))
      | _ => none

/-- Comma-separated object members, first key at the head of the input. -/
def parseMembers : Nat → Str → Option (JsonMembers × Str)
  | 0, _ => none
  | Nat.succ fuel, cs =>
    match cs with
    | '\"' :: r =>
      match parseStringBody r with
      | none => none
      | some (k, r2) =>
        match skipWs r2 with
        | ':' :: r3 =>
          match parseValue fuel (skipWs r3) with
          | none => none
          | some (v, r4) =>
            match skipWs r4 with
            | '\x7d' :: r5 => some (JsonMembers.cons k v JsonMembers.nil, r5)
            | ',' :: r5 =>
              (parseMembers fuel (skipWs r5)).map
                (fun p => (JsonMembers.cons k v p.1, p.2))
            | _ => none
        | _ => none
    | _ => none

end

/-- Model of Python's `json.loads` (integer-number fragment): parse one value,
allow surrounding whitespace, and reject trailing data. -/
def Json.parse (cs : Str) : Option Json :=
  match parseValue (2 * cs.length + 1) (skipWs cs) with
  | some (v, r) => if skipWs r = [] then some v else none
  | none => none

/-- Decimal digits of a natural number (helper for serialisation), via fuel. -/
def natDigitsAux : Nat → Nat → Str
  | 0, _ => []
  | Nat.succ fuel, n =>
    if n < 10 then [Nat.digitChar n]
    else natDigitsAux fuel (n / 10) ++ [Nat.digitChar (n % 10)]

/-- Decimal representation of a natural number. -/
def natRepr (n : Nat) : Str := natDigitsAux (n + 1) n

/-- Decimal representation of an integer (Python `str(int)` / `json.dumps`). -/
def intRepr (n : Int) : Str :=
  if n < 0 then '-' :: natRepr n.natAbs else natRepr n.natAbs

/-- Encoding of one character inside a dumped JSON string: `"` and `\` are
escaped, the five short control escapes are used, remaining control characters
become `\u00XX`, and everything else is emitted raw (`ensure_ascii=False`
fragment of `json.dumps`; see the module comment). -/
def encodeChar (c : Char) : Str :=
  if c = '\"' then ['\\', '\"']
  else if c = '\\' then ['\\', '\\']
  else if c = '\n' then ['\\', 'n']
  else if c = '\t' then ['\\', 't']
  else if c = '\r' then ['\\', 'r']
  else if c = '\x08' then ['\\', 'b']
  else if c = '\x0c' then ['\\', 'f']
  else if c.toNat < 0x20 then
    ['\\', 'u', '0', '0', Nat.digitChar (c.toNat / 16), Nat.digitChar (c.toNat % 16)]
  else [c]

/-- Dumped JSON string literal, quotes included. -/
def encodeString (s : Str) : Str :=
  '\"' :: (s.flatMap encodeChar) ++ ['\"']

mutual

/-- Model of Python's `json.dumps` with default separators
(`", "` between items, `": "` after keys). -/
def Json.dumps : Json → Str
  | .null => "null".toList
  | .bool true => "true".toList
  | .bool false => "false".toList
  | .num n => intRepr n
  | .str s => encodeString s
  | .arr .nil => ['[', ']']
  | .arr (.cons x xs) => '[' :: (Json.dumps x ++ dumpsItems xs) ++ [']']
  | .obj .nil => ['\x7b', '\x7d']
  | .obj (.cons k v kvs) =>
      '\x7b' :: (encodeString k ++ ':' :: ' ' :: Json.dumps v ++ dumpsMembers kvs) ++ ['\x7d']

/-- Remaining array items, each preceded by `", "`. -/
def dumpsItems : JsonList → Str
  | .nil => []
  | .cons x xs => ',' :: ' ' :: Json.dumps x ++ dumpsItems xs

/-- Remaining object members, each preceded by `", "`. -/
def dumpsMembers : JsonMembers → Str
  | .nil => []
  | .cons k v kvs => ',' :: ' ' :: encodeString k ++ ':' :: ' ' :: Json.dumps v ++ dumpsMembers kvs

end

/-! ### Round trip: parsing a dumped value recovers it

These lemmas back the idempotence claim about the recovery engine
(`_extract_json(json.dumps(v))` after a successful extraction). -/

mutual

/-- Fuel needed by `parseValue` on the dumped form of a value. -/
def Json.fuelNeed : Json → Nat
  | .null => 1
  | .bool _ => 1
  | .num _ => 1
  | .str _ => 1
  | .arr xs => 1 + JsonList.itemsFuel xs
  | .obj kvs => 1 + JsonMembers.membersFuel kvs

def JsonList.itemsFuel : JsonList → Nat
  | .nil => 0
  | .cons x xs => 1 + Json.fuelNeed x + JsonList.itemsFuel xs

def JsonMembers.membersFuel : JsonMembers → Nat
  | .nil => 0
  | .cons _ v kvs => 1 + Json.fuelNeed v + JsonMembers.membersFuel kvs

end

/-- Check that a string does not begin with a decimal digit (so a preceding
number literal cannot greedily absorb it). -/
def headNotDigit : Str → Bool
  | [] => true
  | c :: _ => !c.isDigit

theorem skipWs_cons_not_ws {c : Char} (t : Str) (h : isJsonWs c = false) :
    skipWs (c :: t) = c :: t := by
  simp [skipWs, List.dropWhile, h]

theorem skipWs_space (t : Str) : skipWs (' ' :: t) = skipWs t := by
  simp [skipWs, List.dropWhile, isJsonWs]

theorem char_toNat_inj {a b : Char} (h : a.toNat = b.toNat) : a = b := by
  rw [← Char.ofNat_toNat a, ← Char.ofNat_toNat b, h]

theorem char_isDigit_toNat {c : Char} (h : c.isDigit = true) :
    48 ≤ c.toNat ∧ c.toNat ≤ 57 := by
  simp only [Char.isDigit, Bool.and_eq_true, decide_eq_true_eq] at h
  exact ⟨h.1, h.2⟩

theorem digit_not_ws {c : Char} (h : c.isDigit = true) : isJsonWs c = false := by
  by_contra hw
  simp only [Bool.not_eq_false, isJsonWs, Bool.or_eq_true, decide_eq_true_eq] at hw
  rcases hw with ((hc | hc) | hc) | hc <;> subst hc <;> exact absurd h (by decide)

theorem digitChar_isDigit {m : Nat} (h : m < 10) : (Nat.digitChar m).isDigit = true := by
  interval_cases m <;> decide

theorem digitChar_val {m : Nat} (h : m < 10) : (Nat.digitChar m).toNat = m + '0'.toNat := by
  interval_cases m <;> decide

theorem hexVal_digitChar {m : Nat} (h : m < 16) : hexVal (Nat.digitChar m) = some m := by
  interval_cases m <;> decide

theorem takeWhile_append_of (p : Char → Bool) :
    ∀ (ds rest : Str), (∀ c ∈ ds, p c = true) →
      (∀ c t, rest = c :: t → p c = false) →
      (ds ++ rest).takeWhile p = ds ∧ (ds ++ rest).dropWhile p = rest := by
  intro ds
  induction ds with
  | nil =>
    intro rest _ h2
    cases rest with
    | nil => simp
    | cons c t =>
      have hc : p c = false := h2 c t rfl
      simp only [List.nil_append]
      constructor
      · simp [List.takeWhile, hc]
      · simp [List.dropWhile, hc]
  | cons d ds ih =>
    intro rest h1 h2
    have hd : p d = true := h1 d (by simp)
    have := ih rest (fun c hc => h1 c (by simp [hc])) h2
    simp only [List.cons_append, List.takeWhile_cons, List.dropWhile_cons, hd]
    simp [this.1, this.2]

theorem natDigitsAux_extra :
    ∀ n f1 f2, n < f1 → n < f2 → natDigitsAux f1 n = natDigitsAux f2 n := by
  intro n
  induction n using Nat.strongRecOn with
  | _ n ih =>
    intro f1 f2 h1 h2
    cases f1 with
    | zero => omega
    | succ g1 =>
      cases f2 with
      | zero => omega
      | succ g2 =>
        simp only [natDigitsAux]
        by_cases hn : n < 10
        · simp [hn]
        · simp only [hn, if_false]
          rw [ih (n / 10) (by omega) g1 g2 (by omega) (by omega)]

theorem natDigitsAux_digits :
    ∀ f n c, c ∈ natDigitsAux f n → c.isDigit = true := by
  intro f
  induction f with
  | zero => intro n c hc; simp [natDigitsAux] at hc
  | succ g ih =>
    intro n c hc
    simp only [natDigitsAux] at hc
    by_cases hn : n < 10
    · simp [hn] at hc
      subst hc
      exact digitChar_isDigit hn
    · simp [hn] at hc
      rcases hc with hc | hc
      · exact ih _ _ hc
      · subst hc
        exact digitChar_isDigit (by omega)

theorem natDigitsAux_ne_nil {f n : Nat} (h : 0 < f) : natDigitsAux f n ≠ [] := by
  cases f with
  | zero => omega
  | succ g =>
    simp only [natDigitsAux]
    by_cases hn : n < 10 <;> simp [hn]

theorem digitsToNat_append_one (xs : Str) (d : Char) :
    digitsToNat (xs ++ [d]) = digitsToNat xs * 10 + (d.toNat - '0'.toNat) := by
  simp [digitsToNat, List.foldl_append]

theorem digitsToNat_natDigitsAux :
    ∀ n f, n < f → digitsToNat (natDigitsAux f n) = n := by
  intro n
  induction n using Nat.strongRecOn with
  | _ n ih =>
    intro f hf
    cases f with
    | zero => omega
    | succ g =>
      simp only [natDigitsAux]
      by_cases hn : n < 10
      · simp only [hn, if_true]
        have := digitChar_val hn
        simp only [digitsToNat, List.foldl]
        omega
      · simp only [hn, if_false]
        rw [digitsToNat_append_one, ih (n / 10) (by omega) g (by omega)]
        have := digitChar_val (show n % 10 < 10 by omega)
        omega

theorem natRepr_all_digits {n : Nat} {c : Char} (h : c ∈ natRepr n) : c.isDigit = true :=
  natDigitsAux_digits _ _ _ h

theorem natRepr_ne_nil (n : Nat) : natRepr n ≠ [] :=
  natDigitsAux_ne_nil (by omega)

theorem digitsToNat_natRepr (n : Nat) : digitsToNat (natRepr n) = n :=
  digitsToNat_natDigitsAux n (n + 1) (by omega)

theorem natDigitsAux_head_ne_zero :
    ∀ n f d t, 1 ≤ n → n < f → natDigitsAux f n = d :: t → d ≠ '0' := by
  intro n
  induction n using Nat.strongRecOn with
  | _ n ih =>
    intro f d t h1 hf heq
    cases f with
    | zero => omega
    | succ g =>
      simp only [natDigitsAux] at heq
      by_cases hn : n < 10
      · simp only [hn, if_true] at heq
        cases heq
        interval_cases n <;> decide
      · simp only [hn, if_false] at heq
        obtain ⟨d2, t2, ht⟩ := List.exists_cons_of_ne_nil
          (natDigitsAux_ne_nil (show 0 < g by omega) (n := n / 10))
        rw [ht, List.cons_append] at heq
        injection heq with hde _
        rw [← hde]
        exact ih (n / 10) (by omega) g d2 t2 (by omega) (by omega) ht

theorem parseNumBody_natRepr (n : Nat) (rest : Str) (h : headNotDigit rest = true) :
    parseNumBody (natRepr n ++ rest) = some ((n : Int), rest) := by
  have hrest : ∀ c t, rest = c :: t → c.isDigit = false := by
    intro c t hct
    subst hct
    simpa [headNotDigit] using h
  have htw := takeWhile_append_of (fun c => c.isDigit) (natRepr n) rest
    (fun c hc => natRepr_all_digits hc) hrest
  simp only [parseNumBody, htw.1, htw.2]
  rw [if_neg (natRepr_ne_nil n)]
  have hlead : ¬((natRepr n).head? = some '0' ∧ 1 < (natRepr n).length) := by
    rintro ⟨hh, hl⟩
    obtain ⟨d, t, ht⟩ := List.exists_cons_of_ne_nil (natRepr_ne_nil n)
    rw [ht] at hh hl
    simp only [List.head?_cons, Option.some_inj] at hh
    subst hh
    by_cases h1 : 1 ≤ n
    · exact natDigitsAux_head_ne_zero n (n + 1) _ t h1 (by omega) ht rfl
    · have : n = 0 := by omega
      subst this
      simp [natRepr, natDigitsAux] at ht
      rw [ht.2] at hl
      simp at hl
  rw [if_neg hlead, digitsToNat_natRepr]

theorem parseNumber_intRepr (n : Int) (rest : Str) (h : headNotDigit rest = true) :
    parseNumber (intRepr n ++ rest) = some (n, rest) := by
  by_cases hn : n < 0
  · simp only [intRepr, if_pos hn, List.cons_append, parseNumber, if_pos rfl]
    rw [parseNumBody_natRepr n.natAbs rest h]
    have hval : -((n.natAbs : Nat) : Int) = n := by omega
    show some (-((n.natAbs : Nat) : Int), rest) = some (n, rest)
    rw [hval]
  · simp only [intRepr, if_neg hn]
    obtain ⟨d, t, ht⟩ := List.exists_cons_of_ne_nil (natRepr_ne_nil n.natAbs)
    have hd : d.isDigit = true := natRepr_all_digits (by rw [ht]; simp)
    have hdm : d ≠ '-' := by
      intro hc
      subst hc
      exact absurd hd (by decide)
    rw [ht, List.cons_append, parseNumber, if_neg hdm, ← List.cons_append, ← ht]
    rw [parseNumBody_natRepr n.natAbs rest h]
    have hval : ((n.natAbs : Nat) : Int) = n := by omega
    simp [hval]

theorem nextStrChar_encode (c : Char) (t : Str) :
    nextStrChar (encodeChar c ++ t) = some (some c, t) := by
  by_cases h1 : c = '\"'
  · subst h1; simp [encodeChar, nextStrChar, parseEscapeSeq]
  by_cases h2 : c = '\\'
  · subst h2; simp [encodeChar, nextStrChar, parseEscapeSeq]
  by_cases h3 : c = '\n'
  · subst h3; simp [encodeChar, nextStrChar, parseEscapeSeq]
  by_cases h4 : c = '\t'
  · subst h4; simp [encodeChar, nextStrChar, parseEscapeSeq]
  by_cases h5 : c = '\r'
  · subst h5; simp [encodeChar, nextStrChar, parseEscapeSeq]
  by_cases h6 : c = '\x08'
  · subst h6; simp [encodeChar, nextStrChar, parseEscapeSeq]
  by_cases h7 : c = '\x0c'
  · subst h7; simp [encodeChar, nextStrChar, parseEscapeSeq]
  by_cases h8 : c.toNat < 0x20
  · have henc : encodeChar c =
        ['\\', 'u', '0', '0', Nat.digitChar (c.toNat / 16), Nat.digitChar (c.toNat % 16)] := by
      simp [encodeChar, h1, h2, h3, h4, h5, h6, h7, h8]
    rw [henc]
    have hv1 : hexVal (Nat.digitChar (c.toNat / 16)) = some (c.toNat / 16) :=
      hexVal_digitChar (by omega)
    have hv2 : hexVal (Nat.digitChar (c.toNat % 16)) = some (c.toNat % 16) :=
      hexVal_digitChar (by omega)
    have hval : hexVal '0' = some 0 := by decide
    have hhex : hex4 '0' '0' (Nat.digitChar (c.toNat / 16)) (Nat.digitChar (c.toNat % 16))
        = some c.toNat := by
      simp [hex4, hv1, hv2, hval]
      omega
    have hlow : c.toNat < 0xd800 := by omega
    simp only [List.cons_append]
    simp [nextStrChar, parseEscapeSeq, parseUniEscape, hhex, hlow, Char.ofNat_toNat]
  · have henc : encodeChar c = [c] := by
      simp [encodeChar, h1, h2, h3, h4, h5, h6, h7, h8]
    rw [henc]
    simp only [List.cons_append, List.nil_append, nextStrChar]
    rw [if_neg h1, if_neg h2, if_neg (by omega : ¬ c.toNat < 0x20)]

theorem parseStringAux_encode :
    ∀ (s : Str) (g : Nat) (rest : Str), s.length + 1 ≤ g →
      parseStringAux g (s.flatMap encodeChar ++ ('\"' :: rest)) = some (s, rest) := by
  intro s
  induction s with
  | nil =>
    intro g rest hg
    cases g with
    | zero => omega
    | succ g2 =>
      simp [parseStringAux, nextStrChar]
  | cons c s ih =>
    intro g rest hg
    cases g with
    | zero => omega
    | succ g2 =>
      simp only [List.flatMap_cons, List.append_assoc, parseStringAux, nextStrChar_encode]
      rw [ih g2 rest (by simpa using Nat.lt_succ_iff.mp hg)]
      rfl

theorem encodeChar_ne_nil (c : Char) : encodeChar c ≠ [] := by
  unfold encodeChar
  split_ifs <;> simp

theorem length_le_flatMap_encode (s : Str) : s.length ≤ (s.flatMap encodeChar).length := by
  induction s with
  | nil => simp
  | cons c s ih =>
    simp only [List.flatMap_cons, List.length_append, List.length_cons]
    have := List.length_pos.mpr (encodeChar_ne_nil c)
    omega

theorem parseStringBody_encode (s rest : Str) :
    parseStringBody (s.flatMap encodeChar ++ ('\"' :: rest)) = some (s, rest) := by
  apply parseStringAux_encode
  have h1 := length_le_flatMap_encode s
  simp only [List.length_append, List.length_cons]
  omega

theorem dumps_head_props (v : Json) :
    ∃ c t, Json.dumps v = c :: t ∧ isJsonWs c = false ∧ c ≠ ']' ∧ c ≠ '\x7d' := by
  cases v with
  | null => refine ⟨'n', _, rfl, ?_, ?_, ?_⟩ <;> decide
  | bool b => cases b with
    | true => refine ⟨'t', _, rfl, ?_, ?_, ?_⟩ <;> decide
    | false => refine ⟨'f', _, rfl, ?_, ?_, ?_⟩ <;> decide
  | num n =>
    by_cases hn : n < 0
    · refine ⟨'-', natRepr n.natAbs, ?_, by decide, by decide, by decide⟩
      simp [Json.dumps, intRepr, hn]
    · obtain ⟨d, t, ht⟩ := List.exists_cons_of_ne_nil (natRepr_ne_nil n.natAbs)
      have hd : d.isDigit = true := natRepr_all_digits (by rw [ht]; simp)
      refine ⟨d, t, ?_, digit_not_ws hd, ?_, ?_⟩
      · simp [Json.dumps, intRepr, hn, ht]
      · intro hc; exact absurd (hc ▸ hd) (by decide)
      · intro hc; exact absurd (hc ▸ hd) (by decide)
  | str s => refine ⟨'\"', _, rfl, ?_, ?_, ?_⟩ <;> decide
  | arr xs => cases xs with
    | nil => refine ⟨'[', _, rfl, ?_, ?_, ?_⟩ <;> decide
    | cons x t => refine ⟨'[', _, rfl, ?_, ?_, ?_⟩ <;> decide
  | obj kvs => cases kvs with
    | nil => refine ⟨'\x7b', _, rfl, ?_, ?_, ?_⟩ <;> decide
    | cons k v t => refine ⟨'\x7b', _, rfl, ?_, ?_, ?_⟩ <;> decide

theorem skipWs_dumps (v : Json) (rest : Str) :
    skipWs (Json.dumps v ++ rest) = Json.dumps v ++ rest := by
  obtain ⟨c, t, ht, hc, _, _⟩ := dumps_head_props v
  rw [ht, List.cons_append, skipWs_cons_not_ws _ hc]

theorem headNotDigit_items (xs : JsonList) (rest : Str) :
    headNotDigit (dumpsItems xs ++ (']' :: rest)) = true := by
  cases xs <;> simp [dumpsItems, headNotDigit]

theorem headNotDigit_members (kvs : JsonMembers) (rest : Str) :
    headNotDigit (dumpsMembers kvs ++ ('\x7d' :: rest)) = true := by
  cases kvs <;> simp [dumpsMembers, headNotDigit]

mutual

theorem parse_dumps_value : ∀ (v : Json) (g : Nat) (rest : Str),
    Json.fuelNeed v ≤ g → headNotDigit rest = true →
    parseValue g (Json.dumps v ++ rest) = some (v, rest)
  | v, 0, rest => by
    intro hf _
    exfalso
    cases v <;> simp [Json.fuelNeed] at hf
  | .null, Nat.succ f, rest => by
    intro _ _
    simp [Json.dumps, parseValue, parseKeyword]
  | .bool true, Nat.succ f, rest => by
    intro _ _
    simp [Json.dumps, parseValue, parseKeyword]
  | .bool false, Nat.succ f, rest => by
    intro _ _
    simp [Json.dumps, parseValue, parseKeyword]
  | .num n, Nat.succ f, rest => by
    intro _ hr
    obtain ⟨d, t, ht⟩ := List.exists_cons_of_ne_nil (natRepr_ne_nil n.natAbs)
    have hd : d.isDigit = true := natRepr_all_digits (by rw [ht]; simp)
    by_cases hn : n < 0
    · have hdump : Json.dumps (Json.num n) = '-' :: natRepr n.natAbs := by
        simp [Json.dumps, intRepr, hn]
      rw [hdump, List.cons_append]
      simp only [parseValue]
      rw [if_neg (by decide), if_neg (by decide), if_neg (by decide),
        if_neg (by decide)]
      have hint : '-' :: (natRepr n.natAbs ++ rest) = intRepr n ++ rest := by
        simp [intRepr, hn]
      rw [hint, parseNumber_intRepr n rest hr]
      rfl
    · have hdump : Json.dumps (Json.num n) = d :: t := by
        simp [Json.dumps, intRepr, hn, ht]
      rw [hdump, List.cons_append]
      simp only [parseValue]
      rw [if_neg (fun hc => absurd (hc ▸ hd) (by decide)),
        if_neg (fun hc => absurd (hc ▸ hd) (by decide)),
        if_neg (fun hc => absurd (hc ▸ hd) (by decide)),
        if_neg (by
          simp only [Bool.or_eq_true, decide_eq_true_eq]
          rintro ((hc | hc) | hc) <;> exact absurd (hc ▸ hd) (by decide))]
      have hint : d :: (t ++ rest) = intRepr n ++ rest := by
        simp [intRepr, hn, ht]
      rw [hint, parseNumber_intRepr n rest hr]
      rfl
  | .str s, Nat.succ f, rest => by
    intro _ _
    simp only [Json.dumps, encodeString, List.cons_append, List.append_assoc,
      List.nil_append, parseValue, if_true]
    rw [parseStringBody_encode s rest]
    rfl
  | .arr .nil, Nat.succ f, rest => by
    intro _ _
    simp only [Json.dumps, List.cons_append, List.nil_append, parseValue]
    rw [skipWs_cons_not_ws _ (by decide : isJsonWs ']' = false)]
    simp
  | .arr (.cons x xs), Nat.succ f, rest => by
    intro hf _
    obtain ⟨c2, t2, ht2, hws2, hne1, _⟩ := dumps_head_props x
    have hsw : skipWs (Json.dumps x ++ (dumpsItems xs ++ (']' :: rest)))
        = c2 :: (t2 ++ (dumpsItems xs ++ (']' :: rest))) := by
      rw [skipWs_dumps, ht2, List.cons_append]
    simp only [Json.dumps, List.cons_append, List.append_assoc, List.nil_append, parseValue,
      if_true, hsw]
    rw [if_neg hne1, ← List.cons_append, ← ht2]
    have hfx : JsonList.itemsFuel (JsonList.cons x xs) ≤ f := by
      simp only [Json.fuelNeed] at hf
      omega
    have := parse_dumps_items x xs f rest hfx
    rw [List.append_assoc] at this
    rw [this]
    simp
  | .obj .nil, Nat.succ f, rest => by
    intro _ _
    have hsw : skipWs ('\x7d' :: rest) = '\x7d' :: rest :=
      skipWs_cons_not_ws _ (by decide)
    simp only [Json.dumps, List.cons_append, List.nil_append, parseValue, if_true, hsw]
    simp
  | .obj (.cons k v kvs), Nat.succ f, rest => by
    intro hf _
    have hsw : skipWs (encodeString k ++ (':' :: (' ' :: (Json.dumps v ++ (dumpsMembers kvs
          ++ ('\x7d' :: rest))))))
        = '\"' :: (List.flatMap k encodeChar ++ ('\"' :: (':' :: (' ' :: (Json.dumps v
            ++ (dumpsMembers kvs ++ ('\x7d' :: rest))))))) := by
      simp only [encodeString, List.cons_append, List.append_assoc, List.nil_append]
      rw [skipWs_cons_not_ws _ (by decide : isJsonWs '\"' = false)]
    simp only [Json.dumps, List.cons_append, List.append_assoc, List.nil_append, parseValue,
      if_true, hsw]
    rw [if_neg (by decide)]
    have hfm : JsonMembers.membersFuel (JsonMembers.cons k v kvs) ≤ f := by
      simp only [Json.fuelNeed] at hf
      omega
    rw [parse_dumps_members k v kvs f rest hfm]
    rfl

termination_by v g rest => sizeOf v

theorem parse_dumps_items : ∀ (x : Json) (xs : JsonList) (g : Nat) (rest : Str),
    JsonList.itemsFuel (JsonList.cons x xs) ≤ g →
    parseItems g (Json.dumps x ++ dumpsItems xs ++ (']' :: rest))
      = some (JsonList.cons x xs, rest)
  | x, xs, 0, rest => by
    intro hf
    exfalso
    simp [JsonList.itemsFuel] at hf
  | x, xs, Nat.succ f, rest => by
    intro hf
    simp only [JsonList.itemsFuel] at hf
    simp only [parseItems, List.append_assoc]
    rw [parse_dumps_value x f (dumpsItems xs ++ (']' :: rest)) (by omega)
      (headNotDigit_items xs rest)]
    cases xs with
    | nil =>
      simp only [dumpsItems, List.nil_append]
      rw [skipWs_cons_not_ws _ (by decide : isJsonWs ']' = false)]
      simp
    | cons y ys =>
      have h4 : skipWs (',' :: ' ' :: (Json.dumps y ++ (dumpsItems ys ++ (']' :: rest))))
          = ',' :: ' ' :: (Json.dumps y ++ (dumpsItems ys ++ (']' :: rest))) :=
        skipWs_cons_not_ws _ (by decide)
      have h5 : skipWs (' ' :: (Json.dumps y ++ (dumpsItems ys ++ (']' :: rest))))
          = Json.dumps y ++ (dumpsItems ys ++ (']' :: rest)) := by
        rw [skipWs_space]
        exact skipWs_dumps y _
      have hfy : JsonList.itemsFuel (JsonList.cons y ys) ≤ f := by
        simp only [JsonList.itemsFuel] at hf ⊢
        omega
      have h6 := parse_dumps_items y ys f rest hfy
      rw [List.append_assoc] at h6
      simp only [dumpsItems, List.cons_append, List.append_assoc, h4, h5, h6]
      rfl

termination_by x xs g rest => 1 + sizeOf x + sizeOf xs

theorem parse_dumps_members : ∀ (k : Str) (v : Json) (kvs : JsonMembers) (g : Nat) (rest : Str),
    JsonMembers.membersFuel (JsonMembers.cons k v kvs) ≤ g →
    parseMembers g ('\"' :: (List.flatMap k encodeChar ++ ('\"' :: (':' :: (' ' :: (Json.dumps v
        ++ (dumpsMembers kvs ++ ('\x7d' :: rest))))))))
      = some (JsonMembers.cons k v kvs, rest)
  | k, v, kvs, 0, rest => by
    intro hf
    exfalso
    simp [JsonMembers.membersFuel] at hf
  | k, v, kvs, Nat.succ f, rest => by
    intro hf
    simp only [JsonMembers.membersFuel] at hf
    have h1 : skipWs (':' :: (' ' :: (Json.dumps v ++ (dumpsMembers kvs ++ ('\x7d' :: rest)))))
        = ':' :: (' ' :: (Json.dumps v ++ (dumpsMembers kvs ++ ('\x7d' :: rest)))) :=
      skipWs_cons_not_ws _ (by decide)
    have h2 : skipWs (' ' :: (Json.dumps v ++ (dumpsMembers kvs ++ ('\x7d' :: rest))))
        = Json.dumps v ++ (dumpsMembers kvs ++ ('\x7d' :: rest)) := by
      rw [skipWs_space]
      exact skipWs_dumps v _
    have h3 := parse_dumps_value v f (dumpsMembers kvs ++ ('\x7d' :: rest)) (by omega)
      (headNotDigit_members kvs rest)
    simp only [parseMembers]
    rw [parseStringBody_encode k
      (':' :: (' ' :: (Json.dumps v ++ (dumpsMembers kvs ++ ('\x7d' :: rest)))))]
    simp only [h1, h2, h3]
    cases kvs with
    | nil =>
      have h4 : skipWs (dumpsMembers JsonMembers.nil ++ ('\x7d' :: rest)) = '\x7d' :: rest := by
        simp only [dumpsMembers, List.nil_append]
        exact skipWs_cons_not_ws _ (by decide)
      simp only [h4]
    | cons k2 v2 tl =>
      have h4 : dumpsMembers (JsonMembers.cons k2 v2 tl) ++ ('\x7d' :: rest)
          = ',' :: ' ' :: ('\"' :: (List.flatMap k2 encodeChar ++ ('\"' :: (':' :: (' ' :: (Json.dumps v2
              ++ (dumpsMembers tl ++ ('\x7d' :: rest)))))))) := by
        simp [dumpsMembers, encodeString]
      have h5 : skipWs (',' :: ' ' :: ('\"' :: (List.flatMap k2 encodeChar ++ ('\"' :: (':' :: (' ' :: (Json.dumps v2
            ++ (dumpsMembers tl ++ ('\x7d' :: rest)))))))))
          = ',' :: ' ' :: ('\"' :: (List.flatMap k2 encodeChar ++ ('\"' :: (':' :: (' ' :: (Json.dumps v2
            ++ (dumpsMembers tl ++ ('\x7d' :: rest)))))))) :=
        skipWs_cons_not_ws _ (by decide)
      have h6 : skipWs (' ' :: ('\"' :: (List.flatMap k2 encodeChar ++ ('\"' :: (':' :: (' ' :: (Json.dumps v2
            ++ (dumpsMembers tl ++ ('\x7d' :: rest)))))))))
          = '\"' :: (List.flatMap k2 encodeChar ++ ('\"' :: (':' :: (' ' :: (Json.dumps v2
            ++ (dumpsMembers tl ++ ('\x7d' :: rest))))))) := by
        rw [skipWs_space]
        exact skipWs_cons_not_ws _ (by decide)
      have hfm2 : JsonMembers.membersFuel (JsonMembers.cons k2 v2 tl) ≤ f := by
        simp only [JsonMembers.membersFuel] at hf ⊢
        omega
      have h7 := parse_dumps_members k2 v2 tl f rest hfm2
      simp only [h4, h5, h6, h7]
      rfl
termination_by k v kvs g rest => 1 + sizeOf v + sizeOf kvs

end

theorem intRepr_ne_nil (n : Int) : intRepr n ≠ [] := by
  unfold intRepr
  by_cases hn : n < 0
  · simp [hn]
  · simp [hn, natRepr_ne_nil]

mutual

theorem fuelNeed_le_value : ∀ v : Json, Json.fuelNeed v ≤ 2 * (Json.dumps v).length
  | .null => by simp [Json.fuelNeed, Json.dumps]
  | .bool true => by simp [Json.fuelNeed, Json.dumps]
  | .bool false => by simp [Json.fuelNeed, Json.dumps]
  | .num n => by
    have := List.length_pos.mpr (intRepr_ne_nil n)
    simp only [Json.fuelNeed, Json.dumps]
    omega
  | .str s => by simp [Json.fuelNeed, Json.dumps, encodeString]; omega
  | .arr .nil => by simp [Json.fuelNeed, JsonList.itemsFuel, Json.dumps]
  | .arr (.cons x xs) => by
    have h1 := fuelNeed_le_value x
    have h2 := fuelNeed_le_items xs
    simp only [Json.fuelNeed, JsonList.itemsFuel, Json.dumps, List.length_cons,
      List.length_append] at h1 h2 ⊢
    omega
  | .obj .nil => by simp [Json.fuelNeed, JsonMembers.membersFuel, Json.dumps]
  | .obj (.cons k v kvs) => by
    have h1 := fuelNeed_le_value v
    have h2 := fuelNeed_le_members kvs
    simp only [Json.fuelNeed, JsonMembers.membersFuel, Json.dumps, List.length_cons,
      List.length_append] at h1 h2 ⊢
    omega

theorem fuelNeed_le_items : ∀ xs : JsonList,
    JsonList.itemsFuel xs ≤ 2 * (dumpsItems xs).length
  | .nil => by simp [JsonList.itemsFuel, dumpsItems]
  | .cons x xs => by
    have h1 := fuelNeed_le_value x
    have h2 := fuelNeed_le_items xs
    simp only [JsonList.itemsFuel, dumpsItems, List.length_cons, List.length_append] at h1 h2 ⊢
    omega

theorem fuelNeed_le_members : ∀ kvs : JsonMembers,
    JsonMembers.membersFuel kvs ≤ 2 * (dumpsMembers kvs).length
  | .nil => by simp [JsonMembers.membersFuel, dumpsMembers]
  | .cons k v kvs => by
    have h1 := fuelNeed_le_value v
    have h2 := fuelNeed_le_members kvs
    simp only [JsonMembers.membersFuel, dumpsMembers, List.length_cons,
      List.length_append] at h1 h2 ⊢
    omega

end

/-- Round trip of the serialiser and the parser: `json.loads(json.dumps(v))`
recovers `v` exactly. -/
theorem Json.parse_dumps (v : Json) : Json.parse (Json.dumps v) = some v := by
  have hv := parse_dumps_value v (2 * (Json.dumps v).length + 1) []
    (by have := fuelNeed_le_value v; omega) (by simp [headNotDigit])
  rw [List.append_nil] at hv
  have hsw : skipWs (Json.dumps v) = Json.dumps v := by
    simpa using skipWs_dumps v []
  simp only [Json.parse, hsw, hv]
  simp [skipWs]

/-! ### Structured-Output Recovery Engine (`council.py`, `_extract_json` and
`_extract_json_array`) -/

/-- Python `text.find(target)` recast as a split: `some (before, fromTarget)`
where `before` has no occurrence of `target` and `fromTarget` starts with it;
`none` when the character is absent (`find` returning `-1`). -/
def splitAtChar (target : Char) : Str → Option (Str × Str)
  | [] => none
  | c :: rest =>
    if c = target then some ([], c :: rest)
    else (splitAtChar target rest).map (fun p => (c :: p.1, p.2))

/-- Depth-counted, string/escape-aware scan of `_extract_json` (its
`for idx in range(start, len(text))` loop, lines 178-199 of `council.py`),
started with `depth = 0`, `in_string = False`, `escape = False`.  Returns the
consumed prefix up to and including the brace that brings `depth` back to `0`,
or `none` when the loop runs off the end of the text. -/
def braceScanAux : Str → Int → Bool → Bool → Option Str
  | [], _, _, _ => none
  | c :: rest, depth, inString, escape =>
    if inString then
      if escape then (braceScanAux rest depth inString false).map (fun r => c :: r)
      else if c = '\\' then (braceScanAux rest depth inString true).map (fun r => c :: r)
      else if c = '\"' then (braceScanAux rest depth false escape).map (fun r => c :: r)
      else (braceScanAux rest depth inString escape).map (fun r => c :: r)
    else if c = '\"' then (braceScanAux rest depth true escape).map (fun r => c :: r)
    else if c = '\x7b' then (braceScanAux rest (depth + 1) inString escape).map (fun r => c :: r)
    else if c = '\x7d' then
      if depth - 1 = 0 then some [c]
      else (braceScanAux rest (depth - 1) inString escape).map (fun r => c :: r)
    else (braceScanAux rest depth inString escape).map (fun r => c :: r)

/-- One pass of Python `re.sub(r",\s*X", "X", s)` for a closing character `X`
(`X` being `}` or `]`): scanning left to right, a comma followed by a maximal
whitespace run and then `X` is replaced by `X` alone, and scanning resumes
after the match (non-overlapping, leftmost-first, exactly `re.sub`).  Fuelled
by input length. -/
def reSubAux (close : Char) : Nat → Str → Str
  | 0, s => s
  | Nat.succ f, [] => []
  | Nat.succ f, c :: rest =>
    if c = ',' then
      match rest.dropWhile (fun w => isPyWs w) with
      | d :: rest3 =>
        if d = close then close :: reSubAux close f rest3
        else c :: reSubAux close f rest
      | [] => c :: reSubAux close f rest
    else c :: reSubAux close f rest

/-- Python `re.sub(r",\s*close", "close", s)` (the two trailing-comma repairs
of the Recovery Engine). -/
def reSubCommaClose (close : Char) (s : Str) : Str :=
  reSubAux close (s.length + 1) s

/-- Model of `_extract_json` (`council.py` lines 166-207): direct parse, then
the brace scan from the first `\x7b`, then the isolated span parsed as-is and
with each of the two trailing-comma repairs applied to the original span. -/
def extract_json (text : Str) : Option Json :=
  if text = [] then none
  else
    match Json.parse text with
    | some v => some v
    | none =>
      match splitAtChar '\x7b' text with
      | none => none
      | some (_, scanStart) =>
        match braceScanAux scanStart 0 false false with
        | none => none
        | some payload =>
          match Json.parse payload with
          | some v => some v
          | none =>
            match Json.parse (reSubCommaClose '\x7d' payload) with
            | some v => some v
            | none => Json.parse (reSubCommaClose ']' payload)

/-- Span matched by `re.search(r"\[[\s\S]*?\]", text)`: from the first `[`
through the first `]` after it (the non-greedy `[\s\S]*?` stops at the first
possible `]`; if no `]` follows the first `[`, none follows any later `[`
either, so there is no match). -/
def takeThroughChar (target : Char) : Str → Option Str
  | [] => none
  | c :: rest =>
    if c = target then some [c]
    else (takeThroughChar target rest).map (fun r => c :: r)

/-- First `\[[\s\S]*?\]` match of the text, if any. -/
def firstArraySpan (text : Str) : Option Str :=
  match splitAtChar '[' text with
  | none => none
  | some (_, fromBracket) =>
    match fromBracket with
    | [] => none
    | c :: rest => (takeThroughChar ']' rest).map (fun r => c :: r)

/-- Model of `_extract_json_array` (`council.py` lines 210-225): regex span,
direct parse, then both trailing-comma repairs applied in sequence (first
`,\s*\]`, then `,\s*\}`) and one retry. -/
def extract_json_array (text : Str) : Option Json :=
  if text = [] then none
  else
    match firstArraySpan text with
    | none => none
    | some payload =>
      match Json.parse payload with
      | some v => some v
      | none => Json.parse (reSubCommaClose '\x7d' (reSubCommaClose ']' payload))

theorem splitAtChar_append (target : Char) :
    ∀ (p u : Str), target ∉ p →
      splitAtChar target (p ++ (target :: u)) = some (p, target :: u) := by
  intro p
  induction p with
  | nil =>
    intro u _
    simp [splitAtChar]
  | cons c cs ih =>
    intro u hmem
    have hc : ¬ c = target := by
      intro hc
      exact hmem (by simp [hc])
    simp only [List.cons_append, splitAtChar, List.append_eq, if_neg hc,
      ih u (fun h => hmem (List.mem_cons_of_mem c h))]
    rfl

theorem splitAtChar_some (target : Char) :
    ∀ (s b fb : Str), splitAtChar target s = some (b, fb) → ∃ u, fb = target :: u := by
  intro s
  induction s with
  | nil => intro b fb h; simp [splitAtChar] at h
  | cons c cs ih =>
    intro b fb h
    simp only [splitAtChar] at h
    by_cases hc : c = target
    · rw [if_pos hc] at h
      obtain ⟨rfl, rfl⟩ : b = [] ∧ fb = c :: cs := by
        constructor <;> [exact (Prod.mk.injEq _ _ _ _ ▸ (Option.some_inj.mp h)).1.symm;
          exact (Prod.mk.injEq _ _ _ _ ▸ (Option.some_inj.mp h)).2.symm]
      exact ⟨cs, by rw [hc]⟩
    · rw [if_neg hc] at h
      obtain ⟨⟨b2, fb2⟩, h2, hq⟩ := Option.map_eq_some'.mp h
      obtain ⟨u, hu⟩ := ih b2 fb2 h2
      exact ⟨u, by
        have : fb = fb2 := by
          have := congrArg Prod.snd hq
          simpa using this.symm
        rw [this, hu]⟩

theorem takeThroughChar_append (target : Char) :
    ∀ (body u : Str), target ∉ body →
      takeThroughChar target (body ++ (target :: u)) = some (body ++ [target]) := by
  intro body
  induction body with
  | nil =>
    intro u _
    simp [takeThroughChar]
  | cons c cs ih =>
    intro u hmem
    have hc : ¬ c = target := by
      intro hc
      exact hmem (by simp [hc])
    simp only [List.cons_append, takeThroughChar, List.append_eq, if_neg hc,
      ih u (fun h => hmem (List.mem_cons_of_mem c h))]
    rfl

theorem braceScanAux_append :
    ∀ (s : Str) (d : Int) (i e : Bool) (r t : Str),
      braceScanAux s d i e = some r → braceScanAux (s ++ t) d i e = some r := by
  intro s
  induction s with
  | nil =>
    intro d i e r t h
    simp [braceScanAux] at h
  | cons c cs ih =>
    intro d i e r t h
    simp only [braceScanAux, List.cons_append, List.append_eq] at h ⊢
    split_ifs at h ⊢ <;>
      first
      | exact h
      | · obtain ⟨r2, hr2, hr⟩ := Option.map_eq_some'.mp h
          rw [ih _ _ _ _ _ hr2]
          simpa using hr

theorem reSub_cons_of_ne {c : Char} (close : Char) (t : Str) (h : ¬ c = ',') :
    reSubCommaClose close (c :: t) = c :: reSubCommaClose close t := by
  simp only [reSubCommaClose, List.length_cons, reSubAux, if_neg h]

theorem parseValue_bracket (fuel : Nat) (rest : Str) (pr : Json × Str)
    (h : parseValue fuel ('[' :: rest) = some pr) : ∃ xs, pr.1 = Json.arr xs := by
  cases fuel with
  | zero => simp [parseValue] at h
  | succ f =>
    simp only [parseValue, if_true] at h
    rw [if_neg (by decide : ¬ '[' = '\"'), if_neg (by decide : ¬ '[' = '\x7b')] at h
    cases hsw : skipWs rest with
    | nil =>
      rw [hsw] at h
      simp at h
    | cons c2 r2 =>
      rw [hsw] at h
      dsimp only at h
      by_cases hc2 : c2 = ']'
      · rw [if_pos hc2] at h
        have hpr : (Json.arr JsonList.nil, r2) = pr := Option.some_inj.mp h
        exact ⟨JsonList.nil, by rw [← hpr]⟩
      · rw [if_neg hc2] at h
        obtain ⟨pr2, _, hpr⟩ := Option.map_eq_some'.mp h
        exact ⟨pr2.1, by rw [← hpr]⟩

theorem parse_bracket_arr (rest : Str) (v : Json) (h : Json.parse ('[' :: rest) = some v) :
    ∃ xs, v = Json.arr xs := by
  unfold Json.parse at h
  rw [skipWs_cons_not_ws _ (by decide)] at h
  cases hpv : parseValue (2 * ('[' :: rest).length + 1) ('[' :: rest) with
  | none =>
    rw [hpv] at h
    simp at h
  | some pr =>
    rw [hpv] at h
    obtain ⟨xs, hxs⟩ := parseValue_bracket _ _ _ hpv
    obtain ⟨v1, r1⟩ := pr
    dsimp only at h hxs
    split_ifs at h
    exact ⟨xs, by rw [← Option.some_inj.mp h, hxs]⟩

theorem firstArraySpan_head (s payload : Str) (h : firstArraySpan s = some payload) :
    ∃ p2, payload = '[' :: p2 := by
  unfold firstArraySpan at h
  cases hsp : splitAtChar '[' s with
  | none =>
    rw [hsp] at h
    simp at h
  | some p =>
    obtain ⟨b, fb⟩ := p
    obtain ⟨u, hu⟩ := splitAtChar_some '[' s b fb hsp
    rw [hsp, hu] at h
    simp only [Option.map_eq_some'] at h
    obtain ⟨a, ha, hpa⟩ := h
    exact ⟨a, hpa.symm⟩

/-! ### Claims C1, C4, C9 (Recovery Engine) -/

/-- C1: for any text `p ++ s ++ t` where the prose prefix `p` holds no opening
brace, `s` is a span that the string/escape-aware depth scan closes exactly at
its own end, direct parsing of the whole text fails, and `s` parses as JSON,
`_extract_json` returns exactly the value of `s` — in-string braces never count
as structural because the scan itself tracks string state.  In particular, on
`Note: see {"a": "use { not a brace }", "b": 2} thanks` (braces written `\x7b`,
`\x7d` in the Lean source) it returns the object `{"a": "use { not a brace }",
"b": 2}`. -/
theorem claim_C1 :
    (∀ (p s t : Str) (v : Json),
        '\x7b' ∉ p → s.head? = some '\x7b' →
        braceScanAux s 0 false false = some s →
        Json.parse (p ++ s ++ t) = none →
        Json.parse s = some v →
        extract_json (p ++ s ++ t) = some v)
    ∧ extract_json ("Note: see \x7b\"a\": \"use \x7b not a brace \x7d\", \"b\": 2\x7d thanks".toList)
        = some (Json.obj (JsonMembers.ofList
            [("a".toList, Json.str "use \x7b not a brace \x7d".toList),
             ("b".toList, Json.num 2)])) := by
  constructor
  · intro p s t v hp hhead hscan hfail hparse
    obtain ⟨s2, rfl⟩ : ∃ s2, s = '\x7b' :: s2 := by
      cases s with
      | nil => simp at hhead
      | cons c cs =>
        simp only [List.head?_cons, Option.some_inj] at hhead
        exact ⟨cs, by rw [hhead]⟩
    have hsplit : splitAtChar '\x7b' (p ++ ('\x7b' :: (s2 ++ t))) = some (p, '\x7b' :: (s2 ++ t)) :=
      splitAtChar_append '\x7b' p (s2 ++ t) hp
    have hscan2 : braceScanAux ('\x7b' :: (s2 ++ t)) 0 false false = some ('\x7b' :: s2) := by
      have h2 := braceScanAux_append ('\x7b' :: s2) 0 false false ('\x7b' :: s2) t hscan
      simpa using h2
    simp only [List.append_assoc, List.cons_append] at hfail ⊢
    unfold extract_json
    rw [if_neg (by simp)]
    rw [hfail]
    dsimp only
    rw [hsplit]
    dsimp only
    rw [hscan2]
    dsimp only
    rw [hparse]
  · decide

/-- C1 witness: the universal statement applied to the concrete example,
decomposed as prose prefix, balanced span, and prose suffix. -/
theorem claim_C1_witness :
    ('\x7b' ∉ ("Note: see ".toList : Str))
    ∧ extract_json ("Note: see ".toList
          ++ "\x7b\"a\": \"use \x7b not a brace \x7d\", \"b\": 2\x7d".toList
          ++ " thanks".toList)
        = some (Json.obj (JsonMembers.ofList
            [("a".toList, Json.str "use \x7b not a brace \x7d".toList),
             ("b".toList, Json.num 2)])) :=
  ⟨by decide,
   claim_C1.1 ("Note: see ".toList)
     ("\x7b\"a\": \"use \x7b not a brace \x7d\", \"b\": 2\x7d".toList)
     (" thanks".toList) _
     (by decide) (by decide) (by decide) (by decide) (by decide)⟩

/-- C4: on every input the recovery functions are total (they are plain Lean
functions into `Option`) and a success is always a value produced by the JSON
parser on some string — never a partial or corrupt structure.  The Python
`except json.JSONDecodeError` discipline is captured by the `Option` result;
CPython's recursion limit, a resource bound, is outside the model. -/
theorem claim_C4 : ∀ s : Str,
    (∀ v, extract_json s = some v → ∃ c : Str, Json.parse c = some v) ∧
    (∀ a, extract_json_array s = some a → ∃ c : Str, Json.parse c = some a) := by
  intro s
  constructor
  · intro v hv
    unfold extract_json at hv
    by_cases hs : s = ([] : Str)
    · rw [if_pos hs] at hv
      exact absurd hv (by simp)
    · rw [if_neg hs] at hv
      cases h1 : Json.parse s with
      | some w =>
        rw [h1] at hv
        dsimp only at hv
        exact ⟨s, by rw [h1]; exact hv⟩
      | none =>
        rw [h1] at hv
        dsimp only at hv
        cases h2 : splitAtChar '\x7b' s with
        | none =>
          rw [h2] at hv
          simp at hv
        | some pq =>
          rw [h2] at hv
          obtain ⟨b, fb⟩ := pq
          dsimp only at hv
          cases h3 : braceScanAux fb 0 false false with
          | none =>
            rw [h3] at hv
            simp at hv
          | some payload =>
            rw [h3] at hv
            dsimp only at hv
            cases h4 : Json.parse payload with
            | some w =>
              rw [h4] at hv
              dsimp only at hv
              exact ⟨payload, by rw [h4]; exact hv⟩
            | none =>
              rw [h4] at hv
              dsimp only at hv
              cases h5 : Json.parse (reSubCommaClose '\x7d' payload) with
              | some w =>
                rw [h5] at hv
                dsimp only at hv
                exact ⟨reSubCommaClose '\x7d' payload, by rw [h5]; exact hv⟩
              | none =>
                rw [h5] at hv
                dsimp only at hv
                exact ⟨reSubCommaClose ']' payload, hv⟩
  · intro a ha
    unfold extract_json_array at ha
    by_cases hs : s = ([] : Str)
    · rw [if_pos hs] at ha
      exact absurd ha (by simp)
    · rw [if_neg hs] at ha
      cases h1 : firstArraySpan s with
      | none =>
        rw [h1] at ha
        simp at ha
      | some payload =>
        rw [h1] at ha
        dsimp only at ha
        cases h2 : Json.parse payload with
        | some w =>
          rw [h2] at ha
          dsimp only at ha
          exact ⟨payload, by rw [h2]; exact ha⟩
        | none =>
          rw [h2] at ha
          dsimp only at ha
          exact ⟨reSubCommaClose '\x7d' (reSubCommaClose ']' payload), ha⟩

/-- C4 witness: both parts of the claim applied at concrete inputs. -/
theorem claim_C4_witness :
    (∃ c : Str, Json.parse c = some (Json.num 7)) ∧
    (∃ c : Str, Json.parse c = some (Json.arr (JsonList.ofList [Json.num 1]))) :=
  ⟨(claim_C4 ("7".toList)).1 (Json.num 7) (by decide),
   (claim_C4 ("x [1] y".toList)).2 (Json.arr (JsonList.ofList [Json.num 1])) (by decide)⟩

/-- C9 counterexample: the claim fails for `_extract_json_array`.  The text
`["\u005d"]` is recovered as the array `["]"]`, but `json.dumps` of that array
is the five characters `["]"]`, on which the non-greedy regex `\[[\s\S]*?\]`
matches only `["]` — an unparseable span — so re-running the engine on the
serialised output returns `None`, not the array. -/
theorem claim_C9_counterexample :
    extract_json_array ("[\"\\u005d\"]".toList)
      = some (Json.arr (JsonList.ofList [Json.str "]".toList]))
    ∧ extract_json_array
        (Json.dumps (Json.arr (JsonList.ofList [Json.str "]".toList]))) = none := by
  constructor
  · decide
  · decide

/-- C9 amended: idempotence holds unconditionally for `_extract_json` (a dumped
value always parses directly), and for `_extract_json_array` whenever the
serialised output contains no `]` before its final character (the condition
the counterexample shows to be necessary). -/
theorem claim_C9_amended :
    (∀ (s : Str) (v : Json), extract_json s = some v →
        extract_json (Json.dumps v) = some v)
    ∧ (∀ (s : Str) (a : Json), extract_json_array s = some a →
        ']' ∉ (Json.dumps a).dropLast →
        extract_json_array (Json.dumps a) = some a) := by
  constructor
  · intro s v _
    have hne : ¬ Json.dumps v = ([] : Str) := by
      obtain ⟨c, t, ht, _, _, _⟩ := dumps_head_props v
      simp [ht]
    unfold extract_json
    rw [if_neg hne, Json.parse_dumps]
  · intro s a ha hbr
    have harr : ∃ xs, a = Json.arr xs := by
      unfold extract_json_array at ha
      by_cases hs : s = ([] : Str)
      · rw [if_pos hs] at ha
        exact absurd ha (by simp)
      · rw [if_neg hs] at ha
        cases h1 : firstArraySpan s with
        | none =>
          rw [h1] at ha
          simp at ha
        | some payload =>
          rw [h1] at ha
          obtain ⟨p2, rfl⟩ := firstArraySpan_head s payload h1
          dsimp only at ha
          cases h2 : Json.parse ('[' :: p2) with
          | some w =>
            rw [h2] at ha
            dsimp only at ha
            have hwa := Option.some_inj.mp ha
            rw [← hwa]
            exact parse_bracket_arr p2 w h2
          | none =>
            rw [h2] at ha
            dsimp only at ha
            rw [reSub_cons_of_ne ']' p2 (by decide),
              reSub_cons_of_ne '\x7d' (reSubCommaClose ']' p2) (by decide)] at ha
            exact parse_bracket_arr _ a ha
    obtain ⟨xs, rfl⟩ := harr
    cases xs with
    | nil => decide
    | cons x xs0 =>
      have hd : Json.dumps (Json.arr (JsonList.cons x xs0))
          = ('[' :: (Json.dumps x ++ dumpsItems xs0)) ++ [']'] := by
        simp [Json.dumps]
      have hbody : ']' ∉ ('[' :: (Json.dumps x ++ dumpsItems xs0)) := by
        rw [hd, List.dropLast_concat] at hbr
        exact hbr
      have hbody2 : ']' ∉ (Json.dumps x ++ dumpsItems xs0) :=
        fun h => hbody (List.mem_cons_of_mem _ h)
      have hspan : firstArraySpan (('[' :: (Json.dumps x ++ dumpsItems xs0)) ++ [']'])
          = some (('[' :: (Json.dumps x ++ dumpsItems xs0)) ++ [']']) := by
        unfold firstArraySpan
        rw [show ('[' :: (Json.dumps x ++ dumpsItems xs0)) ++ [']']
            = ([] : Str) ++ ('[' :: ((Json.dumps x ++ dumpsItems xs0) ++ (']' :: [])))
          from by simp]
        rw [splitAtChar_append '[' [] ((Json.dumps x ++ dumpsItems xs0) ++ (']' :: []))
          (by simp)]
        dsimp only
        rw [takeThroughChar_append ']' (Json.dumps x ++ dumpsItems xs0) [] hbody2]
        simp
      have hne : ¬ Json.dumps (Json.arr (JsonList.cons x xs0)) = ([] : Str) := by
        rw [hd]
        simp
      unfold extract_json_array
      rw [if_neg hne, hd, hspan]
      dsimp only
      rw [← hd, Json.parse_dumps]

/-- C9 amended witness: both parts applied at concrete inputs. -/
theorem claim_C9_amended_witness :
    extract_json (Json.dumps (Json.num 7)) = some (Json.num 7)
    ∧ extract_json_array (Json.dumps (Json.arr (JsonList.ofList [Json.num 1, Json.num 2])))
        = some (Json.arr (JsonList.ofList [Json.num 1, Json.num 2])) :=
  ⟨claim_C9_amended.1 ("7".toList) (Json.num 7) (by decide),
   claim_C9_amended.2 ("[1, 2,]".toList) (Json.arr (JsonList.ofList [Json.num 1, Json.num 2]))
     (by decide) (by decide)⟩

/-! ### Verification target sizing (`_compute_search_query_count`, claim C6) -/

/-- `SEARCH_QUERY_COUNT` from `config.py`. -/
def SEARCH_QUERY_COUNT : Nat := 3

/-- `SEARCH_QUERY_MAX` from `config.py`. -/
def SEARCH_QUERY_MAX : Nat := 8

/-- The five scope-category keys scanned by `_compute_search_query_count`. -/
def scopeKeys : List Str :=
  ["claims_to_verify".toList, "areas_of_concern".toList, "assumptions_to_check".toList,
   "entities_and_sources".toList, "critical_metrics".toList]

/-- One `set.add` step of the Python loop, modelled as append-if-absent. -/
def insertNew (acc : List Str) (x : Str) : List Str :=
  if x ∈ acc then acc else acc ++ [x]

/-- The normalised strings one category key contributes: string elements of a
list value, stripped, kept when nonempty, lower-cased. -/
def scopeStringsOfKey (scope : Json) (key : Str) : List Str :=
  match Json.get? scope key with
  | some (Json.arr xs) =>
    xs.toList.filterMap (fun v =>
      match v with
      | Json.str s =>
        let n := pyStrip s
        if n ≠ [] then some (lowerStr n) else none
      | _ => none)
  | _ => []

/-- All normalised risk strings of the payload, in loop order. -/
def collectedRiskStrings (scope : Option Json) : List Str :=
  match scope with
  | some (Json.obj kvs) => scopeKeys.flatMap (fun k => scopeStringsOfKey (Json.obj kvs) k)
  | _ => []

/-- Number of distinct normalised risk strings (the spec's `unique_risk_items`). -/
def uniqueRiskItems (scope : Option Json) : Nat :=
  (collectedRiskStrings scope).toFinset.card

/-- Model of `_compute_search_query_count` (`council.py` lines 279-311). -/
def computeSearchQueryCount : Option Json → Nat
  | some (Json.obj kvs) =>
    let items := (scopeKeys.flatMap (fun k => scopeStringsOfKey (Json.obj kvs) k)).foldl
      insertNew []
    let scopeSize := items.length
    if scopeSize = 0 then SEARCH_QUERY_COUNT
    else
      let proposed := (scopeSize + 5) / 6
      let proposed2 := if proposed < SEARCH_QUERY_COUNT then SEARCH_QUERY_COUNT else proposed
      if proposed2 > SEARCH_QUERY_MAX then SEARCH_QUERY_MAX else proposed2
  | _ => SEARCH_QUERY_COUNT

theorem mem_foldl_insertNew :
    ∀ (l : List Str) (acc : List Str) (x : Str),
      x ∈ l.foldl insertNew acc ↔ x ∈ acc ∨ x ∈ l := by
  intro l
  induction l with
  | nil => intro acc x; simp
  | cons a as ih =>
    intro acc x
    simp only [List.foldl_cons, ih, insertNew]
    by_cases ha : a ∈ acc
    · rw [if_pos ha]
      constructor
      · rintro (h | h)
        · exact Or.inl h
        · exact Or.inr (List.mem_cons_of_mem a h)
      · rintro (h | h)
        · exact Or.inl h
        · rcases List.mem_cons.mp h with rfl | h
          · exact Or.inl ha
          · exact Or.inr h
    · rw [if_neg ha]
      simp only [List.mem_append, List.mem_singleton, List.mem_cons]
      tauto

theorem nodup_foldl_insertNew :
    ∀ (l : List Str) (acc : List Str), acc.Nodup → (l.foldl insertNew acc).Nodup := by
  intro l
  induction l with
  | nil => intro acc h; simpa using h
  | cons a as ih =>
    intro acc h
    simp only [List.foldl_cons, insertNew]
    by_cases ha : a ∈ acc
    · rw [if_pos ha]
      exact ih acc h
    · rw [if_neg ha]
      refine ih _ ?_
      simp [List.nodup_append, h, ha]

theorem length_foldl_insertNew (l : List Str) :
    (l.foldl insertNew []).length = l.toFinset.card := by
  have hnd : (l.foldl insertNew []).Nodup := nodup_foldl_insertNew l [] (by simp)
  have hmem : ∀ x, x ∈ l.foldl insertNew [] ↔ x ∈ l := by
    intro x
    rw [mem_foldl_insertNew]
    simp
  have : (l.foldl insertNew []).toFinset = l.toFinset := by
    apply Finset.ext
    intro x
    simp [hmem]
  rw [← this, List.toFinset_card_of_nodup hnd]

/-- C6: the verification target count is exactly
`clamp(ceil(unique_risk_items / 6), SEARCH_QUERY_COUNT, SEARCH_QUERY_MAX)`
(with `ceil(n/6)` written `(n+5)/6`), where `unique_risk_items` counts the
distinct case-folded, whitespace-trimmed, nonempty strings in the union of the
five scope categories; an absent payload or an empty union yields the base
count `3`, which the clamp formula also produces.  The second conjunct is the
spec's concrete case: thirteen distinct items give `clamp(3, 3, 8) = 3`. -/
theorem claim_C6 :
    (∀ scope : Option Json,
      computeSearchQueryCount scope =
        max SEARCH_QUERY_COUNT (min SEARCH_QUERY_MAX ((uniqueRiskItems scope + 5) / 6)))
    ∧ (uniqueRiskItems (some (Json.obj (JsonMembers.ofList
          [("claims_to_verify".toList, Json.arr (JsonList.ofList
              [Json.str "c1".toList, Json.str "c2".toList, Json.str "c3".toList,
               Json.str "c4".toList, Json.str "c5".toList, Json.str "c6".toList,
               Json.str "c7".toList])),
           ("areas_of_concern".toList, Json.arr (JsonList.ofList
              [Json.str "a1".toList, Json.str "a2".toList, Json.str "a3".toList,
               Json.str "a4".toList, Json.str "a5".toList, Json.str "a6".toList,
               Json.str " C7 ".toList]))]))) = 13
        ∧ computeSearchQueryCount (some (Json.obj (JsonMembers.ofList
          [("claims_to_verify".toList, Json.arr (JsonList.ofList
              [Json.str "c1".toList, Json.str "c2".toList, Json.str "c3".toList,
               Json.str "c4".toList, Json.str "c5".toList, Json.str "c6".toList,
               Json.str "c7".toList])),
           ("areas_of_concern".toList, Json.arr (JsonList.ofList
              [Json.str "a1".toList, Json.str "a2".toList, Json.str "a3".toList,
               Json.str "a4".toList, Json.str "a5".toList, Json.str "a6".toList,
               Json.str " C7 ".toList]))]))) = 3) := by
  constructor
  · intro scope
    match scope with
    | none => decide
    | some Json.null => decide
    | some (Json.bool b) => cases b <;> decide
    | some (Json.num n) =>
      simp [computeSearchQueryCount, uniqueRiskItems, collectedRiskStrings,
        SEARCH_QUERY_COUNT, SEARCH_QUERY_MAX]
    | some (Json.str s) =>
      simp [computeSearchQueryCount, uniqueRiskItems, collectedRiskStrings,
        SEARCH_QUERY_COUNT, SEARCH_QUERY_MAX]
    | some (Json.arr xs) =>
      simp [computeSearchQueryCount, uniqueRiskItems, collectedRiskStrings,
        SEARCH_QUERY_COUNT, SEARCH_QUERY_MAX]
    | some (Json.obj kvs) =>
      simp only [computeSearchQueryCount, uniqueRiskItems, collectedRiskStrings]
      rw [length_foldl_insertNew]
      generalize (scopeKeys.flatMap fun k => scopeStringsOfKey (Json.obj kvs) k).toFinset.card = n
      simp only [SEARCH_QUERY_COUNT, SEARCH_QUERY_MAX]
      rw [Nat.max_def, Nat.min_def]
      rcases Nat.eq_zero_or_pos n with rfl | h0
      · decide
      · rw [if_neg (by omega : ¬ n = 0)]
        split_ifs <;> omega
  · constructor
    · decide
    · decide

/-! ### Model Invocation Gateway (`openrouter.py`, `query_model`, claim C7)

The network is abstracted as a function from attempt index to the outcome of
that POST: either an HTTP response (reduced to the fields `query_model`
inspects), a timeout exception, or another exception.  The loop body is a
faithful transcription of `query_model` lines 145-215; sleeps are recorded as
a trace of delays. -/

/-- The parts of an HTTP response `query_model` inspects.  `reasoningMarker`
states that the lowered error message extracted from the body contains
`"reasoning"` or `"unsupported"` (false whenever the body fails to parse,
since the message is then built from `{}`). -/
structure HttpResponse where
  statusCode : Nat
  reasoningMarker : Bool
  bodyParses : Bool
  hasChoices : Bool
  content : Option Str
  deriving DecidableEq

/-- Outcome of one POST. -/
inductive PostOutcome where
  | resp (r : HttpResponse)
  | timeoutExc
  | otherExc
  deriving DecidableEq

/-- Result of `query_model`: a content dict, an error dict carrying the status
code (authorization failure or missing `choices`), or Python `None`. -/
inductive QMResult where
  | success (content : Option Str)
  | errorResult (status : Nat)
  | noResult
  deriving DecidableEq

/-- `base_delay * (2 ** attempt)` with `base_delay = 2.0` (delays are exact
integers, so the float is modelled as the natural number 2). -/
def backoffDelay (attempt : Nat) : Nat := 2 * 2 ^ attempt

/-- The retry loop of `query_model` (`for attempt in range(max_retries)` with
`max_retries = 3`), `rem` being the number of loop iterations left
(`3 - attempt`).  Returns the result together with the trace of sleep delays. -/
def queryModelLoop (resp : Nat → PostOutcome) :
    Nat → Nat → Bool → List Nat → QMResult × List Nat
  | 0, _, _, sleeps => (QMResult.noResult, sleeps)
  | Nat.succ rem, attempt, canRetry, sleeps =>
    match resp attempt with
    | PostOutcome.resp r =>
      if r.statusCode = 429 then
        queryModelLoop resp rem (attempt + 1) canRetry (sleeps ++ [backoffDelay attempt])
      else if r.statusCode = 401 ∨ r.statusCode = 403 then
        (QMResult.errorResult r.statusCode, sleeps)
      else if (r.statusCode = 400 ∨ r.statusCode = 422) ∧ canRetry ∧ r.reasoningMarker then
        queryModelLoop resp rem (attempt + 1) false sleeps
      else if 200 ≤ r.statusCode ∧ r.statusCode < 300 then
        if r.bodyParses then
          if r.hasChoices then (QMResult.success r.content, sleeps)
          else (QMResult.errorResult r.statusCode, sleeps)
        else
          if attempt < 2 then
            queryModelLoop resp rem (attempt + 1) canRetry (sleeps ++ [backoffDelay attempt])
          else (QMResult.noResult, sleeps)
      else
        if attempt < 2 then
          queryModelLoop resp rem (attempt + 1) canRetry (sleeps ++ [backoffDelay attempt])
        else (QMResult.noResult, sleeps)
    | PostOutcome.timeoutExc =>
      if canRetry then queryModelLoop resp rem (attempt + 1) false sleeps
      else
        if attempt < 2 then
          queryModelLoop resp rem (attempt + 1) canRetry (sleeps ++ [backoffDelay attempt])
        else (QMResult.noResult, sleeps)
    | PostOutcome.otherExc =>
      if attempt < 2 then
        queryModelLoop resp rem (attempt + 1) canRetry (sleeps ++ [backoffDelay attempt])
      else (QMResult.noResult, sleeps)

/-- Model of `query_model`: missing API key short-circuits to `None`; otherwise
the three-attempt retry loop runs.  `canRetry0` is
`bool(extra_body and payload.get("reasoning"))`. -/
def queryModel (hasKey : Bool) (canRetry0 : Bool) (resp : Nat → PostOutcome) :
    QMResult × List Nat :=
  if hasKey then queryModelLoop resp 3 0 canRetry0 [] else (QMResult.noResult, [])

/-- C7: an authorization failure (HTTP 401/403) on the first attempt makes
`query_model` return the failure dict immediately — no sleep, no further POST
(the result only depends on `resp 0`); a rate-limit signal (HTTP 429) is
retried with exponential backoff `base_delay * 2 ^ attempt`, and after the
fixed bound of three attempts the call reports failure (`None`) having slept
`[2*2^0, 2*2^1, 2*2^2]`. -/
theorem claim_C7 :
    (∀ (resp : Nat → PostOutcome) (canRetry : Bool) (r : HttpResponse),
        resp 0 = PostOutcome.resp r → (r.statusCode = 401 ∨ r.statusCode = 403) →
        queryModel true canRetry resp = (QMResult.errorResult r.statusCode, []))
    ∧ (∀ (resp : Nat → PostOutcome) (canRetry : Bool),
        (∀ i, i < 3 → ∃ r, resp i = PostOutcome.resp r ∧ r.statusCode = 429) →
        queryModel true canRetry resp
          = (QMResult.noResult, [backoffDelay 0, backoffDelay 1, backoffDelay 2])) := by
  constructor
  · intro resp canRetry r h0 hauth
    have h429 : ¬ r.statusCode = 429 := by
      rcases hauth with h | h <;> omega
    simp only [queryModel, if_true, queryModelLoop, h0]
    rw [if_neg h429, if_pos hauth]
  · intro resp canRetry hall
    obtain ⟨r0, h0, hs0⟩ := hall 0 (by omega)
    obtain ⟨r1, h1, hs1⟩ := hall 1 (by omega)
    obtain ⟨r2, h2, hs2⟩ := hall 2 (by omega)
    simp only [queryModel, if_true, queryModelLoop, h0, h1, h2]
    rw [if_pos hs0, if_pos hs1, if_pos hs2]
    simp [queryModelLoop]

/-- C7 witness: the two parts at concrete outcome sequences. -/
theorem claim_C7_witness :
    queryModel true false (fun _ => PostOutcome.resp ⟨401, false, true, true, none⟩)
        = (QMResult.errorResult 401, [])
    ∧ queryModel true false (fun _ => PostOutcome.resp ⟨429, false, true, true, none⟩)
        = (QMResult.noResult, [backoffDelay 0, backoffDelay 1, backoffDelay 2]) :=
  ⟨claim_C7.1 (fun _ => PostOutcome.resp ⟨401, false, true, true, none⟩) false
      ⟨401, false, true, true, none⟩ rfl (by decide),
   claim_C7.2 (fun _ => PostOutcome.resp ⟨429, false, true, true, none⟩) false
      (fun i _ => ⟨⟨429, false, true, true, none⟩, rfl, rfl⟩)⟩

/-! ### Verification report trimming (`_trim_verification_report`, claim C10) -/

/-- Position `p` starts a `^##\s+` match under `re.MULTILINE`: a line start
(offset 0 or after a newline), two `#`, then at least one whitespace. -/
def isHeadingAt (cs : Str) (p : Nat) : Bool :=
  (decide (p = 0) || (cs[p-1]? = some '\n'))
    && (cs[p]? = some '#') && (cs[p+1]? = some '#')
    && (match cs[p+2]? with
        | some c => isPyWs c
        | none => false)

/-- All heading-match start positions, in increasing order (the order
`finditer` yields them). -/
def headingPositions (cs : Str) : List Nat :=
  (List.range cs.length).filter (fun p => isHeadingAt cs p)

/-- Case-insensitive literal prefix test (`re.IGNORECASE` fragment). -/
def hasLowerPrefix (s pat : Str) : Bool :=
  lowerStr (s.take pat.length) = pat

/-- Position `p` starts a `^##\s+Search Status` match (`re.IGNORECASE`):
heading shape, maximal whitespace run, then `search status` case-folded. -/
def searchMatchAt (cs : Str) (p : Nat) : Bool :=
  isHeadingAt cs p
    && hasLowerPrefix ((cs.drop (p+2)).dropWhile (fun c => isPyWs c)) ("search status".toList)

/-- Tail of the audit pattern after the `&`/`and` alternative:
`\s*Reasoning\s+Audit`, case-insensitive. -/
def auditTailMatch (r3 : Str) : Bool :=
  let r4 := r3.dropWhile (fun c => isPyWs c)
  hasLowerPrefix r4 ("reasoning".toList)
    && (match r4.drop 9 with
        | c :: rest5 =>
          isPyWs c && hasLowerPrefix ((c :: rest5).dropWhile (fun c2 => isPyWs c2)) ("audit".toList)
        | [] => false)

/-- Position `p` starts a `^##\s+Verification\s*(?:&|and)\s*Reasoning\s+Audit`
match (`re.IGNORECASE`). -/
def auditMatchAt (cs : Str) (p : Nat) : Bool :=
  isHeadingAt cs p
    && (let r1 := (cs.drop (p+2)).dropWhile (fun c => isPyWs c)
        hasLowerPrefix r1 ("verification".toList)
          && (let r2 := (r1.drop 12).dropWhile (fun c => isPyWs c)
              match r2 with
              | '&' :: r3 => auditTailMatch r3
              | _ => hasLowerPrefix r2 ("and".toList) && auditTailMatch (r2.drop 3)))

/-- Start of the first `## Search Status` match (`re.search`). -/
def searchPos (cs : Str) : Option Nat :=
  (List.range cs.length).find? (fun p => searchMatchAt cs p)

/-- Start of the first audit-heading match (`re.search`). -/
def auditPos (cs : Str) : Option Nat :=
  (List.range cs.length).find? (fun p => auditMatchAt cs p)

/-- The code's `slice_section` helper: the first heading match starting
strictly after `start` bounds the slice, stripped. -/
def nextHeading (cs : Str) (p : Nat) : Option Nat :=
  (headingPositions cs).find? (fun x => decide (p < x))

/-- Model of `slice_section` inside `_trim_verification_report`. -/
def sliceSection (cs : Str) (start : Nat) : Str :=
  pyStrip ((cs.drop start).take (((nextHeading cs start).getD cs.length) - start))

/-- Model of `_trim_verification_report` (`council.py` lines 246-276). -/
def trimVerificationReport (cs : Str) : Str :=
  if cs = [] then cs
  else
    match auditPos cs with
    | none => pyStrip cs
    | some a =>
      let searchParts :=
        match searchPos cs with
        | some s =>
          if s < a then
            (let sec := sliceSection cs s
             if sec ≠ [] then [sec] else [])
          else []
        | none => []
      let auditParts :=
        (let sec := sliceSection cs a
         if sec ≠ [] then [sec] else [])
      let parts := searchParts ++ auditParts
      if parts = [] then pyStrip cs
      else List.intercalate ("\n\n".toList) parts

/-- Consecutive sections: each heading start paired with the next heading
start (the last one with the text length). -/
def consecPairs (len : Nat) : List Nat → List (Nat × Nat)
  | [] => []
  | [p] => [(p, len)]
  | p :: q2 :: rest => (p, q2) :: consecPairs len (q2 :: rest)

/-- A section is kept exactly when it is the audit section, or the Search
Status section occurring before the audit heading. -/
def keepSection (cs : Str) (a p : Nat) : Bool :=
  decide (p = a)
    || (match searchPos cs with
        | some s => decide (p = s) && decide (s < a)
        | none => false)

/-- Spec-side reformulation of the trimming, following the claim's wording:
cut the text into consecutive heading-delimited sections, keep only the audit
section and a Search Status section occurring before it, strip each, drop the
empty ones, and join with blank lines; with no audit heading, return the whole
text stripped. -/
def trimSpec (cs : Str) : Str :=
  if cs = [] then cs
  else
    match auditPos cs with
    | none => pyStrip cs
    | some a =>
      let secs := consecPairs cs.length (headingPositions cs)
      let keep := secs.filter (fun pr => keepSection cs a pr.1)
      let parts := (keep.map (fun pr => pyStrip ((cs.drop pr.1).take (pr.2 - pr.1)))).filter
        (fun sec => sec ≠ [])
      if parts = [] then pyStrip cs
      else List.intercalate ("\n\n".toList) parts

theorem headingPositions_pairwise (cs : Str) :
    List.Pairwise (· < ·) (headingPositions cs) :=
  List.Pairwise.sublist (List.filter_sublist _) (List.pairwise_lt_range cs.length)

theorem auditPos_mem_headings {cs : Str} {a : Nat} (h : auditPos cs = some a) :
    a ∈ headingPositions cs := by
  have hmem : a ∈ List.range cs.length := List.mem_of_find?_eq_some h
  have hmatch : auditMatchAt cs a = true := List.find?_some h
  have hhead : isHeadingAt cs a = true := by
    simp only [auditMatchAt, Bool.and_eq_true] at hmatch
    exact hmatch.1
  exact List.mem_filter.mpr ⟨hmem, hhead⟩

theorem searchPos_mem_headings {cs : Str} {s : Nat} (h : searchPos cs = some s) :
    s ∈ headingPositions cs := by
  have hmem : s ∈ List.range cs.length := List.mem_of_find?_eq_some h
  have hmatch : searchMatchAt cs s = true := List.find?_some h
  have hhead : isHeadingAt cs s = true := by
    simp only [searchMatchAt, Bool.and_eq_true] at hmatch
    exact hmatch.1
  exact List.mem_filter.mpr ⟨hmem, hhead⟩

theorem filter_consecPairs (qp : Nat → Bool) (len : Nat) :
    ∀ hs : List Nat, List.Pairwise (· < ·) hs →
      (consecPairs len hs).filter (fun pr => qp pr.1)
        = (hs.filter qp).map (fun p => (p, ((hs.find? (fun x => decide (p < x))).getD len))) := by
  intro hs
  induction hs with
  | nil => intro _; rfl
  | cons p t ih =>
    intro hpw
    have hpt : ∀ x ∈ t, p < x := fun x hx => (List.pairwise_cons.mp hpw).1 x hx
    have htpw : List.Pairwise (· < ·) t := (List.pairwise_cons.mp hpw).2
    cases t with
    | nil =>
      by_cases hq : qp p
      · have hfp : List.find? (fun x => decide (p < x)) [p] = none := by
          rw [List.find?_cons_of_neg _ (by simp)]
          rfl
        simp [consecPairs, List.filter_cons, hq, hfp]
      · simp [consecPairs, List.filter_cons, hq]
    | cons q2 rest =>
      have hpq2 : p < q2 := hpt q2 (by simp)
      have hfind_tail : ∀ x ∈ q2 :: rest,
          ((p :: q2 :: rest).find? (fun y => decide (x < y)))
            = ((q2 :: rest).find? (fun y => decide (x < y))) := by
        intro x hx
        have hpx : p < x := hpt x hx
        exact List.find?_cons_of_neg _ (by simp; omega)
      have ihq := ih htpw
      have hcp : consecPairs len (p :: q2 :: rest)
          = (p, q2) :: consecPairs len (q2 :: rest) := rfl
      by_cases hq : qp p
      · have hL : (consecPairs len (p :: q2 :: rest)).filter (fun pr => qp pr.1)
            = (p, q2) :: (consecPairs len (q2 :: rest)).filter (fun pr => qp pr.1) := by
          rw [hcp]
          simp [List.filter_cons, hq]
        have hR : (p :: q2 :: rest).filter qp = p :: (q2 :: rest).filter qp := by
          simp [List.filter_cons, hq]
        have hfp : List.find? (fun x => decide (p < x)) (p :: q2 :: rest) = some q2 := by
          rw [List.find?_cons_of_neg _ (by simp), List.find?_cons_of_pos _ (by simp [hpq2])]
        rw [hL, hR, List.map_cons, ihq, hfp]
        congr 1
        apply List.map_congr_left
        intro x hx
        have hxmem : x ∈ q2 :: rest := List.mem_of_mem_filter hx
        rw [hfind_tail x hxmem]
      · have hL : (consecPairs len (p :: q2 :: rest)).filter (fun pr => qp pr.1)
            = (consecPairs len (q2 :: rest)).filter (fun pr => qp pr.1) := by
          rw [hcp]
          simp [List.filter_cons, hq]
        have hR : (p :: q2 :: rest).filter qp = (q2 :: rest).filter qp := by
          simp [List.filter_cons, hq]
        rw [hL, hR, ihq]
        apply List.map_congr_left
        intro x hx
        have hxmem : x ∈ q2 :: rest := List.mem_of_mem_filter hx
        rw [hfind_tail x hxmem]

theorem filter_support_single :
    ∀ (hs : List Nat), List.Pairwise (· < ·) hs → ∀ (qp : Nat → Bool) (a : Nat),
      a ∈ hs → qp a = true → (∀ x ∈ hs, qp x = true → x = a) →
      hs.filter qp = [a] := by
  intro hs
  induction hs with
  | nil => intro _ qp a ha; simp at ha
  | cons h t ih =>
    intro hpw qp a ha hqa hsupp
    have hpt : ∀ x ∈ t, h < x := fun x hx => (List.pairwise_cons.mp hpw).1 x hx
    have htpw := (List.pairwise_cons.mp hpw).2
    by_cases hha : h = a
    · subst hha
      have htf : t.filter qp = [] := by
        apply List.filter_eq_nil_iff.mpr
        intro x hx hqx
        have : x = h := hsupp x (List.mem_cons_of_mem h hx) hqx
        subst this
        exact absurd (hpt x hx) (by omega)
      simp [List.filter_cons, hqa, htf]
    · have hat : a ∈ t := by
        rcases List.mem_cons.mp ha with h1 | h1
        · exact absurd h1.symm hha
        · exact h1
      have hqh : qp h = false := by
        by_contra hc
        simp only [Bool.not_eq_false] at hc
        exact hha (hsupp h (by simp) hc)
      simp only [List.filter_cons, hqh]
      exact ih htpw qp a hat hqa (fun x hx => hsupp x (List.mem_cons_of_mem h hx))

theorem filter_support_pair :
    ∀ (hs : List Nat), List.Pairwise (· < ·) hs → ∀ (qp : Nat → Bool) (s a : Nat),
      s ∈ hs → a ∈ hs → s < a → qp s = true → qp a = true →
      (∀ x ∈ hs, qp x = true → x = s ∨ x = a) →
      hs.filter qp = [s, a] := by
  intro hs
  induction hs with
  | nil => intro _ qp s a hsm; simp at hsm
  | cons h t ih =>
    intro hpw qp s a hsm ham hlt hqs hqa hsupp
    have hpt : ∀ x ∈ t, h < x := fun x hx => (List.pairwise_cons.mp hpw).1 x hx
    have htpw := (List.pairwise_cons.mp hpw).2
    by_cases hhs : h = s
    · subst hhs
      have hat : a ∈ t := by
        rcases List.mem_cons.mp ham with h1 | h1
        · exact absurd h1.symm (by omega)
        · exact h1
      have htf : t.filter qp = [a] := by
        apply filter_support_single t htpw qp a hat hqa
        intro x hx hqx
        rcases hsupp x (List.mem_cons_of_mem _ hx) hqx with h1 | h1
        · subst h1
          exact absurd (hpt x hx) (by omega)
        · exact h1
      simp [List.filter_cons, hqs, htf]
    · have hst : s ∈ t := by
        rcases List.mem_cons.mp hsm with h1 | h1
        · exact absurd h1.symm hhs
        · exact h1
      have hha : ¬ h = a := by
        intro hc
        subst hc
        exact absurd (hpt s hst) (by omega)
      have hat : a ∈ t := by
        rcases List.mem_cons.mp ham with h1 | h1
        · exact absurd h1.symm hha
        · exact h1
      have hqh : qp h = false := by
        by_contra hc
        simp only [Bool.not_eq_false] at hc
        rcases hsupp h (by simp) hc with h1 | h1 <;> [exact hhs h1; exact hha h1]
      simp only [List.filter_cons, hqh]
      exact ih htpw qp s a hst hat hlt hqs hqa
        (fun x hx => hsupp x (List.mem_cons_of_mem h hx))

theorem filter_singleton_ne (sec : Str) :
    List.filter (fun s => s ≠ []) [sec] = if sec ≠ [] then [sec] else [] := by
  by_cases h : sec = [] <;> simp [h]

theorem filter_pair_ne (s1 s2 : Str) :
    List.filter (fun s => s ≠ []) [s1, s2]
      = (if s1 ≠ [] then [s1] else []) ++ (if s2 ≠ [] then [s2] else []) := by
  by_cases h1 : s1 = [] <;> by_cases h2 : s2 = [] <;> simp [h1, h2]

/-- C10: `_trim_verification_report` returns the whole text stripped when no
`## Verification & Reasoning Audit` heading is present; otherwise the result
is exactly the `## Search Status` section (kept only when it occurs before the
audit heading) followed by the audit section, each cut at the next `## `
heading, stripped, dropped when empty, and joined with blank lines — every
other section is dropped.  Stated as equality with the section-decomposition
reformulation `trimSpec` of that description. -/
theorem claim_C10 : ∀ cs : Str, trimVerificationReport cs = trimSpec cs := by
  intro cs
  by_cases hcs : cs = []
  · rw [hcs]
    rfl
  · unfold trimVerificationReport trimSpec
    rw [if_neg hcs, if_neg hcs]
    cases hap : auditPos cs with
    | none => rfl
    | some a =>
      have hpw := headingPositions_pairwise cs
      have ham := auditPos_mem_headings hap
      dsimp only
      rw [filter_consecPairs (keepSection cs a) cs.length (headingPositions cs) hpw]
      cases hsp : searchPos cs with
      | none =>
        have hfil : (headingPositions cs).filter (keepSection cs a) = [a] := by
          apply filter_support_single _ hpw _ a ham
          · simp [keepSection, hsp]
          · intro x _ hx
            simp [keepSection, hsp] at hx
            exact hx
        rw [hfil]
        simp only [List.map_cons, List.map_nil, List.nil_append]
        rw [filter_singleton_ne]
        simp only [sliceSection, nextHeading]
      | some s =>
        by_cases hsa : s < a
        · have hsm := searchPos_mem_headings hsp
          have hfil : (headingPositions cs).filter (keepSection cs a) = [s, a] := by
            apply filter_support_pair _ hpw _ s a hsm ham hsa
            · simp [keepSection, hsp, hsa]
            · simp [keepSection, hsp]
            · intro x _ hx
              simp [keepSection, hsp] at hx
              rcases hx with hx | hx
              · exact Or.inr hx
              · exact Or.inl hx.1
          rw [hfil]
          dsimp only
          simp only [List.map_cons, List.map_nil]
          rw [filter_pair_ne]
          rw [if_pos hsa]
          simp only [sliceSection, nextHeading]
        · have hfil : (headingPositions cs).filter (keepSection cs a) = [a] := by
            apply filter_support_single _ hpw _ a ham
            · simp [keepSection, hsp]
            · intro x _ hx
              simp [keepSection, hsp] at hx
              rcases hx with hx | hx
              · exact hx
              · exact absurd hx.2 hsa
          rw [hfil]
          dsimp only
          rw [if_neg hsa]
          simp only [List.map_cons, List.map_nil, List.nil_append]
          rw [filter_singleton_ne]
          simp only [sliceSection, nextHeading]

/-! ### Panel formation (`build_default_experts`, `_coerce_expert_order`,
`_normalize_expert_team`, claim C2)

A normalized team entry is the four-key dict these functions build and
consume (`name`, `description`, `objectives`, `order`); `order = none` models
Python `None`.  Raw synthesis entries stay `Json`; calling `.get` on a
non-dict raw entry raises `AttributeError`, and `" | ".join` on a truthy
non-iterable-of-strings raises `TypeError`, both modeled as `Except.error`.
`int(str)` is modeled for optionally signed decimal strings with surrounding
whitespace; numeric-literal underscores are out of scope. -/

structure TeamEntry where
  name : Json
  description : Json
  objectivesJ : Json
  order : Option Int
  deriving DecidableEq

def extraExpert (i : Nat) : TeamEntry :=
  { name := Json.str (("Expert ".toList) ++ natRepr i),
    description := Json.str ("Task: Provide complementary analysis. Objective: Strengthen coverage.".toList),
    objectivesJ := Json.arr (JsonList.ofList [Json.str ("Add complementary depth".toList)]),
    order := some (Int.ofNat i) }

def baseExperts : List TeamEntry :=
  [ { name := Json.str ("Strategic Analyst".toList),
      description := Json.str ("Task: Set strategic direction. Objective: Define approach.".toList),
      objectivesJ := Json.arr (JsonList.ofList [Json.str ("Define strategy".toList)]),
      order := some 1 },
    { name := Json.str ("Technical Architect".toList),
      description := Json.str ("Task: Technical foundation. Objective: Ensure feasibility.".toList),
      objectivesJ := Json.arr (JsonList.ofList [Json.str ("Ensure feasibility".toList)]),
      order := some 2 },
    { name := Json.str ("Domain Specialist".toList),
      description := Json.str ("Task: Domain expertise. Objective: Add depth.".toList),
      objectivesJ := Json.arr (JsonList.ofList [Json.str ("Add domain depth".toList)]),
      order := some 3 },
    { name := Json.str ("Implementation Expert".toList),
      description := Json.str ("Task: Practical application. Objective: Actionable guidance.".toList),
      objectivesJ := Json.arr (JsonList.ofList [Json.str ("Provide guidance".toList)]),
      order := some 4 },
    { name := Json.str ("Risk Analyst".toList),
      description := Json.str ("Task: Identify risks. Objective: Surface concerns.".toList),
      objectivesJ := Json.arr (JsonList.ofList [Json.str ("Identify risks".toList)]),
      order := some 5 },
    { name := Json.str ("Quality Reviewer".toList),
      description := Json.str ("Task: Critical review. Objective: Ensure completeness.".toList),
      objectivesJ := Json.arr (JsonList.ofList [Json.str ("Ensure quality".toList)]),
      order := some 6 } ]

/-- Model of `build_default_experts` (`council.py` lines 33-55). -/
def build_default_experts (k : Nat) : List TeamEntry :=
  if k ≤ 6 then baseExperts.take k
  else baseExperts ++ (List.range' 7 (k - 6)).map extraExpert

/-- Python `int(s)` on a string: optional surrounding whitespace, optional
sign, decimal digits. -/
def pyIntOfStr (s : Str) : Option Int :=
  let digitsOnly : Str → Option Int := fun ds =>
    if ds ≠ [] ∧ ds.all Char.isDigit then some (Int.ofNat (digitsToNat ds)) else none
  match pyStrip s with
  | '-' :: ds => (digitsOnly ds).map (fun n => -n)
  | '+' :: ds => digitsOnly ds
  | ds => digitsOnly ds

/-- `int(value)` on a `json.loads` value (`None` included); `none` models the
`TypeError`/`ValueError` branch of `_coerce_expert_order`. -/
def coerceRaw : Option Json → Option Int
  | none => none
  | some Json.null => none
  | some (Json.num n) => some n
  | some (Json.bool b) => some (if b then 1 else 0)
  | some (Json.str s) => pyIntOfStr s
  | some _ => none

/-- Model of `_coerce_expert_order` (`council.py` lines 58-67). -/
def coerceExpertOrder (v : Option Json) (maxOrder : Int) : Option Int :=
  match coerceRaw v with
  | none => none
  | some o => if o < 1 ∨ o > maxOrder then none else some o

/-- Python `a or b` on `json.loads` values. -/
def pyOr (a b : Json) : Json := if a.truthy then a else b

/-- `expert.get(key)` on known-dict members, with Python `None` for absent. -/
def lookupField (ms : JsonMembers) (k : Str) : Json :=
  (objLookup ms.toList k).getD Json.null

/-- All-string check for `" | ".join(objectives)` over a list. -/
def strListOfJson : List Json → Option (List Str)
  | [] => some []
  | Json.str s :: rest => (strListOfJson rest).map (fun t => s :: t)
  | _ :: _ => none

/-- Distinct dict keys in first-occurrence order (CPython dict iteration). -/
def firstKeysAux : Nat → List Str → List Str
  | 0, _ => []
  | _, [] => []
  | fuel+1, k :: rest => k :: firstKeysAux fuel (rest.filter (fun x => x ≠ k))

def firstKeys (l : List Str) : List Str := firstKeysAux l.length l

/-- The `objectives_str` computation in `_normalize_expert_team`: strings pass
through; falsy values become `"Add value"`; truthy lists (and dict key views)
are joined with `" | "`; joining anything else raises `TypeError`. -/
def joinObjectives : Option Json → Except Unit Str
  | none => Except.ok ("Add value".toList)
  | some (Json.str s) => Except.ok s
  | some j =>
    if j.truthy then
      match j with
      | Json.arr xs =>
        (match strListOfJson xs.toList with
         | some strs => Except.ok (List.intercalate (" | ".toList) strs)
         | none => Except.error ())
      | Json.obj ms =>
        Except.ok (List.intercalate (" | ".toList) (firstKeys (ms.toList.map Prod.fst)))
      | _ => Except.error ()
    else Except.ok ("Add value".toList)

/-- Model of one iteration of the first loop of `_normalize_expert_team`
(`council.py` lines 78-98) on raw entry `e` at index `idx`, threading the
`used_orders` set (as a list). -/
def normExpertStep (idx : Nat) (e : Json) (k : Nat) (used : List Int) :
    Except Unit (TeamEntry × List Int) :=
  match e with
  | Json.obj ms =>
    let role := pyOr (lookupField ms ("role".toList)) (pyOr (lookupField ms ("name".toList))
      (pyOr (lookupField ms ("title".toList)) (Json.str (("Expert ".toList) ++ natRepr (idx+1)))))
    let task := pyOr (lookupField ms ("task".toList)) (pyOr (lookupField ms ("description".toList))
      (pyOr (lookupField ms ("details".toList)) (Json.str ("Contribute expertise".toList))))
    match joinObjectives (objLookup ms.toList ("objectives".toList)) with
    | Except.error _ => Except.error ()
    | Except.ok objStr =>
      let ov := coerceExpertOrder (objLookup ms.toList ("order".toList)) ((k : Int))
      let ov2 : Option Int :=
        match ov with
        | some o => if o ∈ used then none else some o
        | none => none
      let used2 :=
        match ov2 with
        | some o => o :: used
        | none => used
      Except.ok (⟨role, task, Json.str objStr, ov2⟩, used2)
  | _ => Except.error ()

/-- The whole first loop of `_normalize_expert_team` over `raw_experts[:K]`. -/
def normPass1 (k : Nat) : List Json → Nat → List Int → Except Unit (List TeamEntry × List Int)
  | [], _, used => Except.ok ([], used)
  | e :: rest, idx, used =>
    match normExpertStep idx e k used with
    | Except.error _ => Except.error ()
    | Except.ok (te, used2) =>
      match normPass1 k rest (idx+1) used2 with
      | Except.error _ => Except.error ()
      | Except.ok (tes, used3) => Except.ok (te :: tes, used3)

/-- `[1, ..., k]` as integers (`range(1, num_experts + 1)`). -/
def intRange (k : Nat) : List Int := List.map Int.ofNat (List.range' 1 k)

/-- Second loop of `_normalize_expert_team`: hand out remaining orders to
entries whose order is `None`, in encounter order, while any remain. -/
def assignOrders : List TeamEntry → List Int → (List TeamEntry × List Int)
  | [], rem => ([], rem)
  | e :: rest, rem =>
    match e.order, rem with
    | none, r :: rs =>
      let p := assignOrders rest rs
      ({ e with order := some r } :: p.1, p.2)
    | _, _ =>
      let p := assignOrders rest rem
      (e :: p.1, p.2)

/-- `if expert.get("order")`: the truthiness filter on default entries. -/
def truthyOrder (e : TeamEntry) : Bool :=
  match e.order with
  | some o => decide (o ≠ 0)
  | none => false

/-- `defaults_by_order` dict lookup: comprehension keeps the last entry bound
to each (truthy) order key. -/
def defaultsByOrder (ds : List TeamEntry) (o : Int) : Option TeamEntry :=
  ((ds.filter truthyOrder).reverse).find? (fun d => d.order = some o)

/-- Third loop body of `_normalize_expert_team`: pad a leftover order slot
from the default panel, or with the generic expert entry. -/
def padEntry (ds : List TeamEntry) (o : Int) : TeamEntry :=
  match defaultsByOrder ds o with
  | some d => d
  | none =>
    { name := Json.str (("Expert ".toList) ++ intRepr o),
      description := Json.str ("Task: Provide complementary analysis. Objective: Strengthen coverage.".toList),
      objectivesJ := Json.str ("Add complementary depth".toList),
      order := some o }

/-- `item.get("order") or 999`: the sort key. -/
def sortKey (e : TeamEntry) : Int :=
  match e.order with
  | some o => if o = 0 then 999 else o
  | none => 999

/-- Stable insertion: a new element goes after all existing elements with key
`≤` its own, matching `list.sort`'s stability. -/
def insertByKey (e : TeamEntry) : List TeamEntry → List TeamEntry
  | [] => [e]
  | x :: xs => if sortKey x ≤ sortKey e then x :: insertByKey e xs else e :: x :: xs

def sortTeamAux : List TeamEntry → List TeamEntry → List TeamEntry
  | acc, [] => acc
  | acc, e :: rest => sortTeamAux (insertByKey e acc) rest

/-- Stable sort by `sortKey` (Python `normalized.sort(key=...)`). -/
def sortTeam (l : List TeamEntry) : List TeamEntry := sortTeamAux [] l

/-- Model of `_normalize_expert_team` (`council.py` lines 70-120). -/
def normalizeExpertTeam (raws : List Json) (k : Nat) (ds : List TeamEntry) :
    Except Unit (List TeamEntry) :=
  match normPass1 k (raws.take k) 0 [] with
  | Except.error _ => Except.error ()
  | Except.ok (norm, used) =>
    let remaining := (intRange k).filter (fun o => o ∉ used)
    let p := assignOrders norm remaining
    let padded := p.1 ++ p.2.map (padEntry ds)
    Except.ok (sortTeam (padded.take k))

theorem coerce_bounds {v : Option Json} {m o : Int}
    (h : coerceExpertOrder v m = some o) : 1 ≤ o ∧ o ≤ m := by
  unfold coerceExpertOrder at h
  cases hr : coerceRaw v with
  | none => rw [hr] at h; exact absurd h (by simp)
  | some x =>
    rw [hr] at h
    dsimp only at h
    by_cases hx : x < 1 ∨ x > m
    · rw [if_pos hx] at h
      exact absurd h (by simp)
    · rw [if_neg hx] at h
      have hxo : x = o := Option.some_inj.mp h
      subst hxo
      push_neg at hx
      omega

theorem normExpertStep_spec {idx : Nat} {e : Json} {k : Nat} {used : List Int}
    {te : TeamEntry} {used2 : List Int}
    (h : normExpertStep idx e k used = Except.ok (te, used2)) :
    (te.order = none ∧ used2 = used) ∨
    (∃ o, te.order = some o ∧ used2 = o :: used ∧ o ∉ used ∧ 1 ≤ o ∧ o ≤ (k : Int)) := by
  cases e with
  | obj ms =>
    unfold normExpertStep at h
    dsimp only at h
    cases hj : joinObjectives (objLookup ms.toList ("objectives".toList)) with
    | error u => rw [hj] at h; exact absurd h (by simp)
    | ok objStr =>
      rw [hj] at h
      dsimp only at h
      cases hc : coerceExpertOrder (objLookup ms.toList ("order".toList)) ((k : Int)) with
      | none =>
        rw [hc] at h
        simp only [Except.ok.injEq, Prod.mk.injEq] at h
        obtain ⟨hte, hu⟩ := h
        subst hte hu
        exact Or.inl ⟨rfl, rfl⟩
      | some o =>
        rw [hc] at h
        dsimp only at h
        by_cases ho : o ∈ used
        · rw [if_pos ho] at h
          simp only [Except.ok.injEq, Prod.mk.injEq] at h
          obtain ⟨hte, hu⟩ := h
          subst hte hu
          exact Or.inl ⟨rfl, rfl⟩
        · rw [if_neg ho] at h
          simp only [Except.ok.injEq, Prod.mk.injEq] at h
          obtain ⟨hte, hu⟩ := h
          subst hte hu
          exact Or.inr ⟨o, rfl, rfl, ho, (coerce_bounds hc).1, (coerce_bounds hc).2⟩
  | null => exact absurd h (by simp [normExpertStep])
  | bool b => exact absurd h (by simp [normExpertStep])
  | num n => exact absurd h (by simp [normExpertStep])
  | str s => exact absurd h (by simp [normExpertStep])
  | arr xs => exact absurd h (by simp [normExpertStep])

theorem normPass1_spec (k : Nat) (raws : List Json) :
    ∀ (idx : Nat) (used₀ : List Int) (norm : List TeamEntry) (used₁ : List Int),
      normPass1 k raws idx used₀ = Except.ok (norm, used₁) →
      norm.length = raws.length ∧
      used₁ = (norm.filterMap TeamEntry.order).reverse ++ used₀ ∧
      (used₀.Nodup → used₁.Nodup) ∧
      (∀ o, o ∈ used₁ → o ∈ used₀ ∨ (1 ≤ o ∧ o ≤ (k : Int))) := by
  induction raws with
  | nil =>
    intro idx used₀ norm used₁ h
    simp only [normPass1, Except.ok.injEq, Prod.mk.injEq] at h
    obtain ⟨hn, hu⟩ := h
    subst hn hu
    exact ⟨rfl, by simp, fun h0 => h0, fun o ho => Or.inl ho⟩
  | cons e rest ih =>
    intro idx used₀ norm used₁ h
    simp only [normPass1] at h
    cases hstep : normExpertStep idx e k used₀ with
    | error u => rw [hstep] at h; exact absurd h (by simp)
    | ok pr =>
      obtain ⟨te, used2⟩ := pr
      rw [hstep] at h
      dsimp only at h
      cases hrec : normPass1 k rest (idx+1) used2 with
      | error u => rw [hrec] at h; exact absurd h (by simp)
      | ok pr2 =>
        obtain ⟨tes, used3⟩ := pr2
        rw [hrec] at h
        simp only [Except.ok.injEq, Prod.mk.injEq] at h
        obtain ⟨hn, hu⟩ := h
        subst hn hu
        obtain ⟨ihlen, ihused, ihnd, ihb⟩ := ih (idx+1) used2 tes used3 hrec
        rcases normExpertStep_spec hstep with ⟨hord, hu2⟩ | ⟨o, hord, hu2, hno, hb1, hb2⟩
        · refine ⟨by simp [ihlen], ?_, ?_, ?_⟩
          · rw [List.filterMap_cons, hord, ihused, hu2]
          · intro h0
            exact ihnd (hu2 ▸ h0)
          · intro o ho
            rcases ihb o ho with h1 | h1
            · exact Or.inl (hu2 ▸ h1)
            · exact Or.inr h1
        · refine ⟨by simp [ihlen], ?_, ?_, ?_⟩
          · rw [List.filterMap_cons, hord, ihused, hu2]
            simp [List.append_assoc]
          · intro h0
            exact ihnd (hu2 ▸ List.nodup_cons.mpr ⟨hno, h0⟩)
          · intro o' ho'
            rcases ihb o' ho' with h1 | h1
            · rw [hu2] at h1
              rcases List.mem_cons.mp h1 with h2 | h2
              · exact Or.inr (h2 ▸ ⟨hb1, hb2⟩)
              · exact Or.inl h2
            · exact Or.inr h1

/-- Number of entries still lacking an order after the first loop. -/
def noneCount (es : List TeamEntry) : Nat :=
  (es.filter (fun e => e.order = none)).length

theorem noneCount_add_filterMap (es : List TeamEntry) :
    noneCount es + (es.filterMap TeamEntry.order).length = es.length := by
  induction es with
  | nil => rfl
  | cons e rest ih =>
    cases ho : e.order with
    | none =>
      simp only [noneCount] at ih ⊢
      simp [List.filter_cons, List.filterMap_cons, ho]
      omega
    | some o =>
      simp only [noneCount] at ih ⊢
      simp [List.filter_cons, List.filterMap_cons, ho]
      omega

theorem assignOrders_spec : ∀ (es : List TeamEntry) (rem : List Int),
    noneCount es ≤ rem.length →
    (assignOrders es rem).1.length = es.length ∧
    (assignOrders es rem).2 = rem.drop (noneCount es) ∧
    ((assignOrders es rem).1.filterMap TeamEntry.order).Perm
      (es.filterMap TeamEntry.order ++ rem.take (noneCount es)) := by
  intro es
  induction es with
  | nil =>
    intro rem _
    exact ⟨rfl, by simp [assignOrders, noneCount], by simp [assignOrders, noneCount]⟩
  | cons e rest ih =>
    intro rem hle
    cases ho : e.order with
    | none =>
      have hnc : noneCount (e :: rest) = noneCount rest + 1 := by
        simp [noneCount, List.filter_cons, ho]
      cases rem with
      | nil =>
        rw [hnc] at hle
        exact absurd hle (by simp)
      | cons r rs =>
        have hle2 : noneCount rest ≤ rs.length := by
          rw [hnc] at hle
          simpa using hle
        obtain ⟨ih1, ih2, ih3⟩ := ih rs hle2
        have hred : assignOrders (e :: rest) (r :: rs)
            = ({ e with order := some r } :: (assignOrders rest rs).1,
               (assignOrders rest rs).2) := by
          simp only [assignOrders, ho]
        rw [hred]
        refine ⟨by simp [ih1], by simp [ih2, hnc], ?_⟩
        simp only [List.filterMap_cons, ho, hnc]
        have htk : (r :: rs).take (noneCount rest + 1) = r :: rs.take (noneCount rest) := rfl
        rw [htk]
        exact ((ih3.cons r).trans List.perm_middle.symm)
    | some o =>
      have hnc : noneCount (e :: rest) = noneCount rest := by
        simp [noneCount, List.filter_cons, ho]
      have hle2 : noneCount rest ≤ rem.length := hnc ▸ hle
      obtain ⟨ih1, ih2, ih3⟩ := ih rem hle2
      have hred : assignOrders (e :: rest) rem
          = (e :: (assignOrders rest rem).1, (assignOrders rest rem).2) := by
        cases rem with
        | nil => simp only [assignOrders, ho]
        | cons r rs => simp only [assignOrders, ho]
      rw [hred]
      refine ⟨by simp [ih1], by simp [ih2, hnc], ?_⟩
      simp only [List.filterMap_cons, ho, hnc]
      rw [List.cons_append]
      exact ih3.cons o

theorem length_filter_split {α : Type} (p : α → Bool) : ∀ l : List α,
    (l.filter p).length + (l.filter (fun a => !(p a))).length = l.length := by
  intro l
  induction l with
  | nil => rfl
  | cons a rest ih =>
    cases hp : p a <;> simp [List.filter_cons, hp] <;> omega

theorem mem_intRange (k : Nat) (o : Int) : o ∈ intRange k ↔ 1 ≤ o ∧ o ≤ (k : Int) := by
  unfold intRange
  rw [List.mem_map]
  constructor
  · rintro ⟨n, hn, rfl⟩
    rw [List.mem_range'_1] at hn
    simp only [Int.ofNat_eq_natCast]
    omega
  · rintro ⟨h1, h2⟩
    refine ⟨o.toNat, ?_, by simp only [Int.ofNat_eq_natCast]; omega⟩
    rw [List.mem_range'_1]
    omega

theorem intRange_nodup (k : Nat) : (intRange k).Nodup := by
  unfold intRange
  exact List.Nodup.map
    (fun a b hab => by simp only [Int.ofNat_eq_natCast] at hab; omega)
    (List.nodup_range' _ _)

theorem length_filter_notMem {k : Nat} {used : List Int} (hnd : used.Nodup)
    (hsub : ∀ o ∈ used, o ∈ intRange k) :
    ((intRange k).filter (fun o => o ∉ used)).length = k - used.length := by
  have hperm : ((intRange k).filter (fun o => decide (o ∈ used))).Perm used := by
    apply (List.perm_ext_iff_of_nodup (List.Nodup.filter _ (intRange_nodup k)) hnd).mpr
    intro a
    simp only [List.mem_filter, decide_eq_true_eq]
    exact ⟨fun h => h.2, fun h => ⟨hsub a h, h⟩⟩
  have hsplit := length_filter_split (fun o => decide (o ∈ used)) (intRange k)
  have hlen : (intRange k).length = k := by
    unfold intRange
    rw [List.length_map, List.length_range']
  have hmemlen : ((intRange k).filter (fun o => decide (o ∈ used))).length = used.length :=
    hperm.length_eq
  have hfe : ((intRange k).filter (fun o => o ∉ used))
      = ((intRange k).filter (fun o => !(decide (o ∈ used)))) := by
    apply List.filter_congr
    intro a _
    simp
  rw [hfe]
  omega

theorem padEntry_order (ds : List TeamEntry) (o : Int) : (padEntry ds o).order = some o := by
  unfold padEntry
  cases hd : defaultsByOrder ds o with
  | none => rfl
  | some d =>
    unfold defaultsByOrder at hd
    have h2 := List.find?_some hd
    simp only [decide_eq_true_eq] at h2
    exact h2

theorem filterMap_pad (ds : List TeamEntry) : ∀ l : List Int,
    (l.map (padEntry ds)).filterMap TeamEntry.order = l := by
  intro l
  induction l with
  | nil => rfl
  | cons o rest ih =>
    simp only [List.map_cons, List.filterMap_cons, padEntry_order, ih]

theorem insertByKey_perm (e : TeamEntry) : ∀ l, (insertByKey e l).Perm (e :: l) := by
  intro l
  induction l with
  | nil => exact List.Perm.refl _
  | cons x xs ih =>
    unfold insertByKey
    by_cases hk : sortKey x ≤ sortKey e
    · rw [if_pos hk]
      exact (ih.cons x).trans (List.Perm.swap e x xs)
    · rw [if_neg hk]

theorem sortTeamAux_perm : ∀ (rest acc : List TeamEntry),
    (sortTeamAux acc rest).Perm (acc ++ rest) := by
  intro rest
  induction rest with
  | nil => intro acc; simp [sortTeamAux]
  | cons e rs ih =>
    intro acc
    have h1 := ih (insertByKey e acc)
    have h2 : (insertByKey e acc ++ rs).Perm (acc ++ e :: rs) := by
      have h3 : (insertByKey e acc).Perm (e :: acc) := insertByKey_perm e acc
      exact (h3.append_right rs).trans (List.perm_middle.symm.trans (List.Perm.refl _))
    exact h1.trans h2

theorem sortTeam_perm (l : List TeamEntry) : (sortTeam l).Perm l := by
  have := sortTeamAux_perm l []
  simpa [sortTeam] using this

/-- C2: for every list of raw expert entries and every `K ≥ 1`, whenever
`_normalize_expert_team` (with the default panel from
`build_default_experts K`) returns normally, it returns exactly `K` entries
whose `order` fields are a permutation of `1..K` — no gap, no duplicate,
no out-of-range value. -/
theorem claim_C2 (raws : List Json) (k : Nat) (hk : 1 ≤ k) :
    match normalizeExpertTeam raws k (build_default_experts k) with
    | Except.ok team =>
        team.length = k ∧ (team.filterMap TeamEntry.order).Perm (intRange k)
    | Except.error _ => True := by
  cases hN : normPass1 k (raws.take k) 0 [] with
  | error u => simp [normalizeExpertTeam, hN]
  | ok pr =>
    obtain ⟨norm, used⟩ := pr
    obtain ⟨hlen1, hused, hnd', hb⟩ := normPass1_spec k (raws.take k) 0 [] norm used hN
    have hnd : used.Nodup := hnd' List.nodup_nil
    have husedlen : used.length = (norm.filterMap TeamEntry.order).length := by
      rw [hused]
      simp
    have hsub : ∀ o ∈ used, o ∈ intRange k := by
      intro o ho
      rcases hb o ho with h1 | h1
      · exact absurd h1 (List.not_mem_nil o)
      · exact (mem_intRange k o).mpr h1
    have hm : norm.length ≤ k := by
      rw [hlen1, List.length_take]
      exact Nat.min_le_left _ _
    have hrlen : ((intRange k).filter (fun o => o ∉ used)).length = k - used.length :=
      length_filter_notMem hnd hsub
    have hfml : (norm.filterMap TeamEntry.order).length ≤ norm.length :=
      List.length_filterMap_le _ _
    have hnc := noneCount_add_filterMap norm
    have hncle : noneCount norm ≤ ((intRange k).filter (fun o => o ∉ used)).length := by
      rw [hrlen]
      omega
    obtain ⟨ha1, ha2, ha3⟩ :=
      assignOrders_spec norm ((intRange k).filter (fun o => o ∉ used)) hncle
    have hndR : ((intRange k).filter (fun o => o ∉ used)).Nodup :=
      List.Nodup.filter _ (intRange_nodup k)
    have hdisj : List.Disjoint used ((intRange k).filter (fun o => o ∉ used)) := by
      intro a ha har
      have h2 := (List.mem_filter.mp har).2
      simp only [decide_eq_true_eq] at h2
      exact h2 ha
    have hpadlen :
        ((assignOrders norm ((intRange k).filter (fun o => o ∉ used))).1
          ++ ((assignOrders norm ((intRange k).filter (fun o => o ∉ used))).2.map
              (padEntry (build_default_experts k)))).length = k := by
      rw [List.length_append, ha1, List.length_map, ha2, List.length_drop, hrlen]
      omega
    have htake :
        ((assignOrders norm ((intRange k).filter (fun o => o ∉ used))).1
          ++ ((assignOrders norm ((intRange k).filter (fun o => o ∉ used))).2.map
              (padEntry (build_default_experts k)))).take k
        = ((assignOrders norm ((intRange k).filter (fun o => o ∉ used))).1
          ++ ((assignOrders norm ((intRange k).filter (fun o => o ∉ used))).2.map
              (padEntry (build_default_experts k)))) :=
      List.take_of_length_le (le_of_eq hpadlen)
    have hpermPad :
        (((assignOrders norm ((intRange k).filter (fun o => o ∉ used))).1
          ++ ((assignOrders norm ((intRange k).filter (fun o => o ∉ used))).2.map
              (padEntry (build_default_experts k)))).filterMap TeamEntry.order).Perm
          (used ++ (intRange k).filter (fun o => o ∉ used)) := by
      rw [List.filterMap_append, filterMap_pad, ha2]
      refine (ha3.append_right _).trans ?_
      rw [List.append_assoc, List.take_append_drop]
      apply List.Perm.append_right
      rw [hused, List.append_nil]
      exact (List.reverse_perm _).symm
    have hpermR : (used ++ (intRange k).filter (fun o => o ∉ used)).Perm (intRange k) := by
      apply (List.perm_ext_iff_of_nodup (List.Nodup.append hnd hndR hdisj)
        (intRange_nodup k)).mpr
      intro a
      simp only [List.mem_append, List.mem_filter, decide_eq_true_eq]
      constructor
      · rintro (h | h)
        · exact hsub a h
        · exact h.1
      · intro h
        by_cases hu : a ∈ used
        · exact Or.inl hu
        · exact Or.inr ⟨h, hu⟩
    simp only [normalizeExpertTeam, hN]
    rw [htake]
    constructor
    · rw [(sortTeam_perm _).length_eq]
      exact hpadlen
    · exact ((sortTeam_perm _).filterMap TeamEntry.order).trans (hpermPad.trans hpermR)

/-- The K=6 example of the claim: orders `[3, 3, null, 7, 1, null]`. -/
def rawsEx : List Json :=
  [ Json.obj (JsonMembers.ofList [("name".toList, Json.str ("E1".toList)),
      ("order".toList, Json.num 3)]),
    Json.obj (JsonMembers.ofList [("name".toList, Json.str ("E2".toList)),
      ("order".toList, Json.num 3)]),
    Json.obj (JsonMembers.ofList [("name".toList, Json.str ("E3".toList)),
      ("order".toList, Json.null)]),
    Json.obj (JsonMembers.ofList [("name".toList, Json.str ("E4".toList)),
      ("order".toList, Json.num 7)]),
    Json.obj (JsonMembers.ofList [("name".toList, Json.str ("E5".toList)),
      ("order".toList, Json.num 1)]),
    Json.obj (JsonMembers.ofList [("name".toList, Json.str ("E6".toList))]) ]

/-- Order fields of a normalization result (for concrete evaluation). -/
def teamOrders (r : Except Unit (List TeamEntry)) : List Int :=
  match r with
  | Except.ok team => team.filterMap TeamEntry.order
  | Except.error _ => []

/-- Name fields of a normalization result (for concrete evaluation). -/
def teamNames (r : Except Unit (List TeamEntry)) : List Json :=
  match r with
  | Except.ok team => team.map TeamEntry.name
  | Except.error _ => []

/-- Witness for C2 at the claim's own example: K=6, raw orders
`[3, 3, null, 7, 1, null]`; the duplicate 3 and out-of-range 7 are resolved
to the free slots in encounter order, giving sorted orders `[1..6]` with the
panel order E5, E2, E1, E3, E4, E6. -/
theorem claim_C2_witness :
    1 ≤ 6 ∧
    (match normalizeExpertTeam rawsEx 6 (build_default_experts 6) with
     | Except.ok team =>
         team.length = 6 ∧ (team.filterMap TeamEntry.order).Perm (intRange 6)
     | Except.error _ => True) ∧
    teamOrders (normalizeExpertTeam rawsEx 6 (build_default_experts 6))
      = [1, 2, 3, 4, 5, 6] ∧
    teamNames (normalizeExpertTeam rawsEx 6 (build_default_experts 6))
      = [Json.str ("E5".toList), Json.str ("E2".toList), Json.str ("E1".toList),
         Json.str ("E3".toList), Json.str ("E4".toList), Json.str ("E6".toList)] :=
  ⟨by decide, claim_C2 rawsEx 6 (by decide), by rfl, by rfl⟩

/-! ### Intent-draft normalization (claims C3, C5, C8)

Additional modelling conventions for this part:
* `str()` / f-string interpolation of a `json.loads` value is modelled by
  `Council.pyStr`; for lists and dicts this follows Python `repr` with the
  standard escapes (`\\`, quote, `\n`, `\r`, `\t`); escaping of other
  non-printable characters in `repr` is out of scope;
* the three concrete regular expressions used by the cited code
  (`(?:about|on|regarding)\s+([^.\n;]+)`,
  `audience(?:\s+will\s+be|\s+is|:)\s*([^.\n;]+)`, `for\s+([^.\n;]+)`, and
  `\b(\d{1,2})\b`) are implemented directly with their leftmost-match,
  ordered-alternation and greedy/backtracking semantics;
* Python float comparisons of length/overlap ratios against the literals
  0.7, 0.78, 0.8, 0.9, 1.3, 1.4 are modelled as exact rational comparisons
  (by integer cross-multiplication); the sub-ulp discrepancies of binary
  floating point are out of scope. -/

/-- Python `str.strip(chars)` for an explicit character set. -/
def pyStripChars (chars : List Char) (cs : Str) : Str :=
  ((cs.dropWhile (fun c => c ∈ chars)).reverse.dropWhile (fun c => c ∈ chars)).reverse

/-- Python `str.rstrip(chars)`. -/
def pyRstripChars (chars : List Char) (cs : Str) : Str :=
  (cs.reverse.dropWhile (fun c => c ∈ chars)).reverse

/-- Python `str.split()` (split on whitespace runs, dropping empties). -/
def pySplitWsAux : Nat → Str → List Str
  | 0, _ => []
  | fuel+1, s =>
    let s1 := s.dropWhile (fun c => isPyWs c)
    match s1.takeWhile (fun c => !(isPyWs c)) with
    | [] => []
    | t => t :: pySplitWsAux fuel (s1.drop t.length)

def pySplitWs (s : Str) : List Str := pySplitWsAux (s.length + 1) s

/-- `re.sub(r"\s+", " ", s)`: collapse every whitespace run to one space. -/
def collapseWsAux : Nat → Str → Str
  | 0, _ => []
  | _, [] => []
  | fuel+1, c :: rest =>
    if isPyWs c then ' ' :: collapseWsAux fuel (rest.dropWhile (fun c2 => isPyWs c2))
    else c :: collapseWsAux fuel rest

def collapseWs (s : Str) : Str := collapseWsAux (s.length + 1) s

/-- `re.findall(r"[A-Za-z0-9]+", s)`: maximal alphanumeric runs. -/
def isAsciiAlnum (c : Char) : Bool :=
  ('a' ≤ c && c ≤ 'z') || ('A' ≤ c && c ≤ 'Z') || ('0' ≤ c && c ≤ '9')

def alnumRunsAux : Nat → Str → List Str
  | 0, _ => []
  | fuel+1, s =>
    let s1 := s.dropWhile (fun c => !(isAsciiAlnum c))
    match s1.takeWhile (fun c => isAsciiAlnum c) with
    | [] => []
    | t => t :: alnumRunsAux fuel (s1.drop t.length)

def alnumRuns (s : Str) : List Str := alnumRunsAux (s.length + 1) s

/-- First-occurrence deduplication (Python `set` built by iteration, viewed
as a list; only membership and cardinality are ever used). -/
def dedupFirst (l : List Str) : List Str :=
  l.foldl (fun acc t => if t ∈ acc then acc else acc ++ [t]) []

/-- Python `repr` of a string: quote choice and the standard escapes. -/
def pyReprStr (s : Str) : Str :=
  let useDouble := ('\x27' ∈ s) && !('"' ∈ s)
  let q : Char := if useDouble then '"' else '\x27'
  let body := s.flatMap (fun c =>
    if c = '\\' then ['\\', '\\']
    else if c = q then ['\\', q]
    else if c = '\n' then ['\\', 'n']
    else if c = '\r' then ['\\', 'r']
    else if c = '\t' then ['\\', 't']
    else [c])
  q :: (body ++ [q])

mutual

/-- Python `repr` of a `json.loads` value (nested positions of `str()`). -/
def pyRepr : Json → Str
  | Json.null => "None".toList
  | Json.bool b => if b then "True".toList else "False".toList
  | Json.num n => intRepr n
  | Json.str s => pyReprStr s
  | Json.arr xs => '[' :: (pyReprItems xs ++ [']'])
  | Json.obj kvs => '\x7b' :: (pyReprMembers kvs ++ ['\x7d'])

def pyReprItems : JsonList → Str
  | JsonList.nil => []
  | JsonList.cons x JsonList.nil => pyRepr x
  | JsonList.cons x xs => pyRepr x ++ (',' :: ' ' :: pyReprItems xs)

def pyReprMembers : JsonMembers → Str
  | JsonMembers.nil => []
  | JsonMembers.cons k v JsonMembers.nil => pyReprStr k ++ (':' :: ' ' :: pyRepr v)
  | JsonMembers.cons k v kvs => pyReprStr k ++ (':' :: ' ' :: (pyRepr v ++ (',' :: ' ' :: pyReprMembers kvs)))

end

/-- Python `str()` of a `json.loads` value. -/
def pyStr : Json → Str
  | Json.null => "None".toList
  | Json.bool b => if b then "True".toList else "False".toList
  | Json.num n => intRepr n
  | Json.str s => s
  | Json.arr xs => '[' :: (pyReprItems xs ++ [']'])
  | Json.obj kvs => '\x7b' :: (pyReprMembers kvs ++ ['\x7d'])

/-- Model of `_normalize_text` (`council.py` lines 499-504) on a string
(non-strings are handled at the call sites). -/
def normalizeText (s : Str) : Str :=
  pyStrip (collapseWs ((lowerStr s).map (fun c =>
    if ('a' ≤ c && c ≤ 'z') || ('0' ≤ c && c ≤ '9') || isPyWs c then c else ' ')))

/-- Model of `_token_set` (`council.py` lines 507-511). -/
def tokenSet (s : Str) : List Str :=
  dedupFirst ((pySplitWs (normalizeText s)).filter (fun t => decide (2 < t.length)))

/-- Model of `_is_verbatim_like` (`council.py` lines 534-544).  The float
ratio comparisons are modelled exactly by integer cross-multiplication. -/
def isVerbatimLike (text reference : Str) : Bool :=
  if text = [] || reference = [] then false
  else
    let nt := normalizeText text
    let nr := normalizeText reference
    if nt = [] || nr = [] then false
    else
      let la := nt.length
      let lb := max nr.length 1
      if strContains nr nt || strContains nt nr then
        decide (7 * lb ≤ 10 * la) && decide (10 * la ≤ 13 * lb)
      else
        let A := tokenSet text
        let B := tokenSet reference
        let inter := (A.filter (fun t => t ∈ B)).length
        let uni := A.length + (B.filter (fun t => !(t ∈ A))).length
        !(decide (A = [])) && !(decide (B = [])) &&
          decide (9 * uni ≤ 10 * inter) &&
          decide (8 * lb ≤ 10 * la) && decide (10 * la ≤ 14 * lb)

/-- `_is_verbatim_like` applied to an arbitrary `json.loads` value: for every
non-string, `_normalize_text` yields `""` and the function returns `False`. -/
def jsonVerbatimLike (j : Json) (reference : Str) : Bool :=
  match j with
  | Json.str s => isVerbatimLike s reference
  | _ => false

/-- Character class `[^.\n;]` of the extraction regexes. -/
def isGroupChar (c : Char) : Bool := !(c = '.' || c = '\n' || c = ';')

/-- Match `\s{minWs,}([^.\n;]+)` at the start of `t` and return the group,
following the regex engine: the whitespace run is consumed greedily, then
given back one character at a time (whitespace other than `\n` is itself in
`[^.\n;]`) until the group is nonempty. -/
def groupAfterWs (minWs : Nat) (t : Str) : Option Str :=
  let w := t.takeWhile (fun c => isPyWs c)
  if w.length < minWs then none
  else
    match (t.drop w.length).takeWhile (fun c => isGroupChar c) with
    | c :: g => some (c :: g)
    | [] =>
      match ((List.range w.length).filter (fun i =>
          decide (minWs ≤ i) && !(decide (w[i]? = some '\n')))).getLast? with
      | some i => some ((t.drop i).takeWhile (fun c => isGroupChar c))
      | none => none

/-- `(?:about|on|regarding)\s+([^.\n;]+)` at one position (`re.IGNORECASE`);
the alternatives start with distinct letters, so ordered alternation is an
if-chain. -/
def matchTopicAt (s : Str) (i : Nat) : Option Str :=
  let t := s.drop i
  if hasLowerPrefix t ("about".toList) then groupAfterWs 1 (t.drop 5)
  else if hasLowerPrefix t ("on".toList) then groupAfterWs 1 (t.drop 2)
  else if hasLowerPrefix t ("regarding".toList) then groupAfterWs 1 (t.drop 9)
  else none

/-- `\s+literal` (case-insensitive literal), returning the rest. -/
def wsThenCi (pat : Str) (r : Str) : Option Str :=
  let w := r.takeWhile (fun c => isPyWs c)
  if w = [] then none
  else if hasLowerPrefix (r.drop w.length) pat then
    some ((r.drop w.length).drop pat.length)
  else none

/-- The `\s+is` and `:` alternatives of the audience pattern. -/
def altAudience2 (r : Str) : Option Str :=
  match wsThenCi ("is".toList) r with
  | some r2 => groupAfterWs 0 r2
  | none =>
    match r with
    | ':' :: r2 => groupAfterWs 0 r2
    | _ => none

/-- `audience(?:\s+will\s+be|\s+is|:)\s*([^.\n;]+)` at one position. -/
def matchAudienceAt (s : Str) (i : Nat) : Option Str :=
  let t := s.drop i
  if hasLowerPrefix t ("audience".toList) then
    let r := t.drop 8
    match wsThenCi ("will".toList) r with
    | some r1 =>
      (match wsThenCi ("be".toList) r1 with
       | some r2 => groupAfterWs 0 r2
       | none => altAudience2 r)
    | none => altAudience2 r
  else none

/-- `for\s+([^.\n;]+)` at one position. -/
def matchForAt (s : Str) (i : Nat) : Option Str :=
  let t := s.drop i
  if hasLowerPrefix t ("for".toList) then groupAfterWs 1 (t.drop 3) else none

/-- `re.search`: the match at the leftmost matching position. -/
def searchGroup (matchAt : Str → Nat → Option Str) (s : Str) : Option Str :=
  match (List.range (s.length + 1)).find? (fun i => (matchAt s i).isSome) with
  | some i => matchAt s i
  | none => none

/-- The cleanup `_extract_first_match` applies to a matched group:
`re.sub(r"\s+", " ", group).strip(" .;:\n")`. -/
def cleanGroup (g : Str) : Str :=
  pyStripChars [' ', '.', ';', ':', '\n'] (collapseWs g)

/-- `_extract_first_match` with the topic pattern list. -/
def extractTopic (s : Str) : Str :=
  match searchGroup matchTopicAt s with
  | some g => cleanGroup g
  | none => []

/-- `_extract_first_match` with the audience pattern list (two patterns,
tried in order over the whole string). -/
def extractAudience (s : Str) : Str :=
  match searchGroup matchAudienceAt s with
  | some g => cleanGroup g
  | none =>
    match searchGroup matchForAt s with
    | some g => cleanGroup g
    | none => []

/-- Word characters for `\b` (ASCII fragment of `\w`). -/
def isWordChar (c : Char) : Bool := isAsciiAlnum c || c = '_'

/-- `\b(\d{1,2})\b` at one position, with the greedy/backtracking semantics
of the bounded repetition. -/
def seriesDigitsAt (s : Str) (i : Nat) : Option Nat :=
  let bLeft := decide (i = 0) ||
    (match s[i-1]? with
     | some c => !(isWordChar c)
     | none => true)
  if !bLeft then none
  else
    match s[i]? with
    | some c0 =>
      if c0.isDigit then
        match s[i+1]? with
        | some c1 =>
          if c1.isDigit then
            match s[i+2]? with
            | some c2 =>
              if isWordChar c2 then none
              else some ((c0.toNat - '0'.toNat) * 10 + (c1.toNat - '0'.toNat))
            | none => some ((c0.toNat - '0'.toNat) * 10 + (c1.toNat - '0'.toNat))
          else if isWordChar c1 then none
          else some (c0.toNat - '0'.toNat)
        | none => some (c0.toNat - '0'.toNat)
      else none
    | none => none

/-- Model of `_infer_series_count` (`council.py` lines 640-645). -/
def inferSeriesCount (s : Str) : Str :=
  match (List.range s.length).find? (fun i =>
      match seriesDigitsAt s i with
      | some v => decide (1 ≤ v) && decide (v ≤ 50)
      | none => false) with
  | some i =>
    (match seriesDigitsAt s i with
     | some v => natRepr v
     | none => [])
  | none => []

/-- Model of `_infer_deliverable` (`council.py` lines 648-664). -/
def inferDeliverable (q : Str) : Str :=
  let lowered := lowerStr q
  if strContains lowered ("synopsis".toList) || strContains lowered ("synopsys".toList) then
    "a detailed synopsis".toList
  else if strContains lowered ("summary".toList) then "a clear summary".toList
  else if strContains lowered ("outline".toList) then "a structured outline".toList
  else if strContains lowered ("plan".toList) then "a structured plan".toList
  else if strContains lowered ("table".toList) then "a comparative table".toList
  else if strContains lowered ("draft".toList) then "a draft document".toList
  else if strContains lowered ("list".toList) then "a curated list".toList
  else "a structured response".toList

/-- The key/value mapping of `_infer_quality_signals`. -/
def qualityMapping : List (Str × Str) :=
  [ ("detailed".toList, "detailed and substantive".toList),
    ("deep".toList, "deep and thorough".toList),
    ("non-obvious".toList, "non-obvious and differentiated".toList),
    ("not obvious".toList, "non-obvious and differentiated".toList),
    ("professional".toList, "professional and polished".toList),
    ("accessible".toList, "accessible and clear".toList),
    ("grounded".toList, "grounded in real-world context".toList),
    ("inspiring".toList, "inspiring but credible".toList),
    ("useful".toList, "useful and actionable".toList),
    ("informative".toList, "informative and specific".toList) ]

/-- Model of `_infer_quality_signals` (`council.py` lines 667-685). -/
def inferQualitySignals (q : Str) : List Str :=
  let lowered := lowerStr q
  qualityMapping.foldl (fun signals kv =>
    if strContains lowered kv.1 && !(kv.2 ∈ signals) then signals ++ [kv.2]
    else signals) []

/-- Model of `_human_join` (`council.py` lines 488-496). -/
def humanJoin (items : List Json) : Str :=
  let strs := (items.map (fun it => pyStrip (pyStr it))).filter (fun s => s ≠ [])
  match strs with
  | [] => []
  | [a] => a
  | [a, b] => a ++ (" and ".toList) ++ b
  | _ => (List.intercalate (", ".toList) strs.dropLast) ++ (", and ".toList) ++ strs.getLastD []

/-- Model of `_ambiguity_heading_for` (`council.py` lines 688-702). -/
def ambiguityHeadingFor (item : Str) : Str :=
  let lowered := lowerStr item
  if ["scope".toList, "breadth".toList, "boundary".toList, "range".toList].any
      (fun t => strContains lowered t) then "#### Scope & Boundaries".toList
  else if ["depth".toList, "detail".toList, "level".toList, "granularity".toList].any
      (fun t => strContains lowered t) then "#### Depth & Detail".toList
  else if ["audience".toList, "reader".toList, "stakeholder".toList].any
      (fun t => strContains lowered t) then "#### Audience Fit".toList
  else if ["format".toList, "structure".toList, "outline".toList, "series".toList,
      "chapter".toList].any (fun t => strContains lowered t) then
    "#### Structure & Format".toList
  else if ["example".toList, "evidence".toList, "source".toList, "citation".toList,
      "grounding".toList].any (fun t => strContains lowered t) then
    "#### Evidence & Examples".toList
  else if ["tone".toList, "voice".toList, "style".toList].any
      (fun t => strContains lowered t) then "#### Voice & Tone".toList
  else "#### Clarification".toList

/-- Model of `_format_ambiguities_section` (`council.py` lines 705-720). -/
def formatAmbiguitiesSection (items : List Str) : Str :=
  let items2 := (items.filter (fun it => it ≠ [] && pyStrip it ≠ [])).map
    (fun it => pyRstripChars ['.'] (pyStrip it))
  if items2 = [] then []
  else
    let fin := (items2.take 3).foldl (fun (st : List Str × List Str) item =>
      let heading0 := ambiguityHeadingFor item
      let heading := if heading0 ∈ st.2 then "#### Additional Clarification".toList
        else heading0
      (st.1 ++ [heading,
        ("Clarify ".toList) ++ item ++
          (" so the output can be tuned for the right level of specificity and usefulness.".toList),
        []],
       st.2 ++ [heading])) ([], [])
    pyStrip (List.intercalate ['\n'] fin.1)

/-- The display payload built by `_build_display_from_query` and consumed by
the display-normalization code. -/
structure DisplayPayload where
  reconstructedAsk : Str
  deepRead : Str
  decisionFocus : Str
  understanding : List Str
  assumptions : List Str
  unclear : List Str
  deriving DecidableEq

/-- The constant `unclear_items` list of `_build_display_from_query`. -/
def displayUnclearItems : List Str :=
  [ "Preferred depth per item versus breadth across topics".toList,
    "Whether the output should read as publish-ready copy or a strategic outline".toList ]

/-- Model of `_build_display_from_query` (`council.py` lines 723-802). -/
def buildDisplayFromQuery (q : Str) : DisplayPayload :=
  let lowered := lowerStr q
  let audience := extractAudience q
  let topic := extractTopic q
  let count := inferSeriesCount q
  let deliverable := inferDeliverable q
  let qualitySignals := inferQualitySignals q
  let qualityText := if qualitySignals ≠ [] then List.intercalate (", ".toList) qualitySignals
    else "clear, high-value, and decision-ready".toList
  let platform := if strContains lowered ("substack".toList) || strContains lowered ("substak".toList)
    then "Substack".toList else []
  let yearMarker := if strContains lowered ("2026".toList) then "2026".toList else []
  let voiceHint := if strContains lowered ("product design leader".toList) then
    "from a product design leader\x27s perspective".toList else []
  let avoidGeneric := if strContains lowered ("not obvious".toList) ||
      strContains lowered ("non-obvious".toList) then
    "avoid generic or obvious points".toList else []
  let deliverablePhrase := if count ≠ [] && strContains lowered ("series".toList) then
    ("a ".toList) ++ count ++ ("-part series outline".toList)
    else deliverable
  let topicPhrase := if topic ≠ [] then topic else "the stated topic".toList
  let audiencePhrase := if audience ≠ [] then audience else "the intended audience".toList
  let platformPhrase := if platform ≠ [] then "designed for Substack publication".toList else []
  let timePhrase := if yearMarker ≠ [] then "grounded in 2026 business reality".toList else []
  let contextBits := [platformPhrase, timePhrase].filter (fun it => it ≠ [])
  let contextPhrase := if contextBits ≠ [] then List.intercalate (", ".toList) contextBits else []
  let voicePhrase := if voiceHint ≠ [] then ("written ".toList) ++ voiceHint else []
  let contextClauses := List.intercalate (", ".toList)
    ([contextPhrase, voicePhrase].filter (fun it => it ≠ []))
  let contextClause := if contextClauses ≠ [] then (", ".toList) ++ contextClauses else []
  let reconstructed :=
    ("Create ".toList) ++ deliverablePhrase ++ (" on ".toList) ++ topicPhrase ++
    (" tailored for ".toList) ++ audiencePhrase ++ (". It should be ".toList) ++ qualityText ++
    contextClause ++ (", reflecting the user\x27s stated priorities.".toList)
  let paragraphOne :=
    ("You want ".toList) ++ deliverablePhrase ++ (" that frames ".toList) ++ topicPhrase ++
    (" in a way that speaks directly to ".toList) ++ audiencePhrase ++
    (". Each item should feel like a distinct chapter in a coherent series, not a loose list of ideas".toList) ++
    contextPhrase ++
    (". The underlying aim is to surface what is changing, why it matters now, and how design leaders should respond.".toList)
  let paragraphTwo := pyStrip
    (("Success depends on being ".toList) ++ qualityText ++
     (". The output should read like it comes from an experienced leader, offering practical insight with a clear point of view".toList) ++
     (if voicePhrase ≠ [] then (", ".toList) ++ voicePhrase else []) ++
     (". It should balance inspiration with grounded execution guidance, so the reader can apply it immediately. ".toList) ++
     (if avoidGeneric ≠ [] then ("It should ".toList) ++ avoidGeneric ++ (".".toList) else []))
  let paragraphThree :=
    ("This request implies a senior audience that values rigor, clarity, and strategic relevance. ".toList) ++
    ("The content should connect product design decisions to real business constraints and emerging realities, ".toList) ++
    ("while avoiding superficial trends or speculative hype. ".toList) ++
    ("The most important calibration is the balance between strategic narrative and concrete, usable detail.".toList)
  let deepRead := List.intercalate ("\n\n".toList) [paragraphOne, paragraphTwo, paragraphThree]
  { reconstructedAsk := reconstructed,
    deepRead := deepRead,
    decisionFocus := formatAmbiguitiesSection displayUnclearItems,
    understanding :=
      [ ("Primary objective: deliver ".toList) ++ deliverablePhrase ++ (" on ".toList) ++
          topicPhrase ++ (".".toList),
        ("Audience focus: ".toList) ++ audiencePhrase ++ (".".toList),
        ("Quality bar: ".toList) ++ qualityText ++ (".".toList) ],
    assumptions :=
      [ "The user expects an output that can be used without major rewriting (why it matters: it drives structure and completeness).".toList,
        "The output should prioritize differentiated insights over generic coverage (why it matters: it changes depth and angle).".toList ],
    unclear := displayUnclearItems }

/-- A clarification question as built by the cited code: a dict with an `id`
(any JSON value), a question text, and an option list. -/
structure Question where
  qid : Json
  question : Str
  options : List Str
  deriving DecidableEq

/-- The literal sentinel option `"Other / I'll type it"`. -/
def sentinelOption : Str := "Other / I\x27ll type it".toList

/-- The lower-cased sentinel key used by the option dedup. -/
def sentinelLower : Str := "other / i\x27ll type it".toList

/-- Model of the `add_question` closure of `_build_fallback_questions`
(`council.py` lines 372-381): skip exact question-text duplicates, append the
sentinel when it is not literally present. -/
def addQuestion (qs : List Question) (qid : Str) (text : Str) (opts : List Str) :
    List Question :=
  if qs.any (fun qu => qu.question = text) then qs
  else qs ++ [{ qid := Json.str qid, question := text,
                options := (if sentinelOption ∈ opts then opts
                            else opts ++ [sentinelOption]) }]

/-- The `short_phrase` closure (`council.py` lines 358-360). -/
def shortPhrase (t : Str) : Str :=
  pyStrip (List.intercalate [' '] ((alnumRuns t).take 8))

/-- The four draft-derived values of `_build_fallback_questions`
(`council.py` lines 331-342); a non-dict draft contributes the defaults. -/
structure FbCtx where
  audience : Str
  deliverable : Json
  explicitConstraints : Json
  goalOutcome : Str

def fbCtxOf (draftOpt : Option Json) : FbCtx :=
  match draftOpt with
  | some (Json.obj ms) =>
    { audience := pyStrip (pyStr (pyOr (lookupField ms ("audience".toList)) (Json.str []))),
      deliverable := pyOr (lookupField ms ("deliverable".toList)) (Json.obj JsonMembers.nil),
      explicitConstraints := pyOr (lookupField ms ("explicit_constraints".toList))
        (Json.arr JsonList.nil),
      goalOutcome := pyStrip (pyStr (pyOr (lookupField ms ("goal_outcome".toList))
        (pyOr (lookupField ms ("primary_intent".toList)) (Json.str [])))) }
  | _ =>
    { audience := [], deliverable := Json.obj JsonMembers.nil,
      explicitConstraints := Json.arr JsonList.nil, goalOutcome := [] }

/-- `deliverable.get("format")` (`council.py` line 366): raises
`AttributeError` when the draft's deliverable is a truthy non-dict. -/
def fbFormatE (draftOpt : Option Json) : Except Unit Str :=
  match (fbCtxOf draftOpt).deliverable with
  | Json.obj ms =>
    Except.ok (pyStrip (pyStr (pyOr (lookupField ms ("format".toList)) (Json.str []))))
  | _ => Except.error ()

/-- Python iteration for the `any("avoid" in str(item).lower() ...)` test:
strings iterate per character, dicts per key, lists per element; truthy
numbers and booleans raise `TypeError`. -/
def jsonIterForAvoid (j : Json) : Except Unit (List Json) :=
  match j with
  | Json.str s => Except.ok (s.map (fun c => Json.str [c]))
  | Json.arr xs => Except.ok xs.toList
  | Json.obj ms => Except.ok ((firstKeys (ms.toList.map Prod.fst)).map Json.str)
  | _ => Except.error ()

/-- The q9 gate `wants_non_obvious or (explicit_constraints and any(...))`
(`council.py` line 474), with Python short-circuiting. -/
def fbQ9E (q : Str) (draftOpt : Option Json) : Except Unit Bool :=
  let lowered := lowerStr q
  let wantsNonObvious := strContains lowered ("not obvious".toList) ||
    strContains lowered ("non-obvious".toList)
  let ec := (fbCtxOf draftOpt).explicitConstraints
  if wantsNonObvious then Except.ok true
  else if !(ec.truthy) then Except.ok false
  else
    match jsonIterForAvoid ec with
    | Except.error e => Except.error e
    | Except.ok items =>
      Except.ok (items.any (fun it => strContains (lowerStr (pyStr it)) ("avoid".toList)))

/-- The nine candidate questions of `_build_fallback_questions`, each with its
gating flag, id, text, and constant option list, in program order. -/
def fbCands (hasSeries hasDepth hasAudience hasFormat hasSources hasSubstack hasLeadership
    q9cond : Bool) (topicLabel audienceHint deliverableHint : Str) :
    List (Bool × Str × Str × List Str) :=
  [ (hasSeries, ("q1".toList,
      ("How should the series on ".toList) ++ topicLabel ++ (" be structured for ".toList) ++
        audienceHint ++ ("?".toList),
      [ "A cohesive narrative arc across all parts".toList,
        "Standalone essays with a shared theme".toList,
        "Hybrid: arc + standalone value".toList ])),
    (true, ("q2".toList,
      ("What should this ".toList) ++ deliverableHint ++ (" enable ".toList) ++ audienceHint ++
        (" to do about ".toList) ++ topicLabel ++ ("?".toList),
      [ "Make strategic decisions".toList,
        "Adopt specific practices or frameworks".toList,
        "Align stakeholders around a direction".toList,
        "Train or upskill a team".toList ])),
    (!hasDepth, ("q3".toList,
      ("What depth is most useful for each ".toList) ++ deliverableHint ++ (" item?".toList),
      [ "Concise but substantive (2-4 paragraphs)".toList,
        "Detailed (5-8 paragraphs)".toList,
        "Deep-dive (full-length essay outline)".toList ])),
    (!hasAudience, ("q4".toList,
      "Who is the primary audience for this deliverable?".toList,
      [ "Senior product/design leaders".toList,
        "Product design practitioners".toList,
        "Cross-functional leadership teams".toList,
        "Founders/executives".toList ])),
    (!hasFormat, ("q5".toList,
      ("What structure should each ".toList) ++ deliverableHint ++ (" item follow?".toList),
      [ "Title + thesis + detailed synopsis".toList,
        "Problem → insight → implications".toList,
        "Framework + examples + actions".toList ])),
    (!hasSources, ("q6".toList,
      ("How should the guidance be grounded for ".toList) ++ audienceHint ++ ("?".toList),
      [ "Yes, include concrete examples and cases".toList,
        "Cite sources or evidence where claims are made".toList,
        "Prefer conceptual frameworks without examples".toList,
        "Mix: one example per item where relevant".toList ])),
    (hasSubstack, ("q7".toList,
      ("What voice should the ".toList) ++ deliverableHint ++ (" use?".toList),
      [ "Thought-leadership essays (Substack-style)".toList,
        "Strategic internal memo tone".toList,
        "Teaching-style playbook with clear takeaways".toList ])),
    (hasLeadership, ("q8".toList,
      "Which decision context matters most?".toList,
      [ "Strategic direction and prioritization".toList,
        "Org design and team capability".toList,
        "Product execution and delivery".toList,
        "Market positioning and differentiation".toList ])),
    (q9cond, ("q9".toList,
      ("What should be explicitly avoided in this ".toList) ++ deliverableHint ++ ("?".toList),
      [ "Generic AI hype or trend summaries".toList,
        "Overly technical or engineering-heavy detail".toList,
        "Speculative futurecasting without business grounding".toList ])) ]

/-- The question-list assembly of `_build_fallback_questions` once the two
fallible values are in hand. -/
def fbAssemble (q : Str) (draftOpt : Option Json) (deliverableFormat : Str) (q9cond : Bool) :
    List Question :=
  let lowered := lowerStr q
  let ctx := fbCtxOf draftOpt
  let hasSeries := strContains lowered ("series".toList) ||
    strContains lowered ("episode".toList)
  let hasAudience := ctx.audience ≠ [] || strContains lowered ("audience".toList)
  let hasFormat := ["outline".toList, "synopsis".toList, "summary".toList, "table".toList,
    "list".toList, "plan".toList, "draft".toList].any (fun t => strContains lowered t)
  let hasDepth := ["detailed".toList, "deep".toList, "comprehensive".toList, "brief".toList,
    "quick".toList].any (fun t => strContains lowered t)
  let hasSources := ["source".toList, "cite".toList, "citation".toList,
    "references".toList].any (fun t => strContains lowered t)
  let hasSubstack := strContains lowered ("substack".toList) ||
    strContains lowered ("substak".toList)
  let hasLeadership := ["leader".toList, "leadership".toList, "executive".toList,
    "director".toList, "vp".toList].any (fun t => strContains lowered t)
  let topicHint0 := extractTopic q
  let topicHint := if topicHint0 = [] then
      (let sp := shortPhrase ctx.goalOutcome
       if sp ≠ [] then sp else shortPhrase q)
    else topicHint0
  let audienceHint := if ctx.audience ≠ [] then ctx.audience
    else "the intended audience".toList
  let deliverableHint := if deliverableFormat ≠ [] then deliverableFormat else "output".toList
  let topicLabel := if topicHint ≠ [] then topicHint else "the topic".toList
  (((fbCands hasSeries hasDepth hasAudience hasFormat hasSources hasSubstack hasLeadership
      q9cond topicLabel audienceHint deliverableHint).filterMap
    (fun c => if c.1 then some c.2 else none)).foldl
      (fun qs c => addQuestion qs c.1 c.2.1 c.2.2) []).take 6

/-- Model of `_build_fallback_questions` (`council.py` lines 327-485). -/
def buildFallbackQuestions (q : Str) (draftOpt : Option Json) :
    Except Unit (List Question) :=
  match fbFormatE draftOpt with
  | Except.error e => Except.error e
  | Except.ok deliverableFormat =>
    match fbQ9E q draftOpt with
    | Except.error e => Except.error e
    | Except.ok q9cond => Except.ok (fbAssemble q draftOpt deliverableFormat q9cond)

/-- One step of the option-cleaning loop (`council.py` lines 863-873): state
is (cleaned options, seen lower-case keys). -/
def cleanOptionsStep (st : List Str × List Str) (option : Json) : List Str × List Str :=
  let optionText := pyStrip (pyStr option)
  if optionText = [] then st
  else
    let key := lowerStr optionText
    if key ∈ st.2 then st
    else (st.1 ++ [optionText], st.2 ++ [key])

/-- Option cleaning plus the conditional sentinel append (lines 863-875). -/
def cleanOptions (options : List Json) : List Str :=
  let st := options.foldl cleanOptionsStep ([], [])
  if sentinelLower ∈ st.2 then st.1 else st.1 ++ [sentinelOption]

/-- One iteration of the question-normalization loop (lines 855-880);
`none` models `continue` on non-dict items; `.strip()` on a truthy non-string
question raises. -/
def normalizeOneQuestion (idx : Nat) (item : Json) : Except Unit (Option Question) :=
  match item with
  | Json.obj ms =>
    let qidJ := pyOr (lookupField ms ("id".toList)) (Json.str ('q' :: natRepr idx))
    let qtextJ := pyOr (lookupField ms ("question".toList))
      (pyOr (lookupField ms ("prompt".toList)) (Json.str []))
    (match qtextJ with
     | Json.str s =>
       let options :=
         match pyOr (lookupField ms ("options".toList)) (Json.arr JsonList.nil) with
         | Json.arr xs => xs.toList
         | _ => []
       let text := if pyStrip s ≠ [] then pyStrip s
         else ("Clarification ".toList) ++ natRepr idx
       Except.ok (some { qid := qidJ, question := text,
                         options := (cleanOptions options).take 6 })
     | _ => Except.error ())
  | _ => Except.ok none

/-- The whole question-normalization loop (`enumerate(questions, start=1)`). -/
def normalizeRawQuestions : List Json → Nat → Except Unit (List Question)
  | [], _ => Except.ok []
  | item :: rest, idx =>
    match normalizeOneQuestion idx item with
    | Except.error e => Except.error e
    | Except.ok none => normalizeRawQuestions rest (idx+1)
    | Except.ok (some qu) =>
      match normalizeRawQuestions rest (idx+1) with
      | Except.error e => Except.error e
      | Except.ok qs => Except.ok (qu :: qs)

/-- The `context_bits`/`context_tokens` computation (lines 898-913). -/
def contextTokens (q : Str) (draft : Json) : List Str :=
  let bits : List Str :=
    (match draft with
     | Json.obj ms =>
       (if (lookupField ms ("audience".toList)).truthy then
          [pyStr (lookupField ms ("audience".toList))] else []) ++
       (match pyOr (lookupField ms ("deliverable".toList)) (Json.obj JsonMembers.nil) with
        | Json.obj dms =>
          (if (lookupField dms ("format".toList)).truthy then
             [pyStr (lookupField dms ("format".toList))] else []) ++
          (if (lookupField dms ("structure".toList)).truthy then
             [pyStr (lookupField dms ("structure".toList))] else [])
        | _ => []) ++
       (let goalHint := pyOr (lookupField ms ("goal_outcome".toList))
          (pyOr (lookupField ms ("primary_intent".toList)) (Json.str []))
        if goalHint.truthy then [pyStr goalHint] else [])
     | _ => [])
  let bits2 := bits ++ (let th := extractTopic q
                        if th ≠ [] then [th] else [])
  tokenSet (List.intercalate [' '] bits2)

/-- The `is_generic_question` closure (lines 884-895). -/
def isGenericQuestion (text : Str) : Bool :=
  let lowered := lowerStr text
  [ "any hard constraints".toList, "what format should i produce".toList,
    "who is the intended audience".toList, "how deep or rigorous".toList,
    "what should the result enable you to do".toList, "tell me more".toList,
    "anything else".toList ].any (fun p => strContains lowered p)

/-- The `question_score` closure (lines 915-930). -/
def questionScore (queryTokens ctxTokens : List Str) (text : Str) : Int :=
  let lowered := lowerStr text
  let lowSet := dedupFirst (pySplitWs lowered)
  let s1 : Int := if 8 ≤ (pySplitWs text).length then 2 else 0
  let s2 : Int := if queryTokens ≠ [] &&
      decide (2 ≤ (lowSet.filter (fun t => t ∈ queryTokens)).length) then 2 else 0
  let s3 : Int := if ctxTokens ≠ [] &&
      decide (2 ≤ (lowSet.filter (fun t => t ∈ ctxTokens)).length) then 2 else 0
  let s4 : Int := if ["series".toList, "audience".toList, "structure".toList, "depth".toList,
      "examples".toList, "voice".toList, "scope".toList].any
      (fun t => strContains lowered t) then 1 else 0
  let s5 : Int := if ["avoid".toList, "exclude".toList, "not".toList, "must".toList].any
      (fun t => strContains lowered t) then 1 else 0
  let s6 : Int := if isGenericQuestion text then -3 else 0
  s1 + s2 + s3 + s4 + s5 + s6

/-- Stable descending insertion (`sorted(..., reverse=True)` keeps the
original order of equal keys). -/
def insertQDesc (f : Question → Int) (e : Question) : List Question → List Question
  | [] => [e]
  | x :: xs => if f e ≤ f x then x :: insertQDesc f e xs else e :: x :: xs

def sortQDescAux (f : Question → Int) : List Question → List Question → List Question
  | acc, [] => acc
  | acc, e :: rest => sortQDescAux f (insertQDesc f e acc) rest

def sortQDesc (f : Question → Int) (l : List Question) : List Question :=
  sortQDescAux f [] l

/-- The backfill loop (lines 943-950): pad from the fallback questions up to
three entries, skipping case-insensitive text duplicates. -/
def backfillQuestions (fallbackQs current : List Question) : List Question :=
  fallbackQs.foldl (fun acc fb =>
    if 3 ≤ acc.length then acc
    else if (lowerStr fb.question) ∈ acc.map (fun qu => lowerStr qu.question) then acc
    else acc ++ [fb]) current

/-- The ranking / filtering / backfill / truncation tail of the question
pipeline (`council.py` lines 932-952). -/
def assembleQuestions (n0 fbqs : List Question) (score : Question → Int) : List Question :=
  let ranked := sortQDesc score n0
  let filtered0 := ranked.filter (fun qu => decide (2 ≤ score qu))
  let filtered := if filtered0.length < 2 then ranked.take 2 else filtered0
  let backfilled := if filtered.length < 3 then backfillQuestions fbqs filtered else filtered
  backfilled.take 6

/-- Model of the clarification-question pipeline of `_normalize_intent_draft`
(`council.py` lines 825-826 and 847-952): falsy `raw` takes the fallback
branch; a truthy non-dict `raw` raises at `raw.get`. -/
def normalizeQuestions (raw : Option Json) (q : Str) : Except Unit (List Question) :=
  let rawTruthy := match raw with
    | some r => r.truthy
    | none => false
  if !rawTruthy then buildFallbackQuestions q none
  else
    match raw with
    | some (Json.obj ms) =>
      let draft := pyOr (lookupField ms ("draft_intent".toList))
        (pyOr (lookupField ms ("draft".toList))
          (pyOr (lookupField ms ("intent_draft".toList)) (Json.obj JsonMembers.nil)))
      let questionsList :=
        match pyOr (lookupField ms ("questions".toList))
          (pyOr (lookupField ms ("clarification_questions".toList)) (Json.arr JsonList.nil)) with
        | Json.arr xs => xs.toList
        | _ => []
      (match normalizeRawQuestions questionsList 1 with
       | Except.error e => Except.error e
       | Except.ok normalized0 =>
         let draftOpt : Option Json :=
           match draft with
           | Json.obj dms => some (Json.obj dms)
           | _ => none
         match buildFallbackQuestions q draftOpt with
         | Except.error e => Except.error e
         | Except.ok fallbackQs =>
           Except.ok (assembleQuestions normalized0 fallbackQs
             (fun qu => questionScore (tokenSet q) (contextTokens q draft) qu.question)))
    | _ => Except.error ()

/-- Truthiness of `parsed` in `stage0_generate_intent_draft`. -/
def jsonTruthyOpt : Option Json → Bool
  | some j => j.truthy
  | none => false

/-- Model of the parse kernel of `stage0_generate_intent_draft`
(`council.py` lines 1398-1404): extract JSON from the intent content, try
the repair model only when there was content, and raise `RuntimeError` when
the result is still falsy. -/
def stage0IntentParse (content : Option Str) (repairResult : Option Json) :
    Except Unit Json :=
  let parsed := extract_json (content.getD [])
  let parsed2 := if !(jsonTruthyOpt parsed) && content.isSome then repairResult else parsed
  match parsed2 with
  | some j => if j.truthy then Except.ok j else Except.error ()
  | none => Except.error ()

/-- The deterministic draft built by the falsy-`raw` branch of
`_normalize_intent_draft` (`council.py` lines 825-845), which is exactly what
`build_intent_draft_fallback` returns. -/
structure FallbackIntentDraft where
  primaryIntent : Str
  taskType : Str
  delivFormat : Str
  delivDepth : Str
  delivTone : Str
  explicitConstraints : List Json
  latentHypotheses : List Json
  ambiguities : List Json
  assumptionsJ : List Json
  confidence : Str
  display : DisplayPayload
  questions : List Question
  deriving DecidableEq

/-- Model of `build_intent_draft_fallback` (`council.py` lines 1183-1184),
i.e. `_normalize_intent_draft(None, user_query)`. -/
def intentDraftFallbackResult (q : Str) : Except Unit FallbackIntentDraft :=
  match buildFallbackQuestions q none with
  | Except.error e => Except.error e
  | Except.ok fq =>
    Except.ok { primaryIntent := q, taskType := "explanation".toList,
                delivFormat := "bullet summary".toList, delivDepth := "standard".toList,
                delivTone := "neutral".toList,
                explicitConstraints := [], latentHypotheses := [], ambiguities := [],
                assumptionsJ := [], confidence := "low".toList,
                display := buildDisplayFromQuery q, questions := fq }

/-- Model of `_format_deliverable_phrase` (`council.py` lines 547-558) on the
two deliverable fields it reads. -/
def formatDeliverablePhrase (fmtJ depthJ : Json) : Str :=
  let depth := pyStrip (pyStr (pyOr depthJ (Json.str [])))
  let fmt := pyStrip (pyStr (pyOr fmtJ (Json.str [])))
  if depth ≠ [] && fmt ≠ [] then ("a ".toList) ++ depth ++ (" ".toList) ++ fmt
  else if fmt ≠ [] then ("a ".toList) ++ fmt
  else if depth ≠ [] then ("a ".toList) ++ depth ++ (" response".toList)
  else "a response".toList

/-- The understanding rebuild of `_normalize_intent_draft`
(`council.py` lines 1098-1113), on the normalized draft-intent fields. -/
def coreRebuildItems (q : Str) (primaryIntent audienceJ delivFormatJ delivDepthJ : Json)
    (successCriteria explicitConstraints : List Json) : List Str :=
  let coreAsk := pyOr primaryIntent (Json.str [])
  let coreAskStr := if jsonVerbatimLike coreAsk q || !(coreAsk.truthy) then
      "Deliver a response that achieves the user\x27s stated objective.".toList
    else pyStr coreAsk
  let items1 := [("Core ask: ".toList) ++ coreAskStr]
  let items2 := items1 ++ (if audienceJ.truthy then
      [("Audience focus: ".toList) ++ pyStr audienceJ ++ (".".toList)] else [])
  let items3 := items2 ++ (if delivFormatJ.truthy || delivDepthJ.truthy then
      [("Deliverable: ".toList) ++ formatDeliverablePhrase delivFormatJ delivDepthJ ++
        (".".toList)] else [])
  let items4 := items3 ++ (if successCriteria ≠ [] then
      [("Success criteria: ".toList) ++ humanJoin successCriteria ++ (".".toList)] else [])
  let items5 := items4 ++ (if explicitConstraints ≠ [] then
      [("Constraints to honor: ".toList) ++ humanJoin explicitConstraints ++ (".".toList)]
    else [])
  if items5.length < 3 then
    items5 ++ ["The output should feel decision-ready and non-obvious, not generic.".toList]
  else items5

/-- The understanding display normalization of `_normalize_intent_draft`
(`council.py` lines 1030, 1071, 1098-1113, 1137-1143): strip and drop empty
raw items, discard near-verbatim items, rebuild from the Core-ask template
when nothing survives, reset when everything left is near-verbatim, and fall
back to the query-built display. -/
def undSurvivors (q : Str) (rawUnd : List Json) : List Str :=
  ((rawUnd.map (fun it => pyStrip (pyStr it))).filter (fun s => s ≠ [])).filter
    (fun item => !(isVerbatimLike item q))

def normalizeUnderstandingItems (q : Str) (rawUnd : List Json)
    (primaryIntent audienceJ delivFormatJ delivDepthJ : Json)
    (successCriteria explicitConstraints : List Json) : List Str :=
  let und0 := undSurvivors q rawUnd
  let und1 := if und0 = [] then
      coreRebuildItems q primaryIntent audienceJ delivFormatJ delivDepthJ
        successCriteria explicitConstraints
    else und0
  let und2 := if und1 ≠ [] && und1.all (fun item => isVerbatimLike item q) then [] else und1
  if und2 = [] then (buildDisplayFromQuery q).understanding else und2

theorem fbQ9E_none_ok (q : Str) : ∃ b, fbQ9E q none = Except.ok b := by
  unfold fbQ9E
  dsimp only
  by_cases hw : (strContains (lowerStr q) ("not obvious".toList) ||
      strContains (lowerStr q) ("non-obvious".toList)) = true
  · rw [if_pos hw]
    exact ⟨true, rfl⟩
  · rw [if_neg hw]
    exact ⟨false, rfl⟩

theorem buildFallbackQuestions_none_ok (q : Str) :
    ∃ qs, buildFallbackQuestions q none = Except.ok qs := by
  obtain ⟨b, hb⟩ := fbQ9E_none_ok q
  refine ⟨fbAssemble q none [] b, ?_⟩
  unfold buildFallbackQuestions
  rw [show fbFormatE none = Except.ok [] from rfl, hb]

/-- C5 counterexample: when no model/repair path yields a (truthy) parse, the
intent-draft stage raises `RuntimeError` instead of falling back — here with
content `"hello"` (unparseable) and a failed repair. -/
theorem claim_C5_counterexample :
    extract_json ("hello".toList) = none ∧
    stage0IntentParse (some ("hello".toList)) none = Except.error () := by
  constructor
  · rfl
  · rfl

/-- C5 (amended): when every parse path fails — the extracted JSON is falsy
and the repair result is falsy — `stage0_generate_intent_draft` raises
(`Except.error`); the deterministic fallback builder
`build_intent_draft_fallback` (which the stage never invokes) does return the
advertised draft: primary intent is the verbatim user text, task type
`explanation`, deliverable defaults `bullet summary`/`standard`/`neutral`,
confidence `low`, the query-built display and the deterministic fallback
questions. -/
theorem claim_C5 :
    (∀ (content : Option Str) (repairResult : Option Json),
      jsonTruthyOpt (extract_json (content.getD [])) = false →
      jsonTruthyOpt repairResult = false →
      stage0IntentParse content repairResult = Except.error ()) ∧
    (∀ q : Str,
      match intentDraftFallbackResult q with
      | Except.ok fb =>
          fb.primaryIntent = q ∧ fb.taskType = "explanation".toList ∧
          fb.delivFormat = "bullet summary".toList ∧ fb.delivDepth = "standard".toList ∧
          fb.delivTone = "neutral".toList ∧ fb.confidence = "low".toList ∧
          fb.display = buildDisplayFromQuery q ∧
          buildFallbackQuestions q none = Except.ok fb.questions
      | Except.error _ => False) := by
  constructor
  · intro content repairResult h1 h2
    unfold stage0IntentParse
    dsimp only
    rw [h1]
    cases hcs : content.isSome with
    | true =>
      simp only [Bool.not_false, Bool.and_self, if_true]
      cases hr : repairResult with
      | none => rfl
      | some j =>
        have hj : j.truthy = false := by
          rw [hr] at h2
          exact h2
        simp [hj]
    | false =>
      simp only [Bool.not_false, Bool.and_false, if_false]
      cases hp : extract_json (content.getD []) with
      | none => rfl
      | some j =>
        have hj : j.truthy = false := by
          rw [hp] at h1
          exact h1
        simp [hj]
  · intro q
    cases hb : buildFallbackQuestions q none with
    | error e =>
      obtain ⟨qs, hqs⟩ := buildFallbackQuestions_none_ok q
      rw [hb] at hqs
      exact absurd hqs (by simp)
    | ok fq =>
      have hres : intentDraftFallbackResult q
          = Except.ok (⟨q, "explanation".toList, "bullet summary".toList, "standard".toList,
              "neutral".toList, [], [], [], [], "low".toList, buildDisplayFromQuery q, fq⟩ :
              FallbackIntentDraft) := by
        unfold intentDraftFallbackResult
        rw [hb]
      rw [hres]
      exact ⟨rfl, rfl, rfl, rfl, rfl, rfl, rfl, rfl⟩

/-- Witness for C5: concrete unparseable content and failed repair make the
stage error out, and the fallback shape holds at the query `"dog"`. -/
theorem claim_C5_witness :
    stage0IntentParse (some ("hello".toList)) none = Except.error () ∧
    (match intentDraftFallbackResult ("dog".toList) with
     | Except.ok fb =>
         fb.primaryIntent = "dog".toList ∧ fb.taskType = "explanation".toList ∧
         fb.delivFormat = "bullet summary".toList ∧ fb.delivDepth = "standard".toList ∧
         fb.delivTone = "neutral".toList ∧ fb.confidence = "low".toList ∧
         fb.display = buildDisplayFromQuery ("dog".toList) ∧
         buildFallbackQuestions ("dog".toList) none = Except.ok fb.questions
     | Except.error _ => False) :=
  ⟨claim_C5.1 (some ("hello".toList)) none (by rfl) (by rfl),
   claim_C5.2 ("dog".toList)⟩

theorem coreRebuildItems_ne_nil (q : Str) (primaryIntent audienceJ delivFormatJ delivDepthJ : Json)
    (successCriteria explicitConstraints : List Json) :
    coreRebuildItems q primaryIntent audienceJ delivFormatJ delivDepthJ
      successCriteria explicitConstraints ≠ [] := by
  unfold coreRebuildItems
  dsimp only
  split_ifs <;> simp

/-- C8 (amended): near-verbatim items are indeed discarded from the
model-provided understanding list, but the guarantee stops there.  When
nothing survives, the list is rebuilt from the `Core ask:` template — kept
verbatim-`primary_intent` and all — and only dropped wholesale when *every*
rebuilt item is near-verbatim, in which case the query-built display
understanding is used without any re-check.  So the final understanding is
exactly: the surviving items, else the rebuilt template items (which may
include a near-verbatim `Core ask:` line), else the query-built fallback. -/
theorem claim_C8 (q : Str) (rawUnd : List Json)
    (primaryIntent audienceJ delivFormatJ delivDepthJ : Json)
    (successCriteria explicitConstraints : List Json) :
    (∀ item ∈ undSurvivors q rawUnd, isVerbatimLike item q = false) ∧
    (undSurvivors q rawUnd ≠ [] →
      normalizeUnderstandingItems q rawUnd primaryIntent audienceJ delivFormatJ
        delivDepthJ successCriteria explicitConstraints = undSurvivors q rawUnd) ∧
    (undSurvivors q rawUnd = [] →
      (coreRebuildItems q primaryIntent audienceJ delivFormatJ delivDepthJ
        successCriteria explicitConstraints).all (fun item => isVerbatimLike item q) = true →
      normalizeUnderstandingItems q rawUnd primaryIntent audienceJ delivFormatJ
        delivDepthJ successCriteria explicitConstraints
        = (buildDisplayFromQuery q).understanding) ∧
    (undSurvivors q rawUnd = [] →
      (coreRebuildItems q primaryIntent audienceJ delivFormatJ delivDepthJ
        successCriteria explicitConstraints).all (fun item => isVerbatimLike item q) = false →
      normalizeUnderstandingItems q rawUnd primaryIntent audienceJ delivFormatJ
        delivDepthJ successCriteria explicitConstraints
        = coreRebuildItems q primaryIntent audienceJ delivFormatJ delivDepthJ
            successCriteria explicitConstraints) := by
  have hmem : ∀ item ∈ undSurvivors q rawUnd, isVerbatimLike item q = false := by
    intro item hi
    have h2 := (List.mem_filter.mp hi).2
    simp only [Bool.not_eq_true'] at h2
    exact h2
  refine ⟨hmem, ?_, ?_, ?_⟩
  · intro hne
    have hall : (undSurvivors q rawUnd).all (fun item => isVerbatimLike item q) = false := by
      cases hu : undSurvivors q rawUnd with
      | nil => exact absurd hu hne
      | cons h t =>
        have hh : isVerbatimLike h q = false := hmem h (hu ▸ List.mem_cons_self h t)
        simp [List.all_cons, hh]
    unfold normalizeUnderstandingItems
    dsimp only
    rw [if_neg hne, hall]
    simp only [Bool.and_false]
    rw [if_neg (show ¬(false = true) by simp)]
    rw [if_neg hne]
  · intro h0 hall
    unfold normalizeUnderstandingItems
    dsimp only
    rw [if_pos h0, hall]
    have hne := coreRebuildItems_ne_nil q primaryIntent audienceJ delivFormatJ delivDepthJ
      successCriteria explicitConstraints
    have hd : decide (coreRebuildItems q primaryIntent audienceJ delivFormatJ delivDepthJ
        successCriteria explicitConstraints ≠ []) = true := by
      simp [hne]
    rw [hd]
    simp only [Bool.and_true]
    simp
  · intro h0 hall
    unfold normalizeUnderstandingItems
    dsimp only
    rw [if_pos h0, hall]
    have hne := coreRebuildItems_ne_nil q primaryIntent audienceJ delivFormatJ delivDepthJ
      successCriteria explicitConstraints
    simp only [Bool.and_false]
    rw [if_neg (show ¬(false = true) by simp)]
    rw [if_neg hne]

/-- The C8 counterexample query and its draft primary intent. -/
def qC8 : Str := "core ask deliver a dog report".toList

def piC8 : Json := Json.str ("deliver a dog report".toList)

/-- C8 counterexample: the model-provided understanding item (the query
itself) is discarded as near-verbatim, the rebuild keeps the non-near-verbatim
`primary_intent` in the `Core ask:` template, yet the resulting template line
normalizes to exactly the user's sentence and *is* near-verbatim; since the
other rebuilt items are not, the all-near-verbatim reset does not fire and the
final display echoes the user's sentence. -/
theorem claim_C8_counterexample :
    isVerbatimLike qC8 qC8 = true ∧
    isVerbatimLike ("deliver a dog report".toList) qC8 = false ∧
    isVerbatimLike (("Core ask: deliver a dog report").toList) qC8 = true ∧
    (normalizeUnderstandingItems qC8 [Json.str qC8] piC8 (Json.str [])
        (Json.str ("bullet summary".toList)) (Json.str ("standard".toList)) [] []).any
      (fun item => isVerbatimLike item qC8) = true := by
  refine ⟨by decide, by decide, by decide, by decide⟩

/-- Witness for C8: at the counterexample inputs, the filter empties the list
and the rebuilt template is returned (its items are not all near-verbatim). -/
theorem claim_C8_witness :
    normalizeUnderstandingItems qC8 [Json.str qC8] piC8 (Json.str [])
        (Json.str ("bullet summary".toList)) (Json.str ("standard".toList)) [] []
      = coreRebuildItems qC8 piC8 (Json.str [])
        (Json.str ("bullet summary".toList)) (Json.str ("standard".toList)) [] [] :=
  (claim_C8 qC8 [Json.str qC8] piC8 (Json.str [])
      (Json.str ("bullet summary".toList)) (Json.str ("standard".toList)) [] []).2.2.2
    (by decide) (by decide)

theorem cleanOptionsFold_inv : ∀ (options : List Json) (st : List Str × List Str),
    st.2 = st.1.map lowerStr →
    (options.foldl cleanOptionsStep st).2 = (options.foldl cleanOptionsStep st).1.map lowerStr := by
  intro options
  induction options with
  | nil => intro st h; exact h
  | cons o rest ih =>
    intro st h
    simp only [List.foldl_cons]
    apply ih
    unfold cleanOptionsStep
    dsimp only
    by_cases h1 : pyStrip (pyStr o) = []
    · rw [if_pos h1]
      exact h
    · rw [if_neg h1]
      by_cases h2 : lowerStr (pyStrip (pyStr o)) ∈ st.2
      · rw [if_pos h2]
        exact h
      · rw [if_neg h2]
        dsimp only
        rw [h, List.map_append]
        rfl

theorem cleanOptions_spec (options : List Json) :
    ((cleanOptions options).take 6).length ≤ 6 ∧
    (((cleanOptions options).take 6).length < 6 →
      ∃ o ∈ (cleanOptions options).take 6, lowerStr o = sentinelLower) := by
  constructor
  · rw [List.length_take]
    exact Nat.min_le_left _ _
  · intro hlt
    have hle : (cleanOptions options).length < 6 := by
      rw [List.length_take] at hlt
      omega
    have htk : (cleanOptions options).take 6 = cleanOptions options :=
      List.take_of_length_le (by omega)
    rw [htk]
    have hinv := cleanOptionsFold_inv options ([], []) rfl
    unfold cleanOptions
    unfold cleanOptions at hle
    dsimp only at hle ⊢
    by_cases hs : sentinelLower ∈ (options.foldl cleanOptionsStep ([], [])).2
    · rw [if_pos hs]
      rw [hinv] at hs
      obtain ⟨o, ho, hlo⟩ := List.mem_map.mp hs
      exact ⟨o, ho, hlo⟩
    · rw [if_neg hs]
      refine ⟨sentinelOption, List.mem_append_right _ (by simp), by decide⟩

theorem addQuestion_mem {qs : List Question} {qid text : Str} {opts : List Str}
    {qu : Question} (h : qu ∈ addQuestion qs qid text opts) :
    qu ∈ qs ∨ qu.options = (if sentinelOption ∈ opts then opts else opts ++ [sentinelOption]) := by
  unfold addQuestion at h
  by_cases hd : qs.any (fun qu2 => qu2.question = text)
  · rw [if_pos hd] at h
    exact Or.inl h
  · rw [if_neg hd] at h
    rcases List.mem_append.mp h with h1 | h1
    · exact Or.inl h1
    · right
      rw [List.mem_singleton] at h1
      rw [h1]

theorem addQuestion_nodup {qs : List Question} {qid text : Str} {opts : List Str}
    (h : (qs.map Question.question).Nodup) :
    ((addQuestion qs qid text opts).map Question.question).Nodup := by
  unfold addQuestion
  by_cases hd : qs.any (fun qu2 => qu2.question = text)
  · rw [if_pos hd]
    exact h
  · rw [if_neg hd]
    rw [List.map_append]
    simp only [List.map_cons, List.map_nil]
    rw [List.nodup_append]
    refine ⟨h, List.nodup_singleton _, ?_⟩
    intro a ha hb
    have hat : a = text := by simpa using hb
    subst hat
    obtain ⟨qu, hqu, hq⟩ := List.mem_map.mp ha
    have : qs.any (fun qu2 => qu2.question = a) = true :=
      List.any_eq_true.mpr ⟨qu, hqu, by simp [hq]⟩
    exact hd this

theorem foldAdd_mem : ∀ (cs : List (Str × Str × List Str)) (qs₀ : List Question)
    (qu : Question),
    qu ∈ cs.foldl (fun qs c => addQuestion qs c.1 c.2.1 c.2.2) qs₀ →
    qu ∈ qs₀ ∨ ∃ c ∈ cs, qu.options =
      (if sentinelOption ∈ c.2.2 then c.2.2 else c.2.2 ++ [sentinelOption]) := by
  intro cs
  induction cs with
  | nil => intro qs₀ qu h; exact Or.inl h
  | cons c rest ih =>
    intro qs₀ qu h
    simp only [List.foldl_cons] at h
    rcases ih _ qu h with h1 | ⟨c2, hc2, hopt⟩
    · rcases addQuestion_mem h1 with h2 | h2
      · exact Or.inl h2
      · exact Or.inr ⟨c, by simp, h2⟩
    · exact Or.inr ⟨c2, List.mem_cons_of_mem c hc2, hopt⟩

theorem foldAdd_nodup : ∀ (cs : List (Str × Str × List Str)) (qs₀ : List Question),
    (qs₀.map Question.question).Nodup →
    ((cs.foldl (fun qs c => addQuestion qs c.1 c.2.1 c.2.2) qs₀).map Question.question).Nodup := by
  intro cs
  induction cs with
  | nil => intro qs₀ h; exact h
  | cons c rest ih =>
    intro qs₀ h
    simp only [List.foldl_cons]
    exact ih _ (addQuestion_nodup h)

theorem fbCands_opts (f1 f2 f3 f4 f5 f6 f7 f8 : Bool) (topicLabel audienceHint deliverableHint : Str) :
    ∀ c ∈ (fbCands f1 f2 f3 f4 f5 f6 f7 f8 topicLabel audienceHint deliverableHint).filterMap
      (fun c => if c.1 then some c.2 else none),
      c.2.2.length ≤ 5 ∧ sentinelOption ∉ c.2.2 := by
  intro c hc
  obtain ⟨a, ha, hif⟩ := List.mem_filterMap.mp hc
  have hac : a.2 = c := by
    by_cases h1 : a.1
    · rw [if_pos h1] at hif
      exact Option.some_inj.mp hif
    · rw [if_neg h1] at hif
      exact absurd hif (by simp)
  simp only [fbCands, List.mem_cons, List.not_mem_nil, or_false] at ha
  rcases ha with h | h | h | h | h | h | h | h | h <;>
    (subst h; rw [← hac]; dsimp only; exact ⟨by decide, by decide⟩)

theorem buildFallbackQuestions_spec {q : Str} {draftOpt : Option Json} {qs : List Question}
    (h : buildFallbackQuestions q draftOpt = Except.ok qs) :
    qs.length ≤ 6 ∧ (qs.map Question.question).Nodup ∧
    (∀ qu ∈ qs, qu.options.length ≤ 6 ∧ sentinelOption ∈ qu.options) := by
  unfold buildFallbackQuestions at h
  cases h1 : fbFormatE draftOpt with
  | error e => rw [h1] at h; exact absurd h (by simp)
  | ok df =>
    rw [h1] at h
    dsimp only at h
    cases h2 : fbQ9E q draftOpt with
    | error e => rw [h2] at h; exact absurd h (by simp)
    | ok q9 =>
      rw [h2] at h
      have hqs : qs = fbAssemble q draftOpt df q9 := by
        have := Option.some_inj.mp (congrArg Except.toOption h)
        exact this.symm
      subst hqs
      unfold fbAssemble
      dsimp only
      refine ⟨?_, ?_, ?_⟩
      · rw [List.length_take]
        exact Nat.min_le_left _ _
      · exact List.Nodup.sublist (List.Sublist.map _ (List.take_sublist _ _))
          (foldAdd_nodup _ ([] : List Question) (by simp))
      · intro qu hqu
        have hqu2 := List.mem_of_mem_take hqu
        rcases foldAdd_mem _ _ _ hqu2 with h3 | ⟨c, hc, hopt⟩
        · exact absurd h3 (List.not_mem_nil qu)
        · obtain ⟨hlen, hnotin⟩ := fbCands_opts _ _ _ _ _ _ _ _ _ _ _ c hc
          rw [if_neg hnotin] at hopt
          constructor
          · rw [hopt, List.length_append]
            simpa using hlen
          · rw [hopt]
            exact List.mem_append_right _ (by simp)

theorem normalizeOneQuestion_opts {idx : Nat} {item : Json} {qu : Question}
    (h : normalizeOneQuestion idx item = Except.ok (some qu)) :
    ∃ opts, qu.options = (cleanOptions opts).take 6 := by
  cases item with
  | obj ms =>
    unfold normalizeOneQuestion at h
    dsimp only at h
    cases hq : pyOr (lookupField ms ("question".toList))
        (pyOr (lookupField ms ("prompt".toList)) (Json.str [])) with
    | str s =>
      rw [hq] at h
      dsimp only at h
      have h2 := Option.some_inj.mp (congrArg Except.toOption h)
      have h3 := Option.some_inj.mp h2
      rw [← h3]
      exact ⟨_, rfl⟩
    | null => rw [hq] at h; exact absurd h (by simp)
    | bool b => rw [hq] at h; exact absurd h (by simp)
    | num n => rw [hq] at h; exact absurd h (by simp)
    | arr xs => rw [hq] at h; exact absurd h (by simp)
    | obj kvs => rw [hq] at h; exact absurd h (by simp)
  | null => exact absurd h (by simp [normalizeOneQuestion])
  | bool b => exact absurd h (by simp [normalizeOneQuestion])
  | num n => exact absurd h (by simp [normalizeOneQuestion])
  | str s => exact absurd h (by simp [normalizeOneQuestion])
  | arr xs => exact absurd h (by simp [normalizeOneQuestion])

theorem normalizeRawQuestions_opts : ∀ (items : List Json) (idx : Nat) (qs : List Question),
    normalizeRawQuestions items idx = Except.ok qs →
    ∀ qu ∈ qs, ∃ opts, qu.options = (cleanOptions opts).take 6 := by
  intro items
  induction items with
  | nil =>
    intro idx qs h qu hqu
    simp only [normalizeRawQuestions, Except.ok.injEq] at h
    rw [← h] at hqu
    exact absurd hqu (List.not_mem_nil qu)
  | cons item rest ih =>
    intro idx qs h qu hqu
    simp only [normalizeRawQuestions] at h
    cases h1 : normalizeOneQuestion idx item with
    | error e => rw [h1] at h; exact absurd h (by simp)
    | ok o =>
      rw [h1] at h
      cases o with
      | none =>
        dsimp only at h
        exact ih (idx+1) qs h qu hqu
      | some qu0 =>
        dsimp only at h
        cases h2 : normalizeRawQuestions rest (idx+1) with
        | error e => rw [h2] at h; exact absurd h (by simp)
        | ok qs2 =>
          rw [h2] at h
          have h3 := Option.some_inj.mp (congrArg Except.toOption h)
          rw [← h3] at hqu
          rcases List.mem_cons.mp hqu with h4 | h4
          · rw [h4]
            exact normalizeOneQuestion_opts h1
          · exact ih (idx+1) qs2 h2 qu h4

theorem insertQDesc_perm (f : Question → Int) (e : Question) :
    ∀ l, (insertQDesc f e l).Perm (e :: l) := by
  intro l
  induction l with
  | nil => exact List.Perm.refl _
  | cons x xs ih =>
    unfold insertQDesc
    by_cases hk : f e ≤ f x
    · rw [if_pos hk]
      exact (ih.cons x).trans (List.Perm.swap e x xs)
    · rw [if_neg hk]

theorem sortQDescAux_perm (f : Question → Int) : ∀ (rest acc : List Question),
    (sortQDescAux f acc rest).Perm (acc ++ rest) := by
  intro rest
  induction rest with
  | nil => intro acc; simp [sortQDescAux]
  | cons e rs ih =>
    intro acc
    have h1 := ih (insertQDesc f e acc)
    have h2 : (insertQDesc f e acc ++ rs).Perm (acc ++ e :: rs) :=
      ((insertQDesc_perm f e acc).append_right rs).trans List.perm_middle.symm
    exact h1.trans h2

theorem sortQDesc_perm (f : Question → Int) (l : List Question) :
    (sortQDesc f l).Perm l := by
  have := sortQDescAux_perm f l []
  simpa [sortQDesc] using this

theorem backfill_mem : ∀ (fb : List Question) (cur : List Question) (qu : Question),
    qu ∈ backfillQuestions fb cur → qu ∈ cur ∨ qu ∈ fb := by
  intro fb
  unfold backfillQuestions
  induction fb with
  | nil => intro cur qu h; exact Or.inl h
  | cons f rest ih =>
    intro cur qu h
    simp only [List.foldl_cons] at h
    rcases ih _ qu h with h1 | h1
    · by_cases h2 : 3 ≤ cur.length
      · rw [if_pos h2] at h1
        exact Or.inl h1
      · rw [if_neg h2] at h1
        by_cases h3 : (lowerStr f.question) ∈ cur.map (fun qu2 => lowerStr qu2.question)
        · rw [if_pos h3] at h1
          exact Or.inl h1
        · rw [if_neg h3] at h1
          rcases List.mem_append.mp h1 with h4 | h4
          · exact Or.inl h4
          · exact Or.inr (List.mem_cons.mpr (Or.inl (by simpa using h4)))
    · exact Or.inr (List.mem_cons_of_mem f h1)

theorem assembleQuestions_len (n0 fbqs : List Question) (score : Question → Int) :
    (assembleQuestions n0 fbqs score).length ≤ 6 := by
  unfold assembleQuestions
  dsimp only
  rw [List.length_take]
  exact Nat.min_le_left _ _

theorem assembleQuestions_mem (n0 fbqs : List Question) (score : Question → Int) :
    ∀ qu ∈ assembleQuestions n0 fbqs score, qu ∈ n0 ∨ qu ∈ fbqs := by
  intro qu h
  unfold assembleQuestions at h
  dsimp only at h
  have h2 := List.mem_of_mem_take h
  have hR : ∀ x ∈ sortQDesc score n0, x ∈ n0 :=
    fun x hx => (sortQDesc_perm score n0).subset hx
  have hF : ∀ x, x ∈ (if ((sortQDesc score n0).filter
        (fun qu2 => decide (2 ≤ score qu2))).length < 2 then
        (sortQDesc score n0).take 2
      else (sortQDesc score n0).filter (fun qu2 => decide (2 ≤ score qu2))) → x ∈ n0 := by
    intro x hx
    by_cases hc : ((sortQDesc score n0).filter (fun qu2 => decide (2 ≤ score qu2))).length < 2
    · rw [if_pos hc] at hx
      exact hR x (List.mem_of_mem_take hx)
    · rw [if_neg hc] at hx
      exact hR x (List.mem_of_mem_filter hx)
  by_cases hc2 : (if ((sortQDesc score n0).filter
        (fun qu2 => decide (2 ≤ score qu2))).length < 2 then
        (sortQDesc score n0).take 2
      else (sortQDesc score n0).filter (fun qu2 => decide (2 ≤ score qu2))).length < 3
  · rw [if_pos hc2] at h2
    rcases backfill_mem _ _ _ h2 with h3 | h3
    · exact Or.inl (hF qu h3)
    · exact Or.inr h3
  · rw [if_neg hc2] at h2
    exact Or.inl (hF qu h2)

/-- C3 (amended): for every raw analysis object and user query, whenever the
question pipeline of `_normalize_intent_draft` returns normally it yields at
most six questions; every question carries at most six options, and any
question with fewer than six options contains the `"Other / I'll type it"`
sentinel up to case; when the raw object is absent or falsy the questions are
the fallback set, which additionally has pairwise-distinct texts and the
literal sentinel in every option list.  (The original claim's lower bound of
three questions, its global no-duplicate guarantee, and its unconditional
sentinel guarantee are refuted by `claim_C3_counterexample`.) -/
theorem claim_C3 (raw : Option Json) (q : Str) :
    match normalizeQuestions raw q with
    | Except.ok qs =>
        qs.length ≤ 6 ∧
        (∀ qu ∈ qs, qu.options.length ≤ 6 ∧
          (qu.options.length < 6 → ∃ o ∈ qu.options, lowerStr o = sentinelLower)) ∧
        ((match raw with
          | none => True
          | some r => r.truthy = false) →
          (qs.map Question.question).Nodup ∧ ∀ qu ∈ qs, sentinelOption ∈ qu.options)
    | Except.error _ => True := by
  have hfb : ∀ (d : Option Json) (qs : List Question),
      buildFallbackQuestions q d = Except.ok qs →
      qs.length ≤ 6 ∧
      (∀ qu ∈ qs, qu.options.length ≤ 6 ∧
        (qu.options.length < 6 → ∃ o ∈ qu.options, lowerStr o = sentinelLower)) ∧
      (qs.map Question.question).Nodup ∧ (∀ qu ∈ qs, sentinelOption ∈ qu.options) := by
    intro d qs h
    obtain ⟨h1, h2, h3⟩ := buildFallbackQuestions_spec h
    refine ⟨h1, ?_, h2, fun qu hqu => (h3 qu hqu).2⟩
    intro qu hqu
    obtain ⟨hlen, hsent⟩ := h3 qu hqu
    exact ⟨hlen, fun _ => ⟨sentinelOption, hsent, by decide⟩⟩
  cases raw with
  | none =>
    have hred : normalizeQuestions none q = buildFallbackQuestions q none := rfl
    rw [hred]
    cases hb : buildFallbackQuestions q none with
    | error e => simp
    | ok qs =>
      obtain ⟨h1, h2, h3, h4⟩ := hfb none qs hb
      exact ⟨h1, h2, fun _ => ⟨h3, h4⟩⟩
  | some r =>
    by_cases ht : r.truthy = true
    · cases r with
      | obj ms =>
        unfold normalizeQuestions
        dsimp only
        rw [ht]
        simp only [Bool.not_true, Bool.false_eq_true, if_false]
        cases hn : normalizeRawQuestions
            (match pyOr (lookupField ms ("questions".toList))
              (pyOr (lookupField ms ("clarification_questions".toList)) (Json.arr JsonList.nil)) with
             | Json.arr xs => xs.toList
             | _ => []) 1 with
        | error e => simp
        | ok n0 =>
          dsimp only
          cases hbf : buildFallbackQuestions q
              (match pyOr (lookupField ms ("draft_intent".toList))
                (pyOr (lookupField ms ("draft".toList))
                  (pyOr (lookupField ms ("intent_draft".toList)) (Json.obj JsonMembers.nil))) with
               | Json.obj dms => some (Json.obj dms)
               | _ => none) with
          | error e => simp
          | ok fbqs =>
            dsimp only
            refine ⟨assembleQuestions_len _ _ _, ?_, ?_⟩
            · intro qu hqu
              rcases assembleQuestions_mem _ _ _ qu hqu with h1 | h1
              · obtain ⟨opts, hopts⟩ := normalizeRawQuestions_opts _ 1 n0 hn qu h1
                rw [hopts]
                exact ⟨(cleanOptions_spec opts).1, (cleanOptions_spec opts).2⟩
              · obtain ⟨hlen, hsent⟩ := (buildFallbackQuestions_spec hbf).2.2 qu h1
                exact ⟨hlen, fun _ => ⟨sentinelOption, hsent, by decide⟩⟩
            · intro hfalse
              exact absurd hfalse (by simp [ht])
      | null => simp [normalizeQuestions, Json.truthy] at ht
      | bool b =>
        unfold normalizeQuestions
        dsimp only
        rw [ht]
        simp
      | num n =>
        unfold normalizeQuestions
        dsimp only
        rw [ht]
        simp
      | str s =>
        unfold normalizeQuestions
        dsimp only
        rw [ht]
        simp
      | arr xs =>
        unfold normalizeQuestions
        dsimp only
        rw [ht]
        simp
    · have htf : r.truthy = false := by
        simpa using ht
      have hred : normalizeQuestions (some r) q = buildFallbackQuestions q none := by
        unfold normalizeQuestions
        dsimp only
        rw [htf]
        rfl
      rw [hred]
      cases hb : buildFallbackQuestions q none with
      | error e => simp
      | ok qs =>
        obtain ⟨h1, h2, h3, h4⟩ := hfb none qs hb
        exact ⟨h1, h2, fun _ => ⟨h3, h4⟩⟩

/-- The C3 counterexample query: its words make `has_depth`, `has_audience`,
`has_format`, `has_sources` all true, so the fallback set is the single
question q2. -/
def qC3 : Str := "audience detailed outline source".toList

/-- Exactly the q2 fallback text that `_build_fallback_questions` produces
for `qC3` with an empty draft. -/
def tC3 : Str :=
  "What should this output enable the intended audience to do about audience detailed outline source?".toList

def rawQuestionC3 : Json :=
  Json.obj (JsonMembers.ofList
    [("question".toList, Json.str tC3),
     ("options".toList, Json.arr (JsonList.ofList
       [Json.str ("O1".toList), Json.str ("O2".toList), Json.str ("O3".toList),
        Json.str ("O4".toList), Json.str ("O5".toList), Json.str ("O6".toList)]))])

/-- A raw analysis object with two identical model questions (each with six
distinct non-sentinel options) whose text coincides with the only available
fallback question. -/
def rawC3 : Json :=
  Json.obj (JsonMembers.ofList
    [("questions".toList, Json.arr (JsonList.ofList [rawQuestionC3, rawQuestionC3]))])

/-- Question texts of a pipeline result (for concrete evaluation). -/
def qResultTexts (r : Except Unit (List Question)) : List Str :=
  match r with
  | Except.ok qs => qs.map Question.question
  | Except.error _ => []

/-- Option lists of a pipeline result (for concrete evaluation). -/
def qResultOpts (r : Except Unit (List Question)) : List (List Str) :=
  match r with
  | Except.ok qs => qs.map Question.options
  | Except.error _ => []

/-- C3 counterexample: on `rawC3`/`qC3` the pipeline returns exactly two
questions (violating the 3..6 lower bound), with identical texts (violating
the no-duplicate invariant), and each question's six options lack the
sentinel even case-insensitively (the append happened before the `[:6]`
truncation and was cut off): all three parts of the claimed invariant fail. -/
theorem claim_C3_counterexample :
    qResultTexts (normalizeQuestions (some rawC3) qC3) = [tC3, tC3] ∧
    qResultOpts (normalizeQuestions (some rawC3) qC3) =
      [["O1".toList, "O2".toList, "O3".toList, "O4".toList, "O5".toList, "O6".toList],
       ["O1".toList, "O2".toList, "O3".toList, "O4".toList, "O5".toList, "O6".toList]] ∧
    (∀ opts ∈ qResultOpts (normalizeQuestions (some rawC3) qC3),
      opts.length = 6 ∧ ∀ o ∈ opts, lowerStr o ≠ sentinelLower) := by
  set_option maxRecDepth 4000 in
  refine ⟨by decide, by decide, by decide⟩

/-- Witness for C3: the amended invariant at the concrete counterexample
input. -/
theorem claim_C3_witness :
    match normalizeQuestions (some rawC3) qC3 with
    | Except.ok qs =>
        qs.length ≤ 6 ∧
        (∀ qu ∈ qs, qu.options.length ≤ 6 ∧
          (qu.options.length < 6 → ∃ o ∈ qu.options, lowerStr o = sentinelLower)) ∧
        ((match (some rawC3 : Option Json) with
          | none => True
          | some r => r.truthy = false) →
          (qs.map Question.question).Nodup ∧ ∀ qu ∈ qs, sentinelOption ∈ qu.options)
    | Except.error _ => True :=
  claim_C3 (some rawC3) qC3

end Council
